import Mathlib

/-!
# Verification of `injector/metapodtemplate.go`

Shallow embedding of the pointer resolver (`find`, `keys`, `getAt`, `setAt`) and of the
projection protocol (`NewMetaPodTemplate`, `WriteToWorkload`) of the service binding
controller, followed by the theorems that settle the claims made about them.

Modelling conventions

* The generic tree produced by `ToUnstructured` is a `Node`. Go maps are reference values
  that `find` and `setAt` mutate in place; the embedding passes the tree explicitly and a
  `reflect.Value` that denotes a map inside the tree is represented by the list of keys
  leading to it (`Value.conc`, `Value.iface`).
* A Go call ends in one of three ways: it returns without error, it returns an error, or it
  panics (`reflect` panics, index out of range). All three are kept apart.
* Library code (`encoding/json` on typed targets, `jsonpath`, the unstructured converter) is
  not part of the package; it is taken as a parameter (`Library`).
-/

namespace Injector

/-! ## Generic trees -/

/-- Generic tree node: the dynamic values behind `interface{}` in an unstructured object. -/
inductive Node where
  | null
  | bool (b : Bool)
  | num (n : Int)
  | str (s : String)
  | seq (xs : List Node)
  | map (kvs : List (String × Node))

/-- The kinds of `reflect.Kind` that occur during traversal. -/
inductive Kind where
  | Invalid
  | Bool
  | Int64
  | String
  | Slice
  | Map
  | Interface
  deriving DecidableEq, Repr

/-- Errors returned (not panics). -/
inductive GoError where
  /-- Error of `find`: `fmt.Errorf("unhandled kind %q", value.Kind())`. -/
  | unhandledKind (k : Kind)
  /-- Error of `setAt`: `fmt.Errorf("unsupported kind %s", ...)`. -/
  | unsupportedKind
  /-- Error of `json.Unmarshal` into a typed target. -/
  | unmarshal
  /-- Error of `jsonpath.Parse`. -/
  | jsonpathParse
  /-- Error of `FromUnstructured`. -/
  | fromUnstructured
  deriving DecidableEq, Repr

/-- Go `m[k]` on a `map[string]interface{}` with presence: `reflect.Value.MapIndex`. -/
def mapIndex (k : String) : List (String × Node) → Option Node
  | [] => none
  | (k', v) :: rest => if k' = k then some v else mapIndex k rest

/-- Go `m[k] = v`: `reflect.Value.SetMapIndex` with a valid element. -/
def setMapIndex (k : String) (v : Node) : List (String × Node) → List (String × Node)
  | [] => [(k, v)]
  | (k', v') :: rest => if k' = k then (k, v) :: rest else (k', v') :: setMapIndex k v rest

/-- Go `delete(m, k)`: `reflect.Value.SetMapIndex` with the zero `Value` as element. -/
def deleteMapIndex (k : String) : List (String × Node) → List (String × Node)
  | [] => []
  | (k', v') :: rest =>
    if k' = k then deleteMapIndex k rest else (k', v') :: deleteMapIndex k rest

/-- The node reached from `n` by following the keys `loc` through mappings. -/
def Node.get : Node → List String → Option Node
  | n, [] => some n
  | .map kvs, k :: ks =>
    match mapIndex k kvs with
    | some c => c.get ks
    | none => none
  | _, _ :: _ => none

/-- In-place `SetMapIndex(k, v)` on the map located at `loc`; `v = none` is the zero `Value`
(the key is deleted). The result is `none` when `loc` does not lead to a map (`reflect`
panics). -/
def Node.setIn : Node → List String → String → Option Node → Option Node
  | .map kvs, [], k, some v => some (.map (setMapIndex k v kvs))
  | .map kvs, [], k, none => some (.map (deleteMapIndex k kvs))
  | .map kvs, j :: js, k, v =>
    match mapIndex j kvs with
    | some c =>
      match c.setIn js k v with
      | some c' => some (.map (setMapIndex j c' kvs))
      | none => none
    | none => none
  | _, _, _, _ => none

/-- Dynamic kind of a node held in an interface. -/
def Node.kind : Node → Kind
  | .null => .Invalid
  | .bool _ => .Bool
  | .num _ => .Int64
  | .str _ => .String
  | .seq _ => .Slice
  | .map _ => .Map

/-! ## `reflect.Value` -/

/-- A `reflect.Value` met by `find`, relative to the tree it walks.

* `invalid`: the zero `Value` (`reflect.ValueOf(nil)`, `MapIndex` of a missing key);
* `iface loc`: a value of kind `Interface` (a map element or slice element), whose content is
  the node at `loc`; it is the nil interface when that node is `null`;
* `conc loc`: the concrete value obtained by `Elem()` or `reflect.ValueOf`, located at `loc`. -/
inductive Value where
  | invalid
  | iface (loc : List String)
  | conc (loc : List String)
  deriving DecidableEq, Repr

/-- Go `value.Kind()`. -/
def Value.kind (t : Node) : Value → Kind
  | .invalid => .Invalid
  | .iface _ => .Interface
  | .conc l =>
    match t.get l with
    | some n => n.kind
    | none => .Invalid

/-- Go `!value.IsValid() || value.IsNil()`; `none` when `IsNil` panics, which it does on a
value of kind bool, number or string. -/
def Value.isAbsent (t : Node) : Value → Option Bool
  | .invalid => some true
  | .iface l =>
    match t.get l with
    | some .null => some true
    | some _ => some false
    | none => some true
  | .conc l =>
    match t.get l with
    | some (.map _) => some false
    | some (.seq _) => some false
    | some .null => some true
    | some _ => none
    | none => some true

/-- Go `value.Elem()` on a value of kind `Interface`. -/
def Value.elem : Value → Value
  | .iface l => .conc l
  | v => v

/-- Go `value.MapIndex(reflect.ValueOf(k))` on a value of kind `Map`. -/
def Value.mapIndex (t : Node) (v : Value) (k : String) : Value :=
  match v with
  | .conc l =>
    match t.get (l ++ [k]) with
    | some _ => .iface (l ++ [k])
    | none => .invalid
  | _ => .invalid

/-- The node a value holds (`value.Interface()`); `null` for the zero `Value`. -/
def Value.node (t : Node) : Value → Node
  | .invalid => .null
  | .iface l => (t.get l).getD .null
  | .conc l => (t.get l).getD .null

/-! ## `keys` -/

/-- Go `strings.Split(s, "/")` on the characters of `s`. -/
def splitSlash : List Char → List (List Char)
  | [] => [[]]
  | c :: cs =>
    if c = '/' then [] :: splitSlash cs
    else
      match splitSlash cs with
      | [] => [[c]]
      | p :: ps => (c :: p) :: ps

/-- Go `strings.TrimPrefix(s, "/")`. -/
def trimPrefixSlash : List Char → List Char
  | '/' :: cs => cs
  | cs => cs

/-- Go `keys`: strip one leading slash, split on slash. -/
def keys (ptr : String) : List String :=
  (splitSlash (trimPrefixSlash ptr.toList)).map String.mk

/-! ## `find` -/

/-- Result of `find`: the returned quadruple together with the tree after the call, or a
panic. -/
inductive FindOut where
  | ret (value parent : Value) (lastKey : String) (err : Option GoError) (tree : Node)
  | panic

/-- Outcome of the first statement of `find` (the nil check). -/
inductive Ensured where
  | panic
  | absent
  | present (tree : Node) (value : Value)

/-- First statement of `find`:
```
if !value.IsValid() || value.IsNil() {
    if !createIfNil { return reflect.ValueOf(nil), reflect.ValueOf(nil), "", nil }
    value = reflect.ValueOf(make(map[string]interface{}))
    parent.SetMapIndex(reflect.ValueOf(lastKey), value)
}
```
`SetMapIndex` panics unless `parent` is a map. -/
def ensure (t : Node) (value parent : Value) (lastKey : String) (createIfNil : Bool) :
    Ensured :=
  match value.isAbsent t with
  | none => .panic
  | some false => .present t value
  | some true =>
    if !createIfNil then .absent
    else
      match parent with
      | .conc pl =>
        match t.setIn pl lastKey (some (.map [])) with
        | some t' => .present t' (.conc (pl ++ [lastKey]))
        | none => .panic
      | _ => .panic

/-- Go `find`. The recursive call of the `reflect.Interface` case, which keeps `keys`, is
unfolded in place: `value.Elem()` is never of kind `Interface`, so the re-entered body runs
its nil check and then takes the `reflect.Map` case or the default case. -/
def find (t : Node) (value parent : Value) (keys : List String) (lastKey : String)
    (createIfNil : Bool) : FindOut :=
  match ensure t value parent lastKey createIfNil with
  | .panic => .panic
  | .absent => .ret .invalid .invalid "" none t
  | .present t value =>
    match keys with
    | [] => .ret value parent lastKey none t
    | k :: ks =>
      match value.kind t with
      | .Map => find t (value.mapIndex t k) value ks k createIfNil
      | .Interface =>
        match ensure t value.elem value lastKey createIfNil with
        | .panic => .panic
        | .absent => .ret .invalid .invalid "" none t
        | .present t e =>
          match e.kind t with
          | .Map => find t (e.mapIndex t k) e ks k createIfNil
          | kd => .ret .invalid value lastKey (some (.unhandledKind kd)) t
      | kd => .ret .invalid parent lastKey (some (.unhandledKind kd)) t

/-! ## Typed values and coercion -/

/-- The typed values handed to `setAt` behind a pointer, by kind of the pointed-to value:
a `map[string]string`, a slice, a string, or a value of any other kind. Maps and slices may
be nil. The elements of a slice (`corev1.EnvVar`, `corev1.VolumeMount`, `corev1.Volume`) are
represented by their JSON encoding. -/
inductive GoValue where
  | mapSS (m : Option (List (String × String)))
  | slice (xs : Option (List Node))
  | str (s : String)
  | other

/-- The value of `out` in `setAt` after `json.Marshal(value)` and `json.Unmarshal(b, &out)`:
`none` on the default case of the kind switch (unsupported kind). A nil map or nil slice is
marshalled as JSON `null`, and unmarshalling `null` into `&out` sets `out` to nil whatever it
was initialised with. -/
def GoValue.generic : GoValue → Option Node
  | .mapSS none => some .null
  | .mapSS (some kvs) => some (.map (kvs.map fun kv => (kv.1, .str kv.2)))
  | .slice none => some .null
  | .slice (some xs) => some (.seq xs)
  | .str s => some (.str s)
  | .other => none

/-- Go `reflect.ValueOf(out)` as the element of `SetMapIndex`: the zero `Value` when `out`
is nil. -/
def valueOfOut : Node → Option Node
  | .null => none
  | n => some n

/-- Outcome of a call that mutates the generic tree: normal return, returned error (with the
tree as it is at that moment) or panic. -/
inductive Exec where
  | ok (tree : Node)
  | err (e : GoError) (tree : Node)
  | panic

/-- Outcome of a call that returns a value or an error, or panics. -/
inductive Result (α : Type) where
  | ok (a : α)
  | err (e : GoError)
  | panic

/-! ## `setAt` and `getAt` -/

/-- Go `setAt(ptr, value, target)`; `t` is the tree `target` refers to. -/
def setAt (ptr : String) (value : GoValue) (t : Node) (target : Value) : Exec :=
  match find t target .invalid (keys ptr) "" true with
  | .panic => .panic
  | .ret _ _ _ (some e) t' => .err e t'
  | .ret _ vp lk none t' =>
    match value.generic with
    | none => .err .unsupportedKind t'
    | some out =>
      match vp with
      | .conc pl =>
        match t'.setIn pl lk (valueOfOut out) with
        | some t2 => .ok t2
        | none => .panic
      | _ => .panic

/-- Go `getAt(ptr, source, target)`; `t` is the tree `source` refers to, `unmarshal n x` is
`json.Unmarshal` of the encoding of `n` into a target that holds `x`. The result is the
content of the target after the call. -/
def getAt {τ : Type} (unmarshal : Node → τ → Except GoError τ) (ptr : String) (t : Node)
    (source : Value) (target : τ) : Result τ :=
  match find t source .invalid (keys ptr) "" false with
  | .panic => .panic
  | .ret _ _ _ (some e) _ => .err e
  | .ret v _ _ none t' =>
    match v.isAbsent t' with
    | none => .panic
    | some true => .ok target
    | some false =>
      match unmarshal (v.node t') target with
      | .ok x => .ok x
      | .error e => .err e

/-- Go `json.Unmarshal` into a `*string`. -/
def unmarshalString (n : Node) (target : String) : Except GoError String :=
  match n with
  | .str s => .ok s
  | .null => .ok target
  | _ => .error .unmarshal

/-- Go `m[k] = v` on a `map[string]string`. -/
def setStringIndex (k v : String) : List (String × String) → List (String × String)
  | [] => [(k, v)]
  | (k', v') :: rest =>
    if k' = k then (k, v) :: rest else (k', v') :: setStringIndex k v rest

/-- Entries of a JSON object stored one by one into a `map[string]string`: a string is
stored, `null` stores the empty string, any other value is a type error. -/
def unmarshalEntries : List (String × Node) → List (String × String) →
    Option (List (String × String))
  | [], acc => some acc
  | (k, .str s) :: rest, acc => unmarshalEntries rest (setStringIndex k s acc)
  | (k, .null) :: rest, acc => unmarshalEntries rest (setStringIndex k "" acc)
  | _ :: _, _ => none

/-- Go `json.Unmarshal` into a `*map[string]string`: entries are added to the map the target
holds (a nil map is allocated first). -/
def unmarshalStringMap (n : Node) (target : Option (List (String × String))) :
    Except GoError (Option (List (String × String))) :=
  match n with
  | .map kvs =>
    match unmarshalEntries kvs (target.getD []) with
    | some m => .ok (some m)
    | none => .error .unmarshal
  | .null => .ok none
  | _ => .error .unmarshal

/-- The elements of a JSON array decoded one by one with `dec`; `none` when one of them is a
type error. -/
def decodeAll (dec : Node → Option Node) : List Node → Option (List Node)
  | [] => some []
  | x :: xs =>
    match dec x with
    | none => none
    | some y =>
      match decodeAll dec xs with
      | none => none
      | some ys => some (y :: ys)

/-- Go `json.Unmarshal` into a pointer to a slice of structs, `dec` decoding one element. -/
def unmarshalSlice (dec : Node → Option Node) (n : Node) (_target : Option (List Node)) :
    Except GoError (Option (List Node)) :=
  match n with
  | .seq xs =>
    match decodeAll dec xs with
    | some ys => .ok (some ys)
    | none => .error .unmarshal
  | .null => .ok none
  | _ => .error .unmarshal

/-! ## Configuration, library and projection -/

/-- Modelled from the spec: a region descriptor of the field-location configuration (type
`ClusterWorkloadResourceMappingContainer` of package `apis/v1alpha3`, whose declaration is not
among the sources): a selector expression and three pointers relative to each match, the
name pointer being optional (empty when not declared). -/
structure ClusterWorkloadResourceMappingContainer where
  Path : String
  Name : String
  Env : String
  VolumeMounts : String

/-- Modelled from the spec: the field-location configuration (type
`ClusterWorkloadResourceMappingTemplate` of package `apis/v1alpha3`, whose declaration is not
among the sources): the pointer of the bulk mapping, the region descriptors and the pointer
of the bulk list. -/
structure ClusterWorkloadResourceMappingTemplate where
  Annotations : String
  Containers : List ClusterWorkloadResourceMappingContainer
  Volumes : String

/-- One step of the location of a selector match inside the generic tree. -/
inductive Step where
  | key (k : String)
  | index (i : Nat)
  deriving DecidableEq, Repr

/-- The node at a location. -/
def Node.getPath : Node → List Step → Option Node
  | n, [] => some n
  | .map kvs, .key k :: p =>
    match mapIndex k kvs with
    | some c => c.getPath p
    | none => none
  | .seq xs, .index i :: p =>
    match xs[i]? with
    | some c => c.getPath p
    | none => none
  | _, _ :: _ => none

/-- The tree with the node at a location replaced (unchanged when nothing is there). -/
def Node.setPath : Node → List Step → Node → Node
  | _, [], r => r
  | .map kvs, .key k :: p, r =>
    match mapIndex k kvs with
    | some c => .map (setMapIndex k (c.setPath p r) kvs)
    | none => .map kvs
  | .seq xs, .index i :: p, r =>
    match xs[i]? with
    | some c => .seq (xs.set i (c.setPath p r))
    | none => .seq xs
  | n, _ :: _, _ => n

/-- The library code the package calls.

* `parse path`: `jsonpath.Parse` accepts the expression built from `path`;
* `findResults path u`: `FindResults(u)`, `none` when it returns an error (a path that is not
  found), otherwise the matches `cr[0]` in order. A match is a `reflect.Value` of kind
  `Interface` that refers to a sub-tree of `u`; it is represented by the location of that
  sub-tree, and a write through the match is a write at that location;
* `envVar`, `volumeMount`, `volume`: `json.Unmarshal` of one element into the struct type,
  `none` on a type error, otherwise the JSON encoding of the decoded struct;
* `fromUnstructured u`: `FromUnstructured(u, workload)` returns no error. -/
structure Library where
  parse : String → Bool
  findResults : String → Node → Option (List (List Step))
  envVar : Node → Option Node
  volumeMount : Node → Option Node
  volume : Node → Option Node
  fromUnstructured : Node → Bool

/-- Go `MetaContainer`. -/
structure MetaContainer where
  Name : String
  Env : Option (List Node)
  VolumeMounts : Option (List Node)

/-- Go `MetaPodTemplate`; `workload` is the workload in its unstructured form (what
`ToUnstructured` returns for it). -/
structure MetaPodTemplate where
  workload : Node
  mapping : ClusterWorkloadResourceMappingTemplate
  Annotations : Option (List (String × String))
  Containers : List MetaContainer
  Volumes : Option (List Node)

/-- The sub-tree a match refers to; a match that refers to nothing holds nil. -/
def region (u : Node) (m : List Step) : Node :=
  (u.getPath m).getD .null

/-! ## `NewMetaPodTemplate` -/

/-- Body of the inner loop of `NewMetaPodTemplate` for one match `cv`, whose sub-tree is `r`. -/
def readContainer (lib : Library) (c : ClusterWorkloadResourceMappingContainer) (r : Node) :
    Result MetaContainer :=
  match (if c.Name ≠ "" then getAt unmarshalString c.Name r (.iface []) "" else .ok "") with
  | .panic => .panic
  | .err e => .err e
  | .ok name =>
    match getAt (unmarshalSlice lib.envVar) c.Env r (.iface []) (some []) with
    | .panic => .panic
    | .err e => .err e
    | .ok env =>
      match getAt (unmarshalSlice lib.volumeMount) c.VolumeMounts r (.iface []) (some []) with
      | .panic => .panic
      | .err e => .err e
      | .ok vms => .ok { Name := name, Env := env, VolumeMounts := vms }

/-- Inner loop of `NewMetaPodTemplate`: `for _, cv := range cr[0]`, appending to the records
`acc`. -/
def readMatches (lib : Library) (c : ClusterWorkloadResourceMappingContainer) (u : Node) :
    List (List Step) → List MetaContainer → Result (List MetaContainer)
  | [], acc => .ok acc
  | m :: ms, acc =>
    match readContainer lib c (region u m) with
    | .panic => .panic
    | .err e => .err e
    | .ok mc => readMatches lib c u ms (acc ++ [mc])

/-- Outer loop of `NewMetaPodTemplate`: `for i := range mpt.mapping.Containers`. -/
def readContainers (lib : Library) (u : Node) :
    List ClusterWorkloadResourceMappingContainer → List MetaContainer →
      Result (List MetaContainer)
  | [], acc => .ok acc
  | c :: cs, acc =>
    if !lib.parse c.Path then .err .jsonpathParse
    else
      match lib.findResults c.Path u with
      | none => readContainers lib u cs acc
      | some ms =>
        match readMatches lib c u ms acc with
        | .panic => .panic
        | .err e => .err e
        | .ok acc' => readContainers lib u cs acc'

/-- Go `NewMetaPodTemplate`, on the unstructured form `u` of the workload. -/
def NewMetaPodTemplate (lib : Library) (u : Node)
    (mapping : ClusterWorkloadResourceMappingTemplate) : Result MetaPodTemplate :=
  match getAt unmarshalStringMap mapping.Annotations u (.conc []) (some []) with
  | .panic => .panic
  | .err e => .err e
  | .ok annotations =>
    match readContainers lib u mapping.Containers [] with
    | .panic => .panic
    | .err e => .err e
    | .ok containers =>
      match getAt (unmarshalSlice lib.volume) mapping.Volumes u (.conc []) (some []) with
      | .panic => .panic
      | .err e => .err e
      | .ok volumes =>
        .ok { workload := u, mapping := mapping, Annotations := annotations,
              Containers := containers, Volumes := volumes }

/-! ## `WriteToWorkload` -/

/-- Body of the inner loop of `WriteToWorkload` for one match `cv`, whose sub-tree is `r`,
and the record `mc = mpt.Containers[ci]`; the result holds the sub-tree after the writes. -/
def writeContainer (c : ClusterWorkloadResourceMappingContainer) (mc : MetaContainer)
    (r : Node) : Exec :=
  match (if c.Name ≠ "" then setAt c.Name (.str mc.Name) r (.iface []) else .ok r) with
  | .panic => .panic
  | .err e r' => .err e r'
  | .ok r1 =>
    match setAt c.Env (.slice mc.Env) r1 (.iface []) with
    | .panic => .panic
    | .err e r' => .err e r'
    | .ok r2 => setAt c.VolumeMounts (.slice mc.VolumeMounts) r2 (.iface [])

/-- Outcome of the loops of `WriteToWorkload`: they run to their end with the tree `tree` and
the counter `ci`, or the function returns an error, or it panics. -/
inductive LoopOut where
  | next (tree : Node) (ci : Nat)
  | err (e : GoError) (tree : Node)
  | panic

/-- Inner loop of `WriteToWorkload`: `for _, cv := range cr[0]` with the running index `ci`.
Indexing `mpt.Containers[ci]` panics when `ci` is out of range. The matches were evaluated
before the loop; each is a reference to a map of the tree, read here at its location in the
current tree. Reference and location denote the same map as long as no earlier write of the
loop has replaced a sub-tree that contains a later match (which takes matches nested in one
another). -/
def writeMatches (c : ClusterWorkloadResourceMappingContainer) (records : List MetaContainer) :
    List (List Step) → Node → Nat → LoopOut
  | [], u, ci => .next u ci
  | m :: ms, u, ci =>
    match records[ci]? with
    | none => .panic
    | some mc =>
      match writeContainer c mc (region u m) with
      | .panic => .panic
      | .err e r' => .err e (u.setPath m r')
      | .ok r' => writeMatches c records ms (u.setPath m r') (ci + 1)

/-- Outer loop of `WriteToWorkload`: `for i := range mpt.mapping.Containers`. -/
def writeContainers (lib : Library) (records : List MetaContainer) :
    List ClusterWorkloadResourceMappingContainer → Node → Nat → LoopOut
  | [], u, ci => .next u ci
  | c :: cs, u, ci =>
    if !lib.parse c.Path then .err .jsonpathParse u
    else
      match lib.findResults c.Path u with
      | none => writeContainers lib records cs u ci
      | some ms =>
        match writeMatches c records ms u ci with
        | .next u' ci' => writeContainers lib records cs u' ci'
        | o => o

/-- Go `WriteToWorkload`. The result holds the generic tree `u`: on `ok` it is the tree that
was converted back into the workload. -/
def WriteToWorkload (lib : Library) (mpt : MetaPodTemplate) : Exec :=
  match setAt mpt.mapping.Annotations (.mapSS mpt.Annotations) mpt.workload (.conc []) with
  | .panic => .panic
  | .err e u => .err e u
  | .ok u1 =>
    match writeContainers lib mpt.Containers mpt.mapping.Containers u1 0 with
    | .panic => .panic
    | .err e u => .err e u
    | .next u2 _ =>
      match setAt mpt.mapping.Volumes (.slice mpt.Volumes) u2 (.conc []) with
      | .panic => .panic
      | .err e u => .err e u
      | .ok u3 => if lib.fromUnstructured u3 then .ok u3 else .err .fromUnstructured u3

/-! ## Auxiliary definitions used in the statements -/

/-- The entries of a map after `SetMapIndex(k, v)`. -/
def updMap (k : String) (v : Option Node) (kvs : List (String × Node)) : List (String × Node) :=
  match v with
  | some n => setMapIndex k n kvs
  | none => deleteMapIndex k kvs

/-- A scalar node: string, number or boolean. -/
def Node.isScalar : Node → Bool
  | .bool _ => true
  | .num _ => true
  | .str _ => true
  | _ => false

/-- The empty mappings created for the keys `ks` below a created mapping. -/
def chain : List String → Node
  | [] => .map []
  | k :: ks => .map [(k, chain ks)]

/-- The value linked under the first missing key: one mapping per remaining key, the last of
which holds `o` (no entry when `o` is the zero `Value`). -/
def fill : List String → Option Node → Option Node
  | [], o => o
  | k :: ks, o =>
    some (.map (match fill ks o with
      | some n => [(k, n)]
      | none => []))

/-- The pointer with keys `ks` does not resolve in `t`: walking the keys through mappings
meets a missing key or a nil value (at the latest at its end). -/
def unresolved : Node → List String → Bool
  | .null, _ => true
  | .map kvs, k :: ks =>
    match mapIndex k kvs with
    | none => true
    | some c => unresolved c ks
  | _, _ => false

/-- The selector matches of all descriptors on the tree `u`, in descriptor order and, within
a descriptor, in match order; a descriptor whose evaluation reports an error has none. -/
def allMatches (lib : Library) (u : Node) (cs : List ClusterWorkloadResourceMappingContainer) :
    List (ClusterWorkloadResourceMappingContainer × List Step) :=
  cs.flatMap fun c => ((lib.findResults c.Path u).getD []).map fun m => (c, m)

/-- The region record of a match none of whose pointers resolves. -/
def emptyContainer : MetaContainer :=
  { Name := "", Env := some [], VolumeMounts := some [] }

/-- The region record `mc` holds what `getAt` reads relative to the match `cm.2` with the
pointers of the descriptor `cm.1`: the name (the empty string when the descriptor declares no
name pointer), the env list and the volume-mount list. -/
def ReadsFrom (lib : Library) (u : Node)
    (cm : ClusterWorkloadResourceMappingContainer × List Step) (mc : MetaContainer) : Prop :=
  (if cm.1.Name ≠ "" then
      getAt unmarshalString cm.1.Name (region u cm.2) (.iface []) "" = .ok mc.Name
    else mc.Name = "") ∧
  getAt (unmarshalSlice lib.envVar) cm.1.Env (region u cm.2) (.iface []) (some []) = .ok mc.Env ∧
  getAt (unmarshalSlice lib.volumeMount) cm.1.VolumeMounts (region u cm.2) (.iface []) (some [])
    = .ok mc.VolumeMounts

/-- None of the pointers of the descriptor resolves in the region. -/
def regionUnresolved (c : ClusterWorkloadResourceMappingContainer) (r : Node) : Bool :=
  (c.Name == "" || unresolved r (keys c.Name)) && unresolved r (keys c.Env) &&
    unresolved r (keys c.VolumeMounts)

/-! ## Write-back as the specification words it -/

/-- Outcome of the walk over the matches in the specification: the tree and the region
records that remain to be consumed, or an error, or a panic. -/
inductive WalkOut where
  | next (tree : Node) (remaining : List MetaContainer)
  | err (e : GoError) (tree : Node)
  | panic

/-- Specification, write-back step 2 for one descriptor: walk the matches in order, consuming
region records from the projection in the same order; when no region record remains, the
excess matches are left untouched. -/
def WriteBack.walkMatches (c : ClusterWorkloadResourceMappingContainer) :
    List (List Step) → List MetaContainer → Node → WalkOut
  | [], remaining, u => .next u remaining
  | _ :: _, [], u => .next u []
  | m :: ms, mc :: remaining, u =>
    match writeContainer c mc (region u m) with
    | .panic => .panic
    | .err e r' => .err e (u.setPath m r')
    | .ok r' => WriteBack.walkMatches c ms remaining (u.setPath m r')

/-- Specification, write-back step 2: each descriptor's selector is evaluated on the current
tree; a syntax error aborts, a selector that finds nothing contributes nothing. -/
def WriteBack.walkDescriptors (lib : Library) :
    List ClusterWorkloadResourceMappingContainer → List MetaContainer → Node → WalkOut
  | [], remaining, u => .next u remaining
  | c :: cs, remaining, u =>
    if !lib.parse c.Path then .err .jsonpathParse u
    else
      match lib.findResults c.Path u with
      | none => WriteBack.walkDescriptors lib cs remaining u
      | some ms =>
        match WriteBack.walkMatches c ms remaining u with
        | .next u' remaining' => WriteBack.walkDescriptors lib cs remaining' u'
        | o => o

/-- Specification, write-back: the bulk mapping, then the regions paired with the region
records by position, then the bulk list. -/
def WriteBack (lib : Library) (mpt : MetaPodTemplate) : Exec :=
  match setAt mpt.mapping.Annotations (.mapSS mpt.Annotations) mpt.workload (.conc []) with
  | .panic => .panic
  | .err e u => .err e u
  | .ok u1 =>
    match WriteBack.walkDescriptors lib mpt.mapping.Containers mpt.Containers u1 with
    | .panic => .panic
    | .err e u => .err e u
    | .next u2 _ =>
      match setAt mpt.mapping.Volumes (.slice mpt.Volumes) u2 (.conc []) with
      | .panic => .panic
      | .err e u => .err e u
      | .ok u3 => if lib.fromUnstructured u3 then .ok u3 else .err .fromUnstructured u3

/-! ## A library instance and the scenarios of the tests -/

/-- What `jsonpath` returns for an expression that selects every element of the list found
under the keys `ks`: an error when the keys are not found or do not lead to a list. -/
def elementsAt (ks : List String) (u : Node) : Option (List (List Step)) :=
  match u.get ks with
  | some (.seq xs) => some ((List.range xs.length).map fun i => ks.map Step.key ++ [Step.index i])
  | _ => none

/-- What `jsonpath` returns for an expression that selects the field found under the keys
`ks`: an error when the keys are not found. -/
def fieldAt (ks : List String) (u : Node) : Option (List (List Step)) :=
  match u.get ks with
  | some _ => some [ks.map Step.key]
  | none => none

/-- A library instance: three selector expressions are known, the expression `[` is a syntax
error, decoding an element never fails, and the conversion back never fails. -/
def scenarioLibrary : Library where
  parse := fun path => decide (path ≠ "[")
  findResults := fun path u =>
    if path = ".spec.template.spec.containers[*]" then
      elementsAt ["spec", "template", "spec", "containers"] u
    else if path = ".spec.template.spec.containers" then
      fieldAt ["spec", "template", "spec", "containers"] u
    else if path = ".metadata" then
      fieldAt ["metadata"] u
    else none
  envVar := some
  volumeMount := some
  volume := some
  fromUnstructured := fun _ => true

/-- The default mapping of a pod-specable workload (the pointers used by the tests), with
the selector expression `path` for its single region descriptor. -/
def scenarioMapping (path : String) : ClusterWorkloadResourceMappingTemplate :=
  { Annotations := "/spec/template/metadata/annotations",
    Containers := [{ Path := path, Name := "/name", Env := "/env",
                     VolumeMounts := "/volumeMounts" }],
    Volumes := "/spec/template/spec/volumes" }

/-- A workload with the containers `cs`. -/
def scenarioTree (cs : List Node) : Node :=
  .map [("spec", .map [("template", .map [("spec", .map [("containers", .seq cs)])])])]

/-- The region record with the name `name`, the empty env list and the empty volume-mount
list. -/
def scenarioRecord (name : String) : MetaContainer :=
  { Name := name, Env := some [], VolumeMounts := some [] }

/-- The projection of the workload with the containers `cs`, with the region records
`records`, empty annotations and no volumes. -/
def scenarioProjection (path : String) (cs : List Node) (records : List MetaContainer) :
    MetaPodTemplate :=
  { workload := scenarioTree cs, mapping := scenarioMapping path, Annotations := some [],
    Containers := records, Volumes := some [] }

/-- The mapping of the test with misaligned pointers. -/
def misalignedMapping : ClusterWorkloadResourceMappingTemplate :=
  { Annotations := "/foo/nar",
    Containers := [{ Path := ".spec.template.spec.containers[*]", Name := "/foo/bar",
                     Env := "/foo/bar", VolumeMounts := "/foo/bar" }],
    Volumes := "/foo/bar" }

/-- A projection whose write-back fails in the second region: the volume-mount pointer
`/volumeMounts/x` creates a map in the first container, which has no `volumeMounts`, and
passes through the sequence that the second container holds under `volumeMounts`. -/
def rollbackScenario : MetaPodTemplate :=
  { workload := scenarioTree [.map [("name", .str "a")],
      .map [("name", .str "b"), ("volumeMounts", .seq [])]],
    mapping := { Annotations := "/spec/template/metadata/annotations",
                 Containers := [{ Path := ".spec.template.spec.containers[*]", Name := "/name",
                                  Env := "/env", VolumeMounts := "/volumeMounts/x" }],
                 Volumes := "/spec/template/spec/volumes" },
    Annotations := some [], Containers := [scenarioRecord "c", scenarioRecord "d"],
    Volumes := some [] }

/-- The generic tree of `rollbackScenario` with the annotations, the three fields of the
first container and the name and the env list of the second container written. -/
def rollbackScenarioTree : Node :=
  .map [("spec", .map [("template", .map [
    ("spec", .map [("containers", .seq [
      .map [("name", .str "c"), ("env", .seq []), ("volumeMounts", .map [("x", .seq [])])],
      .map [("name", .str "d"), ("volumeMounts", .seq []), ("env", .seq [])]])]),
    ("metadata", .map [("annotations", .map [])])])])]

/-! ## Further definitions used in the statements -/

/-- The result with `f` applied to the returned value. -/
def Result.map {α β : Type} (f : α → β) : Result α → Result β
  | .ok a => .ok (f a)
  | .err e => .err e
  | .panic => .panic

/-- The annotations, the region records and the volumes of a projection. -/
def MetaPodTemplate.fields (mpt : MetaPodTemplate) :
    Option (List (String × String)) × List MetaContainer × Option (List Node) :=
  (mpt.Annotations, mpt.Containers, mpt.Volumes)

/-- Two locations lie apart: neither is inside the sub-tree of the other. -/
def Apart (m m2 : List Step) : Prop :=
  ¬ m <+: m2 ∧ ¬ m2 <+: m

/-- The writes of the record `mc` into the region `r` stop with the error `e` and leave the
region `r'`: the failing write is that of the name, of the env list or of the volume-mount
list, the failing write itself changes nothing, and `r'` is the region as the writes before
the failing one left it. -/
def RegionWriteFails (c : ClusterWorkloadResourceMappingContainer) (mc : MetaContainer)
    (r : Node) (e : GoError) (r' : Node) : Prop :=
  (c.Name ≠ "" ∧ setAt c.Name (.str mc.Name) r (.iface []) = .err e r ∧ r' = r) ∨
  ∃ r1, (if c.Name ≠ "" then setAt c.Name (.str mc.Name) r (.iface []) else .ok r) = .ok r1 ∧
    ((setAt c.Env (.slice mc.Env) r1 (.iface []) = .err e r1 ∧ r' = r1) ∨
      ∃ r2, setAt c.Env (.slice mc.Env) r1 (.iface []) = .ok r2 ∧
        setAt c.VolumeMounts (.slice mc.VolumeMounts) r2 (.iface []) = .err e r2 ∧ r' = r2)

/-- The loops of `WriteToWorkload` over the descriptors `cs`, started on the tree `u1` with
the counter 0, stop with the error `e` and leave the tree `u'`: the descriptors before some
descriptor `c` have been processed to their end, giving the tree `uk`; then either the
selector of `c` does not parse and `u'` is `uk`, or the matches before some match `m` of `c`
have been written to their end, giving the tree `um`, the writes into `m` fail, and `u'` is
`um` with the region of `m` as the writes before the failing one left it. Read from the tree
`u'`: when the match `m` exists in `um`, the sub-tree found at `m` in `u'` is that region;
and when the matches up to `m` lie apart from one another and exist in `uk`, the sub-tree
found in `u'` at each match before `m` is the region that the writes of its record produced
from the region it held in `uk`. -/
def RegionLoopFails (lib : Library) (records : List MetaContainer)
    (cs : List ClusterWorkloadResourceMappingContainer) (u1 : Node) (e : GoError)
    (u' : Node) : Prop :=
  ∃ cs1 c cs2 uk ck, cs = cs1 ++ c :: cs2 ∧
    writeContainers lib records cs1 u1 0 = .next uk ck ∧
    ((lib.parse c.Path = false ∧ e = .jsonpathParse ∧ u' = uk) ∨
      ∃ ms1 m ms2 um mc r', lib.parse c.Path = true ∧
        lib.findResults c.Path uk = some (ms1 ++ m :: ms2) ∧
        writeMatches c records ms1 uk ck = .next um (ck + ms1.length) ∧
        records[ck + ms1.length]? = some mc ∧
        RegionWriteFails c mc (region um m) e r' ∧ u' = um.setPath m r' ∧
        (um.getPath m ≠ none → u'.getPath m = some r') ∧
        ((ms1 ++ [m]).Pairwise Apart → (∀ m' ∈ ms1 ++ [m], uk.getPath m' ≠ none) →
          region um m = region uk m ∧ u'.getPath m = some r' ∧
          ∀ j mj, ms1[j]? = some mj → ∃ mcj rj, records[ck + j]? = some mcj ∧
            writeContainer c mcj (region uk mj) = .ok rj ∧ u'.getPath mj = some rj))

/-- The tree `u'` that `WriteToWorkload` holds when it returns the error `e` is the tree as
left by the writes that precede the failing step: either the write of the annotations fails
and `u'` is the tree of the workload; or the annotations have been written, giving `u1`, and
the failure is in the loops over the regions (`RegionLoopFails`); or the loops have run to
their end, giving `u2`, and the write of the volumes fails, `u'` being `u2`; or the volumes
have been written too, giving `u3`, the conversion back fails and `u'` is `u3`. -/
def KeepsPrecedingWrites (lib : Library) (mpt : MetaPodTemplate) (e : GoError) (u' : Node) :
    Prop :=
  (setAt mpt.mapping.Annotations (.mapSS mpt.Annotations) mpt.workload (.conc [])
      = .err e mpt.workload ∧ u' = mpt.workload) ∨
  ∃ u1, setAt mpt.mapping.Annotations (.mapSS mpt.Annotations) mpt.workload (.conc [])
      = .ok u1 ∧
    (RegionLoopFails lib mpt.Containers mpt.mapping.Containers u1 e u' ∨
      ∃ u2 ci, writeContainers lib mpt.Containers mpt.mapping.Containers u1 0 = .next u2 ci ∧
        ((setAt mpt.mapping.Volumes (.slice mpt.Volumes) u2 (.conc []) = .err e u2 ∧ u' = u2) ∨
          ∃ u3, setAt mpt.mapping.Volumes (.slice mpt.Volumes) u2 (.conc []) = .ok u3 ∧
            lib.fromUnstructured u3 = false ∧ e = .fromUnstructured ∧ u' = u3))

/-- What the caller of `find` has in hand after the call: the returned value, parent, last
key and error, whether the returned value is absent and the node it holds; nothing after a
panic. -/
def FindOut.observe : FindOut →
    Option (Value × Value × String × Option GoError × Option Bool × Node)
  | .panic => none
  | .ret value parent lastKey err tree =>
    some (value, parent, lastKey, err, value.isAbsent tree, value.node tree)

/-- The list that the read of the pointer `p` in the region `r` gives: the empty list when
the pointer does not resolve in `r`, the decoded elements of the sequence found under the
keys of `p` when it does. -/
def ListAt (dec : Node → Option Node) (r : Node) (p : String) (v : Option (List Node)) :
    Prop :=
  (unresolved r (keys p) = true ∧ v = some []) ∨
  ∃ xs ys, r.get (keys p) = some (.seq xs) ∧ decodeAll dec xs = some ys ∧ v = some ys

/-- The name that the read of the name pointer `p` in the region `r` gives: the empty string
when the descriptor declares no name pointer or the pointer does not resolve in `r`, the
string found under the keys of `p` when it does. -/
def NameAt (r : Node) (p : String) (s : String) : Prop :=
  (p = "" ∧ s = "") ∨
  (p ≠ "" ∧ ((unresolved r (keys p) = true ∧ s = "") ∨ r.get (keys p) = some (.str s)))

/-- The region record `mc` holds what the tree holds in the match `cm.2` under the pointers
of the descriptor `cm.1`. -/
def HoldsRegion (lib : Library) (u : Node)
    (cm : ClusterWorkloadResourceMappingContainer × List Step) (mc : MetaContainer) : Prop :=
  NameAt (region u cm.2) cm.1.Name mc.Name ∧
  ListAt lib.envVar (region u cm.2) cm.1.Env mc.Env ∧
  ListAt lib.volumeMount (region u cm.2) cm.1.VolumeMounts mc.VolumeMounts

/-! ## Lemmas on maps, locations and `keys` -/

theorem splitSlash_ne_nil (cs : List Char) : splitSlash cs ≠ [] := by
  induction cs with
  | nil => simp [splitSlash]
  | cons c cs ih =>
    by_cases h : c = '/'
    · simp [splitSlash, h]
    · simp only [splitSlash, h, if_false]
      cases hs : splitSlash cs with
      | nil => simp
      | cons p ps => simp

theorem keys_ne_nil (p : String) : keys p ≠ [] := by
  simp [keys, splitSlash_ne_nil]

theorem keys_eq_cons (p : String) : ∃ k ks, keys p = k :: ks := by
  cases h : keys p with
  | nil => exact absurd h (keys_ne_nil p)
  | cons k ks => exact ⟨k, ks, rfl⟩

theorem mapIndex_setMapIndex_same (k : String) (v : Node) (kvs : List (String × Node)) :
    mapIndex k (setMapIndex k v kvs) = some v := by
  induction kvs with
  | nil => simp [setMapIndex, mapIndex]
  | cons p rest ih =>
    obtain ⟨k', v'⟩ := p
    by_cases h : k' = k
    · simp [setMapIndex, mapIndex, h]
    · simp [setMapIndex, mapIndex, h, ih]

theorem mapIndex_setMapIndex_ne (k k' : String) (v : Node) (kvs : List (String × Node))
    (h : k' ≠ k) : mapIndex k' (setMapIndex k v kvs) = mapIndex k' kvs := by
  induction kvs with
  | nil => simp [setMapIndex, mapIndex, h.symm]
  | cons p rest ih =>
    obtain ⟨j, w⟩ := p
    by_cases hj : j = k
    · subst hj
      simp [setMapIndex, mapIndex, h.symm]
    · by_cases hj' : j = k'
      · subst hj'
        simp [setMapIndex, mapIndex, hj]
      · simp [setMapIndex, mapIndex, hj, hj', ih]

theorem mapIndex_deleteMapIndex_same (k : String) (kvs : List (String × Node)) :
    mapIndex k (deleteMapIndex k kvs) = none := by
  induction kvs with
  | nil => simp [deleteMapIndex, mapIndex]
  | cons p rest ih =>
    obtain ⟨k', v'⟩ := p
    by_cases h : k' = k
    · simp [deleteMapIndex, h, ih]
    · simp [deleteMapIndex, mapIndex, h, ih]

theorem deleteMapIndex_of_none (k : String) (kvs : List (String × Node))
    (h : mapIndex k kvs = none) : deleteMapIndex k kvs = kvs := by
  induction kvs with
  | nil => simp [deleteMapIndex]
  | cons p rest ih =>
    obtain ⟨k', v'⟩ := p
    by_cases hk : k' = k
    · simp [mapIndex, hk] at h
    · simp [mapIndex, hk] at h
      simp [deleteMapIndex, hk, ih h]

theorem setMapIndex_setMapIndex (k : String) (v w : Node) (kvs : List (String × Node)) :
    setMapIndex k w (setMapIndex k v kvs) = setMapIndex k w kvs := by
  induction kvs with
  | nil => simp [setMapIndex]
  | cons p rest ih =>
    obtain ⟨k', v'⟩ := p
    by_cases hk : k' = k
    · simp [setMapIndex, hk]
    · simp [setMapIndex, hk, ih]

theorem deleteMapIndex_setMapIndex (k : String) (v : Node) (kvs : List (String × Node)) :
    deleteMapIndex k (setMapIndex k v kvs) = deleteMapIndex k kvs := by
  induction kvs with
  | nil => simp [setMapIndex, deleteMapIndex]
  | cons p rest ih =>
    obtain ⟨k', v'⟩ := p
    by_cases hk : k' = k
    · simp [setMapIndex, deleteMapIndex, hk]
    · simp [setMapIndex, deleteMapIndex, hk, ih]

theorem get_nil (t : Node) : t.get [] = some t := by
  cases t <;> rfl

theorem get_cons_map (kvs : List (String × Node)) (k : String) (ks : List String) :
    (Node.map kvs).get (k :: ks) = (mapIndex k kvs).bind (fun c => c.get ks) := by
  simp only [Node.get]
  cases mapIndex k kvs <;> rfl

theorem get_append (t : Node) (l p : List String) :
    t.get (l ++ p) = (t.get l).bind (fun n => n.get p) := by
  induction l generalizing t with
  | nil => simp [get_nil]
  | cons k ks ih =>
    cases t <;> simp [Node.get]
    rename_i kvs
    cases h : mapIndex k kvs <;> simp [ih]

theorem get_snoc_of_map (t : Node) (l : List String) (k : String)
    (kvs : List (String × Node)) (h : t.get l = some (.map kvs)) :
    t.get (l ++ [k]) = mapIndex k kvs := by
  rw [get_append, h]
  simp [get_cons_map, get_nil]

theorem setIn_nil_map (kvs : List (String × Node)) (k : String) (v : Option Node) :
    (Node.map kvs).setIn [] k v = some (.map (updMap k v kvs)) := by
  cases v <;> simp [Node.setIn, updMap]

theorem setIn_cons_map (kvs : List (String × Node)) (j : String) (js : List String)
    (k : String) (v : Option Node) :
    (Node.map kvs).setIn (j :: js) k v =
      (mapIndex j kvs).bind fun c => (c.setIn js k v).map fun c' =>
        Node.map (setMapIndex j c' kvs) := by
  simp only [Node.setIn]
  cases mapIndex j kvs with
  | none => rfl
  | some c =>
    simp only [Option.some_bind]
    cases c.setIn js k v <;> rfl

theorem get_eq_some_map_cons {t : Node} {j : String} {js : List String} {n : Node}
    (h : t.get (j :: js) = some n) :
    ∃ kvs c, t = .map kvs ∧ mapIndex j kvs = some c ∧ c.get js = some n := by
  cases t <;> simp [Node.get] at h
  rename_i kvs
  cases hc : mapIndex j kvs with
  | none => simp [hc] at h
  | some c =>
    simp [hc] at h
    exact ⟨kvs, c, rfl, hc, h⟩

theorem setIn_spec (t : Node) (l : List String) (k : String) (v : Option Node)
    (kvs : List (String × Node)) (h : t.get l = some (.map kvs)) :
    ∃ t', t.setIn l k v = some t' ∧ t'.get l = some (.map (updMap k v kvs)) := by
  induction l generalizing t with
  | nil =>
    rw [get_nil] at h
    cases h
    exact ⟨_, setIn_nil_map kvs k v, get_nil _⟩
  | cons j js ih =>
    obtain ⟨kvs0, c, rfl, hc, hget⟩ := get_eq_some_map_cons h
    obtain ⟨c', hset, hget'⟩ := ih c hget
    refine ⟨.map (setMapIndex j c' kvs0), ?_, ?_⟩
    · simp [setIn_cons_map, hc, hset]
    · simp [get_cons_map, mapIndex_setMapIndex_same, hget']

theorem find_step_iface (t : Node) (l : List String) (kvs : List (String × Node))
    (h : t.get l = some (.map kvs)) (parent : Value) (k : String) (ks : List String)
    (lk : String) (c : Bool) :
    find t (.iface l) parent (k :: ks) lk c
      = find t (Value.mapIndex t (.conc l) k) (.conc l) ks k c := by
  rw [find]
  simp [ensure, Value.isAbsent, h, Value.kind, Value.elem, Node.kind]

theorem find_step_conc (t : Node) (l : List String) (kvs : List (String × Node))
    (h : t.get l = some (.map kvs)) (parent : Value) (k : String) (ks : List String)
    (lk : String) (c : Bool) :
    find t (.conc l) parent (k :: ks) lk c
      = find t (Value.mapIndex t (.conc l) k) (.conc l) ks k c := by
  rw [find]
  simp [ensure, Value.isAbsent, h, Value.kind, Value.elem, Node.kind]

theorem get_append_cons_some {t : Node} {l : List String} {k : String} {p : List String}
    {n : Node} (h : t.get (l ++ k :: p) = some n) :
    ∃ kvs c, t.get l = some (.map kvs) ∧ mapIndex k kvs = some c ∧ c.get p = some n := by
  rw [get_append] at h
  cases hl : t.get l with
  | none => simp [hl] at h
  | some m =>
    simp [hl] at h
    obtain ⟨kvs, c, rfl, hc, hg⟩ := get_eq_some_map_cons h
    exact ⟨kvs, c, rfl, hc, hg⟩

theorem value_mapIndex_of_some (t : Node) (l : List String) (k : String)
    (kvs : List (String × Node)) (c : Node) (h : t.get l = some (.map kvs))
    (hc : mapIndex k kvs = some c) :
    Value.mapIndex t (.conc l) k = .iface (l ++ [k]) := by
  simp [Value.mapIndex, get_snoc_of_map t l k kvs h, hc]

theorem value_mapIndex_of_none (t : Node) (l : List String) (k : String)
    (kvs : List (String × Node)) (h : t.get l = some (.map kvs))
    (hc : mapIndex k kvs = none) :
    Value.mapIndex t (.conc l) k = .invalid := by
  simp [Value.mapIndex, get_snoc_of_map t l k kvs h, hc]

/-- Walking a prefix that leads through mappings to a mapping. -/
theorem find_walk_iface (t : Node) (c : Bool) (k : String) (suf : List String)
    (q : List String) :
    ∀ (l : List String) (kvs : List (String × Node)) (parent : Value) (lk : String),
      t.get (l ++ q) = some (.map kvs) →
      find t (.iface l) parent (q ++ k :: suf) lk c
        = find t (Value.mapIndex t (.conc (l ++ q)) k) (.conc (l ++ q)) suf k c := by
  induction q with
  | nil =>
    intro l kvs parent lk h
    simp only [List.append_nil] at h
    simpa using find_step_iface t l kvs h parent k suf lk c
  | cons j q ih =>
    intro l kvs parent lk h
    obtain ⟨kvs0, c0, hl, hc0, -⟩ := get_append_cons_some h
    have h' : t.get ((l ++ [j]) ++ q) = some (.map kvs) := by simpa using h
    have := ih (l ++ [j]) kvs (.conc l) j h'
    rw [List.cons_append, find_step_iface t l kvs0 hl, value_mapIndex_of_some t l j kvs0 c0 hl hc0,
      this]
    simp

theorem find_walk_conc (t : Node) (c : Bool) (k : String) (suf : List String)
    (q : List String) (l : List String) (kvs : List (String × Node)) (parent : Value)
    (lk : String) (h : t.get (l ++ q) = some (.map kvs)) :
    find t (.conc l) parent (q ++ k :: suf) lk c
      = find t (Value.mapIndex t (.conc (l ++ q)) k) (.conc (l ++ q)) suf k c := by
  cases q with
  | nil =>
    simp only [List.append_nil] at h
    simpa using find_step_conc t l kvs h parent k suf lk c
  | cons j q =>
    obtain ⟨kvs0, c0, hl, hc0, -⟩ := get_append_cons_some h
    have h' : t.get ((l ++ [j]) ++ q) = some (.map kvs) := by simpa using h
    have := find_walk_iface t c k suf q (l ++ [j]) kvs (.conc l) j h'
    rw [List.cons_append, find_step_conc t l kvs0 hl, value_mapIndex_of_some t l j kvs0 c0 hl hc0,
      this]
    simp

/-- Read mode on an absent value. -/
theorem find_read_absent (t : Node) (v parent : Value) (ks : List String) (lk : String)
    (h : v.isAbsent t = some true) :
    find t v parent ks lk false = .ret .invalid .invalid "" none t := by
  rw [find]
  simp [ensure, h]

theorem find_iface_seq (t : Node) (l : List String) (xs : List Node)
    (h : t.get l = some (.seq xs)) (parent : Value) (k : String) (ks : List String)
    (lk : String) (c : Bool) :
    find t (.iface l) parent (k :: ks) lk c
      = .ret .invalid (.iface l) lk (some (.unhandledKind .Slice)) t := by
  rw [find]
  simp [ensure, Value.isAbsent, h, Value.kind, Value.elem, Node.kind]

theorem find_conc_seq (t : Node) (l : List String) (xs : List Node)
    (h : t.get l = some (.seq xs)) (parent : Value) (k : String) (ks : List String)
    (lk : String) (c : Bool) :
    find t (.conc l) parent (k :: ks) lk c
      = .ret .invalid parent lk (some (.unhandledKind .Slice)) t := by
  rw [find]
  simp [ensure, Value.isAbsent, h, Value.kind, Node.kind]

theorem find_iface_scalar (t : Node) (l : List String) (n : Node)
    (h : t.get l = some n) (hn : n.isScalar = true) (parent : Value) (k : String)
    (ks : List String) (lk : String) (c : Bool) :
    find t (.iface l) parent (k :: ks) lk c = .panic := by
  rw [find]
  cases n <;> simp [Node.isScalar] at hn <;>
    simp [ensure, Value.isAbsent, h, Value.kind, Value.elem, Node.kind]

theorem find_conc_scalar (t : Node) (l : List String) (n : Node)
    (h : t.get l = some n) (hn : n.isScalar = true) (parent : Value)
    (ks : List String) (lk : String) (c : Bool) :
    find t (.conc l) parent ks lk c = .panic := by
  rw [find]
  cases n <;> simp [Node.isScalar] at hn <;>
    simp [ensure, Value.isAbsent, h]

theorem find_iface_nil_keys (t : Node) (l : List String) (n : Node)
    (h : t.get l = some n) (hn : n ≠ .null) (parent : Value) (lk : String) (c : Bool) :
    find t (.iface l) parent [] lk c = .ret (.iface l) parent lk none t := by
  rw [find]
  cases n <;> simp [ensure, Value.isAbsent, h] at hn ⊢

theorem snoc_cases {α : Type} (l : List α) : l = [] ∨ ∃ q a, l = q ++ [a] := by
  rcases List.eq_nil_or_concat l with h | ⟨q, a, h⟩
  · exact Or.inl h
  · exact Or.inr ⟨q, a, by simpa [List.concat_eq_append] using h⟩

theorem find_create_absent_nil (t : Node) (v : Value) (l : List String) (k : String)
    (t2 : Node) (h : v.isAbsent t = some true)
    (hs : t.setIn l k (some (.map [])) = some t2) :
    find t v (.conc l) [] k true = .ret (.conc (l ++ [k])) (.conc l) k none t2 := by
  rw [find]
  simp [ensure, h, hs]

theorem find_create_absent_cons (t : Node) (v : Value) (l : List String) (k k' : String)
    (ks : List String) (t2 : Node) (h : v.isAbsent t = some true)
    (hs : t.setIn l k (some (.map [])) = some t2)
    (hg : t2.get (l ++ [k]) = some (.map [])) :
    find t v (.conc l) (k' :: ks) k true
      = find t2 (Value.mapIndex t2 (.conc (l ++ [k])) k') (.conc (l ++ [k])) ks k' true := by
  rw [find]
  simp [ensure, h, hs, Value.kind, hg, Node.kind]

/-- Creating the missing value at key `k` of the map at `l`. -/
theorem create_spec (t : Node) (l : List String) (k : String) (kvs : List (String × Node))
    (h : t.get l = some (.map kvs)) :
    ∃ t2, t.setIn l k (some (.map [])) = some t2 ∧
      t2.get l = some (.map (setMapIndex k (.map []) kvs)) ∧
      t2.get (l ++ [k]) = some (.map []) := by
  obtain ⟨t2, hs, hg⟩ := setIn_spec t l k (some (.map [])) kvs h
  refine ⟨t2, hs, hg, ?_⟩
  rw [get_snoc_of_map t2 l k _ hg]
  simp [updMap, mapIndex_setMapIndex_same]

theorem isAbsent_mapIndex_none (t : Node) (l : List String) (k : String)
    (kvs : List (String × Node)) (h : t.get l = some (.map kvs))
    (hc : mapIndex k kvs = none) :
    (Value.mapIndex t (.conc l) k).isAbsent t = some true := by
  rw [value_mapIndex_of_none t l k kvs h hc]
  rfl

theorem isAbsent_mapIndex_null (t : Node) (l : List String) (k : String)
    (kvs : List (String × Node)) (h : t.get l = some (.map kvs))
    (hc : mapIndex k kvs = some .null) :
    (Value.mapIndex t (.conc l) k).isAbsent t = some true := by
  rw [value_mapIndex_of_some t l k kvs _ h hc]
  simp [Value.isAbsent, get_snoc_of_map t l k kvs h, hc]

/-- A create-mode `find` that returns without error returns the map that holds the last key. -/
theorem find_create_ok (ks : List String) :
    ∀ (t : Node) (l : List String) (k : String) (kvs : List (String × Node))
      (val vp : Value) (lk : String) (t1 : Node),
      t.get l = some (.map kvs) →
      find t (Value.mapIndex t (.conc l) k) (.conc l) ks k true = .ret val vp lk none t1 →
      ∃ q kvs', k :: ks = q ++ [lk] ∧ vp = .conc (l ++ q) ∧
        t1.get (l ++ q) = some (.map kvs') := by
  induction ks with
  | nil =>
    intro t l k kvs val vp lk t1 hl hf
    cases hc : mapIndex k kvs with
    | none =>
      obtain ⟨t2, hs, hg, -⟩ := create_spec t l k kvs hl
      rw [find_create_absent_nil t _ l k t2 (isAbsent_mapIndex_none t l k kvs hl hc) hs] at hf
      cases hf
      exact ⟨[], _, by simp, by simp, by simpa using hg⟩
    | some c =>
      by_cases hn : c = .null
      · subst hn
        obtain ⟨t2, hs, hg, -⟩ := create_spec t l k kvs hl
        rw [find_create_absent_nil t _ l k t2 (isAbsent_mapIndex_null t l k kvs hl hc) hs] at hf
        cases hf
        exact ⟨[], _, by simp, by simp, by simpa using hg⟩
      · rw [value_mapIndex_of_some t l k kvs c hl hc,
          find_iface_nil_keys t (l ++ [k]) c (by rw [get_snoc_of_map t l k kvs hl, hc]) hn] at hf
        cases hf
        exact ⟨[], kvs, by simp, by simp, by simpa using hl⟩
  | cons k' ks ih =>
    intro t l k kvs val vp lk t1 hl hf
    cases hc : mapIndex k kvs with
    | none =>
      obtain ⟨t2, hs, -, hg2⟩ := create_spec t l k kvs hl
      rw [find_create_absent_cons t _ l k k' ks t2 (isAbsent_mapIndex_none t l k kvs hl hc) hs hg2]
        at hf
      obtain ⟨q, kvs', hq, hvp, hget⟩ := ih t2 (l ++ [k]) k' [] val vp lk t1 hg2 hf
      exact ⟨k :: q, kvs', by simp [hq], by simp [hvp], by simpa using hget⟩
    | some c =>
      have hgc : t.get (l ++ [k]) = some c := by rw [get_snoc_of_map t l k kvs hl, hc]
      cases c with
      | null =>
        obtain ⟨t2, hs, -, hg2⟩ := create_spec t l k kvs hl
        rw [find_create_absent_cons t _ l k k' ks t2 (isAbsent_mapIndex_null t l k kvs hl hc) hs
          hg2] at hf
        obtain ⟨q, kvs', hq, hvp, hget⟩ := ih t2 (l ++ [k]) k' [] val vp lk t1 hg2 hf
        exact ⟨k :: q, kvs', by simp [hq], by simp [hvp], by simpa using hget⟩
      | map m =>
        rw [value_mapIndex_of_some t l k kvs _ hl hc, find_step_iface t (l ++ [k]) m hgc] at hf
        obtain ⟨q, kvs', hq, hvp, hget⟩ := ih t (l ++ [k]) k' m val vp lk t1 hgc hf
        exact ⟨k :: q, kvs', by simp [hq], by simp [hvp], by simpa using hget⟩
      | seq xs =>
        rw [value_mapIndex_of_some t l k kvs _ hl hc, find_iface_seq t (l ++ [k]) xs hgc] at hf
        cases hf
      | bool b =>
        rw [value_mapIndex_of_some t l k kvs _ hl hc,
          find_iface_scalar t (l ++ [k]) _ hgc rfl] at hf
        cases hf
      | num b =>
        rw [value_mapIndex_of_some t l k kvs _ hl hc,
          find_iface_scalar t (l ++ [k]) _ hgc rfl] at hf
        cases hf
      | str b =>
        rw [value_mapIndex_of_some t l k kvs _ hl hc,
          find_iface_scalar t (l ++ [k]) _ hgc rfl] at hf
        cases hf

/-- Read or create mode at the root: a prefix that resolves to a sequence. -/
theorem find_root_seq (t : Node) (root : Value) (hroot : root = .conc [] ∨ root = .iface [])
    (pre : List String) (k : String) (ks : List String) (xs : List Node)
    (hget : t.get pre = some (.seq xs)) (c : Bool) :
    ∃ vp lk, find t root .invalid (pre ++ k :: ks) "" c
      = .ret .invalid vp lk (some (.unhandledKind .Slice)) t := by
  rcases snoc_cases pre with rfl | ⟨q, j, rfl⟩
  · rcases hroot with rfl | rfl
    · exact ⟨_, _, find_conc_seq t [] xs hget _ k ks "" c⟩
    · exact ⟨_, _, find_iface_seq t [] xs hget _ k ks "" c⟩
  · obtain ⟨kvs, n, hq, hj, hn⟩ := get_append_cons_some hget
    rw [get_nil] at hn
    cases hn
    have hq' : t.get ([] ++ q) = some (.map kvs) := by simpa using hq
    have hseq : t.get (q ++ [j]) = some (.seq xs) := hget
    refine ⟨.iface (q ++ [j]), j, ?_⟩
    rcases hroot with rfl | rfl
    · rw [List.append_assoc, List.singleton_append,
        find_walk_conc t c j (k :: ks) q [] kvs .invalid "" hq']
      simp only [List.nil_append]
      rw [value_mapIndex_of_some t q j kvs _ hq hj, find_iface_seq t (q ++ [j]) xs hseq]
    · rw [List.append_assoc, List.singleton_append,
        find_walk_iface t c j (k :: ks) q [] kvs .invalid "" hq']
      simp only [List.nil_append]
      rw [value_mapIndex_of_some t q j kvs _ hq hj, find_iface_seq t (q ++ [j]) xs hseq]

theorem find_root_scalar (t : Node) (root : Value) (hroot : root = .conc [] ∨ root = .iface [])
    (pre : List String) (k : String) (ks : List String) (n : Node)
    (hget : t.get pre = some n) (hn : n.isScalar = true) (c : Bool) :
    find t root .invalid (pre ++ k :: ks) "" c = .panic := by
  rcases snoc_cases pre with rfl | ⟨q, j, rfl⟩
  · rcases hroot with rfl | rfl
    · exact find_conc_scalar t [] n hget hn _ _ "" c
    · exact find_iface_scalar t [] n hget hn _ k ks "" c
  · obtain ⟨kvs, n', hq, hj, hn'⟩ := get_append_cons_some hget
    rw [get_nil] at hn'
    cases hn'
    have hq' : t.get ([] ++ q) = some (.map kvs) := by simpa using hq
    rcases hroot with rfl | rfl
    · rw [List.append_assoc, List.singleton_append,
        find_walk_conc t c j (k :: ks) q [] kvs .invalid "" hq']
      simp only [List.nil_append]
      rw [value_mapIndex_of_some t q j kvs _ hq hj, find_iface_scalar t (q ++ [j]) n hget hn]
    · rw [List.append_assoc, List.singleton_append,
        find_walk_iface t c j (k :: ks) q [] kvs .invalid "" hq']
      simp only [List.nil_append]
      rw [value_mapIndex_of_some t q j kvs _ hq hj, find_iface_scalar t (q ++ [j]) n hget hn]

theorem find_root_missing (t : Node) (root : Value) (hroot : root = .conc [] ∨ root = .iface [])
    (pre : List String) (k : String) (suf : List String) (kvs : List (String × Node))
    (hget : t.get pre = some (.map kvs))
    (hmiss : mapIndex k kvs = none ∨ mapIndex k kvs = some .null) :
    find t root .invalid (pre ++ k :: suf) "" false = .ret .invalid .invalid "" none t := by
  have hq' : t.get ([] ++ pre) = some (.map kvs) := by simpa using hget
  have habs : (Value.mapIndex t (.conc pre) k).isAbsent t = some true := by
    rcases hmiss with h | h
    · exact isAbsent_mapIndex_none t pre k kvs hget h
    · exact isAbsent_mapIndex_null t pre k kvs hget h
  rcases hroot with rfl | rfl
  · rw [find_walk_conc t false k suf pre [] kvs .invalid "" hq']
    simp only [List.nil_append]
    exact find_read_absent t _ _ _ _ habs
  · rw [find_walk_iface t false k suf pre [] kvs .invalid "" hq']
    simp only [List.nil_append]
    exact find_read_absent t _ _ _ _ habs

theorem find_root_create_ok (t : Node) (root : Value)
    (hroot : root = .conc [] ∨ root = .iface []) (k : String) (ks : List String)
    (val vp : Value) (lk : String) (t1 : Node)
    (hf : find t root .invalid (k :: ks) "" true = .ret val vp lk none t1) :
    ∃ pre kvs', k :: ks = pre ++ [lk] ∧ vp = .conc pre ∧ t1.get pre = some (.map kvs') := by
  cases t with
  | map kvs =>
    have hl : (Node.map kvs).get [] = some (.map kvs) := get_nil _
    have hf' : find (.map kvs) (Value.mapIndex (.map kvs) (.conc []) k) (.conc []) ks k true
        = .ret val vp lk none t1 := by
      rcases hroot with rfl | rfl
      · rwa [find_step_conc _ [] kvs hl] at hf
      · rwa [find_step_iface _ [] kvs hl] at hf
    obtain ⟨q, kvs', hq, hvp, hget⟩ := find_create_ok ks _ [] k kvs val vp lk t1 hl hf'
    exact ⟨q, kvs', hq, by simpa using hvp, by simpa using hget⟩
  | seq xs =>
    rcases hroot with rfl | rfl
    · rw [find_conc_seq _ [] xs (get_nil _)] at hf
      cases hf
    · rw [find_iface_seq _ [] xs (get_nil _)] at hf
      cases hf
  | null =>
    rcases hroot with rfl | rfl <;>
    · rw [find] at hf
      simp [ensure, Value.isAbsent, Node.get] at hf
  | bool b =>
    rcases hroot with rfl | rfl
    · rw [find_conc_scalar (.bool b) [] (.bool b) (get_nil _) rfl] at hf
      cases hf
    · rw [find_iface_scalar (.bool b) [] (.bool b) (get_nil _) rfl] at hf
      cases hf
  | num b =>
    rcases hroot with rfl | rfl
    · rw [find_conc_scalar (.num b) [] (.num b) (get_nil _) rfl] at hf
      cases hf
    · rw [find_iface_scalar (.num b) [] (.num b) (get_nil _) rfl] at hf
      cases hf
  | str b =>
    rcases hroot with rfl | rfl
    · rw [find_conc_scalar (.str b) [] (.str b) (get_nil _) rfl] at hf
      cases hf
    · rw [find_iface_scalar (.str b) [] (.str b) (get_nil _) rfl] at hf
      cases hf

/-- What a successful `setAt` leaves behind: the map that holds the last key, updated. -/
theorem setAt_ok_spec (t : Node) (root : Value) (hroot : root = .conc [] ∨ root = .iface [])
    (p : String) (v : GoValue) (t' : Node) (hset : setAt p v t root = .ok t') :
    ∃ out pre last kvs1, v.generic = some out ∧ keys p = pre ++ [last] ∧
      t'.get pre = some (.map (updMap last (valueOfOut out) kvs1)) := by
  obtain ⟨k, ks, hk⟩ := keys_eq_cons p
  unfold setAt at hset
  rw [hk] at hset
  cases hf : find t root .invalid (k :: ks) "" true with
  | panic => simp [hf] at hset
  | ret val vp lk err t1 =>
    cases err with
    | some e => simp [hf] at hset
    | none =>
      obtain ⟨pre, kvs1, hpre, hvp, hget⟩ := find_root_create_ok t root hroot k ks val vp lk t1 hf
      subst hvp
      cases hg : v.generic with
      | none => simp [hf, hg] at hset
      | some out =>
        obtain ⟨t2, hs, hg2⟩ := setIn_spec t1 pre lk (valueOfOut out) kvs1 hget
        simp [hf, hg, hs] at hset
        subst hset
        exact ⟨out, pre, lk, kvs1, rfl, by rw [hk, hpre], hg2⟩

theorem valueOfOut_eq_none {out : Node} (h : valueOfOut out = none) : out = .null := by
  cases out <;> simp [valueOfOut] at h ⊢

theorem valueOfOut_eq_some {out n : Node} (h : valueOfOut out = some n) :
    n = out ∧ out ≠ .null := by
  cases out <;> simp [valueOfOut] at h ⊢ <;> exact h.symm

/-- Read-mode resolution of a pointer whose last key lives in a map. -/
theorem find_root_read_last (t : Node) (root : Value)
    (hroot : root = .conc [] ∨ root = .iface []) (pre : List String) (last : String)
    (kvs : List (String × Node)) (hget : t.get pre = some (.map kvs)) :
    find t root .invalid (pre ++ [last]) "" false =
      match mapIndex last kvs with
      | none => .ret .invalid .invalid "" none t
      | some .null => .ret .invalid .invalid "" none t
      | some _ => .ret (.iface (pre ++ [last])) (.conc pre) last none t := by
  have hq' : t.get ([] ++ pre) = some (.map kvs) := by simpa using hget
  have hw : find t root .invalid (pre ++ [last]) "" false
      = find t (Value.mapIndex t (.conc pre) last) (.conc pre) [] last false := by
    rcases hroot with rfl | rfl
    · simpa using find_walk_conc t false last [] pre [] kvs .invalid "" hq'
    · simpa using find_walk_iface t false last [] pre [] kvs .invalid "" hq'
  rw [hw]
  cases hc : mapIndex last kvs with
  | none =>
    exact find_read_absent t _ _ _ _ (isAbsent_mapIndex_none t pre last kvs hget hc)
  | some n =>
    by_cases hn : n = .null
    · subst hn
      exact find_read_absent t _ _ _ _ (isAbsent_mapIndex_null t pre last kvs hget hc)
    · rw [value_mapIndex_of_some t pre last kvs n hget hc,
        find_iface_nil_keys t (pre ++ [last]) n
          (by rw [get_snoc_of_map t pre last kvs hget, hc]) hn]
      cases n <;> simp at hn ⊢

theorem setStringIndex_of_not_mem (k v : String) (acc : List (String × String))
    (h : k ∉ acc.map Prod.fst) : setStringIndex k v acc = acc ++ [(k, v)] := by
  induction acc with
  | nil => rfl
  | cons a rest ih =>
    obtain ⟨k', v'⟩ := a
    simp only [List.map_cons, List.mem_cons, not_or] at h
    have hne : ¬ k' = k := fun e => h.1 e.symm
    simp [setStringIndex, hne, ih h.2]

theorem unmarshalEntries_strings (kvs : List (String × String)) :
    ∀ acc : List (String × String), (kvs.map Prod.fst).Nodup →
      (∀ k ∈ kvs.map Prod.fst, k ∉ acc.map Prod.fst) →
      unmarshalEntries (kvs.map fun kv => (kv.1, Node.str kv.2)) acc = some (acc ++ kvs) := by
  induction kvs with
  | nil => intro acc _ _; simp [unmarshalEntries]
  | cons a rest ih =>
    intro acc hnd hdis
    obtain ⟨k, v⟩ := a
    simp only [List.map_cons, List.nodup_cons] at hnd
    have hk : k ∉ acc.map Prod.fst := hdis k (by simp)
    simp only [List.map_cons, unmarshalEntries]
    rw [setStringIndex_of_not_mem k v acc hk, ih _ hnd.2]
    · simp
    · intro k' hk' hmem
      simp only [List.map_append, List.map_cons, List.map_nil, List.mem_append,
        List.mem_singleton] at hmem
      rcases hmem with hmem | rfl
      · exact hdis k' (by simp [List.mem_map] at hk' ⊢; exact Or.inr hk') hmem
      · exact hnd.1 hk'

theorem decodeAll_fixed (dec : Node → Option Node) (xs : List Node)
    (h : ∀ y ∈ xs, dec y = some y) : decodeAll dec xs = some xs := by
  induction xs with
  | nil => rfl
  | cons x rest ih =>
    have hx : dec x = some x := h x (by simp)
    have hr : decodeAll dec rest = some rest := ih (fun y hy => h y (by simp [hy]))
    simp [decodeAll, hx, hr]

theorem setIn_some_inj {t : Node} {l : List String} {k : String} {v : Option Node} {a b : Node}
    (h1 : t.setIn l k v = some a) (h2 : t.setIn l k v = some b) : a = b := by
  rw [h1] at h2
  exact Option.some.inj h2

/-- A write below a value that was just linked is a write into that value. -/
theorem setIn_setIn_below (l : List String) :
    ∀ (t : Node) (k : String) (a : Node) (t2 : Node) (r : List String) (k2 : String)
      (v : Option Node),
      t.setIn l k (some a) = some t2 →
      t2.setIn (l ++ k :: r) k2 v = (a.setIn r k2 v).bind fun a' => t.setIn l k (some a') := by
  induction l with
  | nil =>
    intro t k a t2 r k2 v h
    cases t with
    | map kvs =>
      rw [setIn_nil_map] at h
      cases h
      simp only [List.nil_append, setIn_cons_map, updMap, mapIndex_setMapIndex_same,
        Option.some_bind, setMapIndex_setMapIndex]
      cases a.setIn r k2 v <;> simp [setIn_nil_map, updMap]
    | _ => simp [Node.setIn] at h
  | cons j js ih =>
    intro t k a t2 r k2 v h
    cases t with
    | map kvs =>
      rw [setIn_cons_map] at h
      cases hc : mapIndex j kvs with
      | none => simp [hc] at h
      | some c =>
        cases hs : c.setIn js k (some a) with
        | none => simp [hc, hs] at h
        | some c2 =>
          simp [hc, hs] at h
          subst h
          simp only [List.cons_append, setIn_cons_map, mapIndex_setMapIndex_same,
            Option.some_bind, setMapIndex_setMapIndex, ih c k a c2 r k2 v hs, hc]
          cases a.setIn r k2 v <;> simp
    | _ => simp [Node.setIn] at h

/-- A second write under the same key of the same map replaces the first. -/
theorem setIn_setIn_same (l : List String) :
    ∀ (t : Node) (k : String) (a : Node) (t2 : Node) (v : Option Node),
      t.setIn l k (some a) = some t2 → t2.setIn l k v = t.setIn l k v := by
  induction l with
  | nil =>
    intro t k a t2 v h
    cases t with
    | map kvs =>
      rw [setIn_nil_map] at h
      cases h
      cases v <;>
        simp [setIn_nil_map, updMap, setMapIndex_setMapIndex, deleteMapIndex_setMapIndex]
    | _ => simp [Node.setIn] at h
  | cons j js ih =>
    intro t k a t2 v h
    cases t with
    | map kvs =>
      rw [setIn_cons_map] at h
      cases hc : mapIndex j kvs with
      | none => simp [hc] at h
      | some c =>
        cases hs : c.setIn js k (some a) with
        | none => simp [hc, hs] at h
        | some c2 =>
          simp [hc, hs] at h
          subst h
          simp only [setIn_cons_map, mapIndex_setMapIndex_same, Option.some_bind,
            setMapIndex_setMapIndex, ih c k a c2 v hs, hc]
    | _ => simp [Node.setIn] at h

/-- Create mode below a missing key: every remaining key gets a fresh mapping. -/
theorem find_create_chain (ks : List String) :
    ∀ (t : Node) (l : List String) (k : String) (kvs : List (String × Node))
      (q : List String) (last : String) (t1 : Node),
      t.get l = some (.map kvs) → mapIndex k kvs = none → k :: ks = q ++ [last] →
      t.setIn l k (some (chain ks)) = some t1 →
      find t (Value.mapIndex t (.conc l) k) (.conc l) ks k true
        = .ret (.conc (l ++ k :: ks)) (.conc (l ++ q)) last none t1 := by
  induction ks with
  | nil =>
    intro t l k kvs q last t1 hl hc hq hs
    have hq' : q = [] ∧ last = k := by
      rcases snoc_cases q with rfl | ⟨q', a, rfl⟩
      · simpa [eq_comm] using hq
      · have := congrArg List.length hq
        simp at this
    obtain ⟨rfl, rfl⟩ := hq'
    rw [find_create_absent_nil t _ l last t1 (isAbsent_mapIndex_none t l last kvs hl hc) hs]
    simp
  | cons k' ks ih =>
    intro t l k kvs q last t1 hl hc hq hs
    obtain ⟨t2, hs2, -, hg2⟩ := create_spec t l k kvs hl
    obtain ⟨q', rfl, hq'⟩ : ∃ q', q = k :: q' ∧ k' :: ks = q' ++ [last] := by
      cases q with
      | nil =>
        have := congrArg List.length hq
        simp at this
      | cons a q' =>
        simp only [List.cons_append, List.cons.injEq] at hq
        exact ⟨q', by rw [hq.1], hq.2⟩
    have hbelow := setIn_setIn_below l t k (.map []) t2 [] k' (some (chain ks)) hs2
    simp only [setIn_nil_map, updMap, setMapIndex, Option.some_bind] at hbelow
    have hs' : t2.setIn (l ++ [k]) k' (some (chain ks)) = some t1 := by
      rw [hbelow]
      exact hs
    rw [find_create_absent_cons t _ l k k' ks t2 (isAbsent_mapIndex_none t l k kvs hl hc) hs2 hg2,
      ih t2 (l ++ [k]) k' [] q' last t1 hg2 rfl hq' hs']
    simp

theorem chain_setIn (q : List String) :
    ∀ (ks : List String) (last : String) (o : Option Node), ks = q ++ [last] →
      (chain ks).setIn q last o = fill ks o := by
  induction q with
  | nil =>
    intro ks last o h
    subst h
    cases o <;> simp [chain, fill, setIn_nil_map, updMap, setMapIndex, deleteMapIndex]
  | cons j q ih =>
    intro ks last o h
    subst h
    have hfill : ∃ n, fill (q ++ [last]) o = some n := by
      cases q <;> simp [fill]
    obtain ⟨n, hn⟩ := hfill
    simp [chain, fill, setIn_cons_map, mapIndex, ih (q ++ [last]) last o rfl, hn, setMapIndex]

theorem readContainer_ok (lib : Library) (c : ClusterWorkloadResourceMappingContainer)
    (u : Node) (m : List Step) (mc : MetaContainer)
    (h : readContainer lib c (region u m) = .ok mc) : ReadsFrom lib u (c, m) mc := by
  unfold readContainer at h
  unfold ReadsFrom
  generalize hN : (if c.Name ≠ "" then
      getAt unmarshalString c.Name (region u m) (.iface []) "" else Result.ok "") = nr at h
  cases nr with
  | panic => simp at h
  | err e => simp at h
  | ok name =>
    cases h2 : getAt (unmarshalSlice lib.envVar) c.Env (region u m) (.iface []) (some []) with
    | panic => simp [h2] at h
    | err e => simp [h2] at h
    | ok env =>
      cases h3 : getAt (unmarshalSlice lib.volumeMount) c.VolumeMounts (region u m)
          (.iface []) (some []) with
      | panic => simp [h2, h3] at h
      | err e => simp [h2, h3] at h
      | ok vms =>
        simp [h2, h3] at h
        subst h
        refine ⟨?_, rfl, rfl⟩
        by_cases hn : c.Name = ""
        · simp [hn] at hN ⊢
          exact hN.symm
        · simp [hn] at hN ⊢
          exact hN

theorem readMatches_ok (lib : Library) (c : ClusterWorkloadResourceMappingContainer) (u : Node)
    (ms : List (List Step)) :
    ∀ (acc acc' : List MetaContainer), readMatches lib c u ms acc = .ok acc' →
      ∃ recs, acc' = acc ++ recs ∧
        List.Forall₂ (ReadsFrom lib u) (ms.map fun m => (c, m)) recs := by
  induction ms with
  | nil =>
    intro acc acc' h
    simp [readMatches] at h
    exact ⟨[], by simp [h], by simp⟩
  | cons m ms ih =>
    intro acc acc' h
    unfold readMatches at h
    cases h1 : readContainer lib c (region u m) with
    | panic => simp [h1] at h
    | err e => simp [h1] at h
    | ok mc =>
      simp [h1] at h
      obtain ⟨recs, hacc, hall⟩ := ih _ _ h
      exact ⟨mc :: recs, by simp [hacc], List.Forall₂.cons (readContainer_ok lib c u m mc h1) hall⟩

theorem readContainers_ok (lib : Library) (u : Node)
    (cs : List ClusterWorkloadResourceMappingContainer) :
    ∀ (acc acc' : List MetaContainer), readContainers lib u cs acc = .ok acc' →
      ∃ recs, acc' = acc ++ recs ∧ List.Forall₂ (ReadsFrom lib u) (allMatches lib u cs) recs := by
  induction cs with
  | nil =>
    intro acc acc' h
    simp [readContainers] at h
    exact ⟨[], by simp [h], by simp [allMatches]⟩
  | cons c cs ih =>
    intro acc acc' h
    unfold readContainers at h
    by_cases hp : lib.parse c.Path = true
    · simp only [hp, Bool.not_true, Bool.false_eq_true, if_false] at h
      cases hf : lib.findResults c.Path u with
      | none =>
        simp only [hf] at h
        obtain ⟨recs, hacc, hall⟩ := ih _ _ h
        exact ⟨recs, hacc, by simpa [allMatches, hf] using hall⟩
      | some ms =>
        simp only [hf] at h
        cases hr : readMatches lib c u ms acc with
        | panic => simp [hr] at h
        | err e => simp [hr] at h
        | ok acc1 =>
          simp only [hr] at h
          obtain ⟨recs1, hacc1, hall1⟩ := readMatches_ok lib c u ms _ _ hr
          obtain ⟨recs, hacc, hall⟩ := ih _ _ h
          refine ⟨recs1 ++ recs, by simp [hacc, hacc1], ?_⟩
          have : allMatches lib u (c :: cs)
              = (ms.map fun m => (c, m)) ++ allMatches lib u cs := by
            simp [allMatches, hf]
          rw [this]
          exact List.rel_append hall1 hall
    · simp [hp] at h

theorem unresolved_map_split (ks : List String) :
    ∀ kvs0 : List (String × Node), unresolved (.map kvs0) ks = true →
      ∃ pre k suf kvs, ks = pre ++ k :: suf ∧ (Node.map kvs0).get pre = some (.map kvs) ∧
        (mapIndex k kvs = none ∨ mapIndex k kvs = some .null) := by
  induction ks with
  | nil => intro kvs0 h; simp [unresolved] at h
  | cons k ks ih =>
    intro kvs0 h
    cases hc : mapIndex k kvs0 with
    | none => exact ⟨[], k, ks, kvs0, rfl, get_nil _, Or.inl hc⟩
    | some c =>
      simp only [unresolved, hc] at h
      cases c with
      | null => exact ⟨[], k, ks, kvs0, rfl, get_nil _, Or.inr hc⟩
      | map kvs1 =>
        obtain ⟨pre, k', suf, kvs, hks, hget, hmiss⟩ := ih kvs1 h
        refine ⟨k :: pre, k', suf, kvs, by simp [hks], ?_, hmiss⟩
        simp [get_cons_map, hc, hget]
      | bool b => simp [unresolved] at h
      | num b => simp [unresolved] at h
      | str b => simp [unresolved] at h
      | seq b => simp [unresolved] at h

theorem find_unresolved (t : Node) (root : Value) (hroot : root = .conc [] ∨ root = .iface [])
    (ks : List String) (h : unresolved t ks = true) :
    find t root .invalid ks "" false = .ret .invalid .invalid "" none t := by
  cases t with
  | null =>
    apply find_read_absent
    rcases hroot with rfl | rfl <;> simp [Value.isAbsent, Node.get]
  | map kvs0 =>
    obtain ⟨pre, k, suf, kvs, rfl, hget, hmiss⟩ := unresolved_map_split ks kvs0 h
    exact find_root_missing _ root hroot pre k suf kvs hget hmiss
  | bool b => simp [unresolved] at h
  | num b => simp [unresolved] at h
  | str b => simp [unresolved] at h
  | seq b => simp [unresolved] at h

theorem getAt_unresolved {τ : Type} (unmarshal : Node → τ → Except GoError τ) (p : String)
    (t : Node) (root : Value) (hroot : root = .conc [] ∨ root = .iface []) (target : τ)
    (h : unresolved t (keys p) = true) : getAt unmarshal p t root target = .ok target := by
  simp [getAt, find_unresolved t root hroot (keys p) h, Value.isAbsent]

theorem readContainer_unresolved (lib : Library) (c : ClusterWorkloadResourceMappingContainer)
    (r : Node) (h : regionUnresolved c r = true) :
    readContainer lib c r = .ok emptyContainer := by
  simp only [regionUnresolved, Bool.and_eq_true, Bool.or_eq_true, beq_iff_eq] at h
  obtain ⟨⟨hn, he⟩, hv⟩ := h
  unfold readContainer
  rw [getAt_unresolved _ c.Env r _ (Or.inr rfl) _ he,
    getAt_unresolved _ c.VolumeMounts r _ (Or.inr rfl) _ hv]
  by_cases hname : c.Name = ""
  · simp [hname, emptyContainer]
  · rcases hn with hn | hn
    · exact absurd hn hname
    · simp [hname, getAt_unresolved _ c.Name r _ (Or.inr rfl) _ hn, emptyContainer]

theorem readMatches_unresolved (lib : Library) (c : ClusterWorkloadResourceMappingContainer)
    (u : Node) (ms : List (List Step)) :
    ∀ acc : List MetaContainer, (∀ m ∈ ms, regionUnresolved c (region u m) = true) →
      readMatches lib c u ms acc = .ok (acc ++ ms.map fun _ => emptyContainer) := by
  induction ms with
  | nil => intro acc _; simp [readMatches]
  | cons m ms ih =>
    intro acc h
    unfold readMatches
    rw [readContainer_unresolved lib c _ (h m (by simp))]
    simp only
    rw [ih _ (fun m' hm' => h m' (by simp [hm']))]
    simp

theorem readContainers_unresolved (lib : Library) (u : Node)
    (cs : List ClusterWorkloadResourceMappingContainer) :
    ∀ acc : List MetaContainer, (∀ c ∈ cs, lib.parse c.Path = true) →
      (∀ cm ∈ allMatches lib u cs, regionUnresolved cm.1 (region u cm.2) = true) →
      readContainers lib u cs acc
        = .ok (acc ++ (allMatches lib u cs).map fun _ => emptyContainer) := by
  induction cs with
  | nil => intro acc _ _; simp [readContainers, allMatches]
  | cons c cs ih =>
    intro acc hp hu
    have hpc : lib.parse c.Path = true := hp c (by simp)
    have hp' : ∀ c' ∈ cs, lib.parse c'.Path = true := fun c' hc' => hp c' (by simp [hc'])
    unfold readContainers
    simp only [hpc, Bool.not_true, Bool.false_eq_true, if_false]
    cases hf : lib.findResults c.Path u with
    | none =>
      have hall : allMatches lib u (c :: cs) = allMatches lib u cs := by
        simp [allMatches, hf]
      simp only
      rw [ih acc hp' (fun cm hcm => hu cm (by rw [hall]; exact hcm)), hall]
    | some ms =>
      have hall : allMatches lib u (c :: cs)
          = (ms.map fun m => (c, m)) ++ allMatches lib u cs := by
        simp [allMatches, hf]
      simp only
      rw [readMatches_unresolved lib c u ms acc
        (fun m hm => hu (c, m) (by rw [hall]; simp [hm]))]
      simp only
      rw [ih _ hp' (fun cm hcm => hu cm (by rw [hall]; simp [hcm])), hall]
      simp only [List.map_append, List.map_map, List.append_assoc]
      rfl

theorem drop_of_getElem? {α : Type} (xs : List α) (i : Nat) (x : α) (h : xs[i]? = some x) :
    xs.drop i = x :: xs.drop (i + 1) := by
  induction xs generalizing i with
  | nil => simp at h
  | cons y ys ih =>
    cases i with
    | zero => simp at h; simp [h]
    | succ i => simp at h; simpa using ih i h

/-- The inner loop with the running index consumes the region records in order. -/
theorem writeMatches_next (c : ClusterWorkloadResourceMappingContainer)
    (records : List MetaContainer) (ms : List (List Step)) :
    ∀ (u : Node) (ci : Nat) (u' : Node) (ci' : Nat),
      writeMatches c records ms u ci = .next u' ci' →
      ci' = ci + ms.length ∧ ms.length ≤ (records.drop ci).length ∧
      WriteBack.walkMatches c ms (records.drop ci) u = .next u' (records.drop ci') := by
  induction ms with
  | nil =>
    intro u ci u' ci' h
    simp [writeMatches] at h
    obtain ⟨rfl, rfl⟩ := h
    simp [WriteBack.walkMatches]
  | cons m ms ih =>
    intro u ci u' ci' h
    unfold writeMatches at h
    cases hr : records[ci]? with
    | none => simp [hr] at h
    | some mc =>
      simp only [hr] at h
      have hd := drop_of_getElem? records ci mc hr
      cases hw : writeContainer c mc (region u m) with
      | panic => simp [hw] at h
      | err e r' => simp [hw] at h
      | ok r' =>
        simp only [hw] at h
        obtain ⟨hci, hlen, hwalk⟩ := ih _ _ _ _ h
        refine ⟨by simp [hci]; omega, ?_, ?_⟩
        · rw [hd]
          simp only [List.length_cons]
          omega
        · rw [hd]
          simp only [WriteBack.walkMatches, hw]
          exact hwalk

theorem writeContainers_next (lib : Library) (records : List MetaContainer)
    (cs : List ClusterWorkloadResourceMappingContainer) :
    ∀ (u : Node) (ci : Nat) (u' : Node) (ci' : Nat),
      writeContainers lib records cs u ci = .next u' ci' →
      WriteBack.walkDescriptors lib cs (records.drop ci) u = .next u' (records.drop ci') := by
  induction cs with
  | nil =>
    intro u ci u' ci' h
    simp [writeContainers] at h
    obtain ⟨rfl, rfl⟩ := h
    simp [WriteBack.walkDescriptors]
  | cons c cs ih =>
    intro u ci u' ci' h
    unfold writeContainers at h
    unfold WriteBack.walkDescriptors
    by_cases hp : lib.parse c.Path = true
    · simp only [hp, Bool.not_true, Bool.false_eq_true, if_false] at h ⊢
      cases hf : lib.findResults c.Path u with
      | none =>
        simp only [hf] at h ⊢
        exact ih _ _ _ _ h
      | some ms =>
        simp only [hf] at h ⊢
        cases hm : writeMatches c records ms u ci with
        | panic => simp [hm] at h
        | err e t => simp [hm] at h
        | next u1 ci1 =>
          simp only [hm] at h
          obtain ⟨-, -, hwalk⟩ := writeMatches_next c records ms u ci u1 ci1 hm
          simp only [hwalk]
          exact ih _ _ _ _ h
    · simp [hp] at h

/-- With fewer remaining region records than matches the inner loop does not run to its
end. -/
theorem writeMatches_short_never_completes (c : ClusterWorkloadResourceMappingContainer)
    (records : List MetaContainer) (ms : List (List Step)) (u : Node) (ci : Nat)
    (hshort : (records.drop ci).length < ms.length) (u' : Node) (ci' : Nat) :
    writeMatches c records ms u ci ≠ .next u' ci' := by
  intro h
  have := (writeMatches_next c records ms u ci u' ci' h).2.1
  omega

theorem readContainers_parse_error (lib : Library) (u : Node)
    (cs : List ClusterWorkloadResourceMappingContainer)
    (h : ∃ c ∈ cs, lib.parse c.Path = false) :
    ∀ acc acc' : List MetaContainer, readContainers lib u cs acc ≠ .ok acc' := by
  induction cs with
  | nil => simp at h
  | cons c cs ih =>
    intro acc acc' hr
    unfold readContainers at hr
    by_cases hp : lib.parse c.Path = true
    · have h' : ∃ c' ∈ cs, lib.parse c'.Path = false := by
        obtain ⟨c', hc', hpc'⟩ := h
        simp only [List.mem_cons] at hc'
        rcases hc' with rfl | hc'
        · rw [hp] at hpc'
          cases hpc'
        · exact ⟨c', hc', hpc'⟩
      simp only [hp, Bool.not_true, Bool.false_eq_true, if_false] at hr
      cases hf : lib.findResults c.Path u with
      | none =>
        simp only [hf] at hr
        exact ih h' _ _ hr
      | some ms =>
        simp only [hf] at hr
        cases hm : readMatches lib c u ms acc with
        | panic => simp [hm] at hr
        | err e => simp [hm] at hr
        | ok acc1 =>
          simp only [hm] at hr
          exact ih h' _ _ hr
    · simp [hp] at hr

/-- With a selector that does not parse, no projection is returned. -/
theorem NewMetaPodTemplate_invalid_selector_no_projection (lib : Library) (u : Node)
    (mapping : ClusterWorkloadResourceMappingTemplate)
    (h : ∃ c ∈ mapping.Containers, lib.parse c.Path = false) (mpt : MetaPodTemplate) :
    NewMetaPodTemplate lib u mapping ≠ .ok mpt := by
  intro hr
  unfold NewMetaPodTemplate at hr
  cases h1 : getAt unmarshalStringMap mapping.Annotations u (.conc []) (some []) with
  | panic => simp [h1] at hr
  | err e => simp [h1] at hr
  | ok ann =>
    cases h2 : readContainers lib u mapping.Containers [] with
    | panic => simp [h1, h2] at hr
    | err e => simp [h1, h2] at hr
    | ok recs => exact readContainers_parse_error lib u _ h [] recs h2

theorem ensure_read (t : Node) (v parent : Value) (lk : String) :
    ensure t v parent lk false = .panic ∨ ensure t v parent lk false = .absent ∨
      ensure t v parent lk false = .present t v := by
  unfold ensure
  cases h : v.isAbsent t with
  | none => simp
  | some b => cases b <;> simp

/-- Read mode never changes the tree. -/
theorem find_read_tree (ks : List String) :
    ∀ (t : Node) (v parent : Value) (lk : String) (val vp : Value) (lk' : String)
      (err : Option GoError) (t1 : Node),
      find t v parent ks lk false = .ret val vp lk' err t1 → t1 = t := by
  induction ks with
  | nil =>
    intro t v parent lk val vp lk' err t1 h
    rw [find] at h
    rcases ensure_read t v parent lk with he | he | he <;> rw [he] at h <;> simp at h
    · exact h.2.2.2.2.symm
    · exact h.2.2.2.2.symm
  | cons k ks ih =>
    intro t v parent lk val vp lk' err t1 h
    rw [find] at h
    rcases ensure_read t v parent lk with he | he | he <;> rw [he] at h
    · simp at h
    · simp at h
      exact h.2.2.2.2.symm
    · simp only at h
      cases hk : v.kind t <;> rw [hk] at h <;> simp only at h
      case Map => exact ih _ _ _ _ _ _ _ _ _ h
      case Interface =>
        rcases ensure_read t v.elem v lk with he2 | he2 | he2 <;> rw [he2] at h
        · simp at h
        · simp at h
          exact h.2.2.2.2.symm
        · simp only at h
          cases hk2 : v.elem.kind t <;> rw [hk2] at h <;> simp only at h
          case Map => exact ih _ _ _ _ _ _ _ _ _ h
          all_goals (simp at h; exact h.2.2.2.2.symm)
      all_goals (simp at h; exact h.2.2.2.2.symm)

theorem setIn_some_get (l : List String) :
    ∀ (t : Node) (k : String) (v : Option Node) (t' : Node),
      t.setIn l k v = some t' → ∃ kvs, t.get l = some (.map kvs) := by
  induction l with
  | nil =>
    intro t k v t' h
    cases t with
    | map kvs => exact ⟨kvs, get_nil _⟩
    | _ => simp [Node.setIn] at h
  | cons j js ih =>
    intro t k v t' h
    cases t with
    | map kvs =>
      rw [setIn_cons_map] at h
      cases hc : mapIndex j kvs with
      | none => simp [hc] at h
      | some c =>
        cases hs : c.setIn js k v with
        | none => simp [hc, hs] at h
        | some c2 =>
          obtain ⟨kvs', hg⟩ := ih c k v c2 hs
          exact ⟨kvs', by simp [get_cons_map, hc, hg]⟩
    | _ => simp [Node.setIn] at h

/-- Create mode on an absent value never returns an error. -/
theorem find_create_absent_no_error (ks : List String) :
    ∀ (t : Node) (v parent : Value) (lk : String) (val vp : Value) (lk' : String)
      (e : GoError) (t1 : Node), v.isAbsent t = some true →
      find t v parent ks lk true ≠ .ret val vp lk' (some e) t1 := by
  induction ks with
  | nil =>
    intro t v parent lk val vp lk' e t1 h hf
    rw [find] at hf
    cases parent with
    | invalid => simp [ensure, h] at hf
    | iface pl => simp [ensure, h] at hf
    | conc pl =>
      cases hs : t.setIn pl lk (some (.map [])) with
      | none => simp [ensure, h, hs] at hf
      | some t2 => simp [ensure, h, hs] at hf
  | cons k ks ih =>
    intro t v parent lk val vp lk' e t1 h hf
    cases parent with
    | invalid => rw [find] at hf; simp [ensure, h] at hf
    | iface pl => rw [find] at hf; simp [ensure, h] at hf
    | conc pl =>
      cases hs : t.setIn pl lk (some (.map [])) with
      | none => rw [find] at hf; simp [ensure, h, hs] at hf
      | some t2 =>
        obtain ⟨kvs, hg⟩ := setIn_some_get pl t lk _ t2 hs
        obtain ⟨t3, hs3, -, hg3⟩ := create_spec t pl lk kvs hg
        have e23 : t3 = t2 := setIn_some_inj hs3 hs
        subst e23
        rw [find_create_absent_cons t v pl lk k ks t3 h hs hg3] at hf
        exact ih t3 _ _ _ _ _ _ _ _ (isAbsent_mapIndex_none t3 (pl ++ [lk]) k [] hg3 rfl) hf

/-- Create mode that returns an error has not changed the tree. -/
theorem find_create_error_tree (ks : List String) :
    ∀ (t : Node) (v parent : Value) (lk : String) (val vp : Value) (lk' : String)
      (e : GoError) (t1 : Node),
      find t v parent ks lk true = .ret val vp lk' (some e) t1 → t1 = t := by
  induction ks with
  | nil =>
    intro t v parent lk val vp lk' e t1 hf
    cases h : v.isAbsent t with
    | none => rw [find] at hf; simp [ensure, h] at hf
    | some b =>
      cases b with
      | true => exact absurd hf (find_create_absent_no_error [] t v parent lk val vp lk' e t1 h)
      | false => rw [find] at hf; simp [ensure, h] at hf
  | cons k ks ih =>
    intro t v parent lk val vp lk' e t1 hf
    cases h : v.isAbsent t with
    | none => rw [find] at hf; simp [ensure, h] at hf
    | some b =>
      cases b with
      | true =>
        exact absurd hf (find_create_absent_no_error (k :: ks) t v parent lk val vp lk' e t1 h)
      | false =>
        cases v with
        | invalid => simp [Value.isAbsent] at h
        | iface l =>
          cases hg : t.get l with
          | none => simp [Value.isAbsent, hg] at h
          | some n =>
            cases n with
            | null => simp [Value.isAbsent, hg] at h
            | map m =>
              rw [find_step_iface t l m hg] at hf
              exact ih _ _ _ _ _ _ _ _ _ hf
            | seq xs =>
              rw [find_iface_seq t l xs hg] at hf
              simp at hf
              exact hf.2.2.2.2.symm
            | bool b => rw [find_iface_scalar t l _ hg rfl] at hf; cases hf
            | num b => rw [find_iface_scalar t l _ hg rfl] at hf; cases hf
            | str b => rw [find_iface_scalar t l _ hg rfl] at hf; cases hf
        | conc l =>
          cases hg : t.get l with
          | none => simp [Value.isAbsent, hg] at h
          | some n =>
            cases n with
            | null => simp [Value.isAbsent, hg] at h
            | map m =>
              rw [find_step_conc t l m hg] at hf
              exact ih _ _ _ _ _ _ _ _ _ hf
            | seq xs =>
              rw [find_conc_seq t l xs hg] at hf
              simp at hf
              exact hf.2.2.2.2.symm
            | bool b => rw [find_conc_scalar t l _ hg rfl] at hf; cases hf
            | num b => rw [find_conc_scalar t l _ hg rfl] at hf; cases hf
            | str b => rw [find_conc_scalar t l _ hg rfl] at hf; cases hf

/-- A create-mode `find` that returns without error returns the map that holds the last key,
and the value that map holds under it. -/
theorem find_create_ok_node (ks : List String) :
    ∀ (t : Node) (l : List String) (k : String) (kvs : List (String × Node))
      (val vp : Value) (lk : String) (t1 : Node),
      t.get l = some (.map kvs) →
      find t (Value.mapIndex t (.conc l) k) (.conc l) ks k true = .ret val vp lk none t1 →
      ∃ q kvs' n, k :: ks = q ++ [lk] ∧ vp = .conc (l ++ q) ∧
        t1.get (l ++ q) = some (.map kvs') ∧ mapIndex lk kvs' = some n ∧ n ≠ .null ∧
        val.isAbsent t1 = some false ∧ val.node t1 = n := by
  induction ks with
  | nil =>
    intro t l k kvs val vp lk t1 hl hf
    have hcreate : (Value.mapIndex t (.conc l) k).isAbsent t = some true →
        ∃ q kvs' n, [k] = q ++ [lk] ∧ vp = .conc (l ++ q) ∧
          t1.get (l ++ q) = some (.map kvs') ∧ mapIndex lk kvs' = some n ∧ n ≠ .null ∧
          val.isAbsent t1 = some false ∧ val.node t1 = n := by
      intro habs
      obtain ⟨t2, hs, hg, hg2⟩ := create_spec t l k kvs hl
      rw [find_create_absent_nil t _ l k t2 habs hs] at hf
      cases hf
      refine ⟨[], _, .map [], by simp, by simp, by simpa using hg,
        mapIndex_setMapIndex_same _ _ _, by simp, ?_, ?_⟩
      · simp [Value.isAbsent, hg2]
      · simp [Value.node, hg2]
    cases hc : mapIndex k kvs with
    | none => exact hcreate (isAbsent_mapIndex_none t l k kvs hl hc)
    | some c =>
      by_cases hn : c = .null
      · subst hn
        exact hcreate (isAbsent_mapIndex_null t l k kvs hl hc)
      · have hgc : t.get (l ++ [k]) = some c := by rw [get_snoc_of_map t l k kvs hl, hc]
        rw [value_mapIndex_of_some t l k kvs c hl hc,
          find_iface_nil_keys t (l ++ [k]) c hgc hn] at hf
        cases hf
        refine ⟨[], kvs, c, by simp, by simp, by simpa using hl, hc, hn, ?_, ?_⟩
        · cases c <;> simp [Value.isAbsent, hgc] at hn ⊢
        · simp [Value.node, hgc]
  | cons k' ks ih =>
    intro t l k kvs val vp lk t1 hl hf
    have hcreate : (Value.mapIndex t (.conc l) k).isAbsent t = some true →
        ∃ q kvs' n, k :: k' :: ks = q ++ [lk] ∧ vp = .conc (l ++ q) ∧
          t1.get (l ++ q) = some (.map kvs') ∧ mapIndex lk kvs' = some n ∧ n ≠ .null ∧
          val.isAbsent t1 = some false ∧ val.node t1 = n := by
      intro habs
      obtain ⟨t2, hs, -, hg2⟩ := create_spec t l k kvs hl
      rw [find_create_absent_cons t _ l k k' ks t2 habs hs hg2] at hf
      obtain ⟨q, kvs', n, hq, hvp, hget, hmi, hn, ha, hnode⟩ :=
        ih t2 (l ++ [k]) k' [] val vp lk t1 hg2 hf
      exact ⟨k :: q, kvs', n, by simp [hq], by simp [hvp], by simpa using hget, hmi, hn, ha,
        hnode⟩
    cases hc : mapIndex k kvs with
    | none => exact hcreate (isAbsent_mapIndex_none t l k kvs hl hc)
    | some c =>
      have hgc : t.get (l ++ [k]) = some c := by rw [get_snoc_of_map t l k kvs hl, hc]
      cases c with
      | null => exact hcreate (isAbsent_mapIndex_null t l k kvs hl hc)
      | map m =>
        rw [value_mapIndex_of_some t l k kvs _ hl hc, find_step_iface t (l ++ [k]) m hgc] at hf
        obtain ⟨q, kvs', n, hq, hvp, hget, hmi, hn, ha, hnode⟩ :=
          ih t (l ++ [k]) k' m val vp lk t1 hgc hf
        exact ⟨k :: q, kvs', n, by simp [hq], by simp [hvp], by simpa using hget, hmi, hn, ha,
          hnode⟩
      | seq xs =>
        rw [value_mapIndex_of_some t l k kvs _ hl hc, find_iface_seq t (l ++ [k]) xs hgc] at hf
        cases hf
      | bool b =>
        rw [value_mapIndex_of_some t l k kvs _ hl hc,
          find_iface_scalar t (l ++ [k]) _ hgc rfl] at hf
        cases hf
      | num b =>
        rw [value_mapIndex_of_some t l k kvs _ hl hc,
          find_iface_scalar t (l ++ [k]) _ hgc rfl] at hf
        cases hf
      | str b =>
        rw [value_mapIndex_of_some t l k kvs _ hl hc,
          find_iface_scalar t (l ++ [k]) _ hgc rfl] at hf
        cases hf

theorem readContainers_skip (lib : Library) (u : Node)
    (c : ClusterWorkloadResourceMappingContainer) (hparse : lib.parse c.Path = true)
    (hnone : lib.findResults c.Path u = none ∨ lib.findResults c.Path u = some [])
    (cs2 : List ClusterWorkloadResourceMappingContainer)
    (cs1 : List ClusterWorkloadResourceMappingContainer) :
    ∀ acc : List MetaContainer,
      readContainers lib u (cs1 ++ c :: cs2) acc = readContainers lib u (cs1 ++ cs2) acc := by
  induction cs1 with
  | nil =>
    intro acc
    rcases hnone with h | h
    · simp [readContainers, hparse, h]
    · simp [readContainers, hparse, h, readMatches]
  | cons c1 cs1 ih =>
    intro acc
    simp only [List.cons_append]
    unfold readContainers
    by_cases hp : lib.parse c1.Path = true
    · simp only [hp, Bool.not_true, Bool.false_eq_true, if_false]
      cases hf : lib.findResults c1.Path u with
      | none => exact ih acc
      | some ms =>
        simp only
        cases hr : readMatches lib c1 u ms acc with
        | panic => rfl
        | err e => rfl
        | ok acc1 => exact ih acc1
    · simp [hp]

theorem forall₂_getElem? {α β : Type} {R : α → β → Prop} {xs : List α} {ys : List β}
    (h : List.Forall₂ R xs ys) :
    ∀ (i : Nat) (x : α), xs[i]? = some x → ∃ y, ys[i]? = some y ∧ R x y := by
  induction h with
  | nil => intro i x hx; simp at hx
  | cons hab _ ih =>
    intro i x hx
    cases i with
    | zero =>
      simp at hx
      subst hx
      exact ⟨_, by simp, hab⟩
    | succ i =>
      simp at hx
      obtain ⟨y, hy, hr⟩ := ih i x hx
      exact ⟨y, by simpa using hy, hr⟩

theorem writeContainer_nameless (c : ClusterWorkloadResourceMappingContainer)
    (hname : c.Name = "") (mc : MetaContainer) (r : Node) :
    writeContainer c mc r =
      match setAt c.Env (.slice mc.Env) r (.iface []) with
      | .panic => .panic
      | .err e r' => .err e r'
      | .ok r2 => setAt c.VolumeMounts (.slice mc.VolumeMounts) r2 (.iface []) := by
  unfold writeContainer
  simp only [hname, ne_eq, not_true_eq_false, if_false]

theorem writeMatches_nameless (c : ClusterWorkloadResourceMappingContainer)
    (hname : c.Name = "") (records : List MetaContainer) (f : MetaContainer → String)
    (ms : List (List Step)) :
    ∀ (u : Node) (ci : Nat),
      writeMatches c (records.map fun mc => { mc with Name := f mc }) ms u ci
        = writeMatches c records ms u ci := by
  induction ms with
  | nil => intro u ci; rfl
  | cons m ms ih =>
    intro u ci
    unfold writeMatches
    rw [List.getElem?_map]
    cases hr : records[ci]? with
    | none => rfl
    | some mc =>
      simp only [Option.map_some']
      rw [writeContainer_nameless c hname, writeContainer_nameless c hname]
      simp only
      cases hw : setAt c.Env (.slice mc.Env) (region u m) (.iface []) with
      | panic => rfl
      | err e r' => rfl
      | ok r2 =>
        simp only
        cases hw2 : setAt c.VolumeMounts (.slice mc.VolumeMounts) r2 (.iface []) with
        | panic => rfl
        | err e r' => rfl
        | ok r3 => exact ih _ _

/-- A successful `setAt` of a value whose generic form is not nil leaves that generic form
under the last key of the pointer. -/
theorem setAt_stores_generic (t : Node) (root : Value)
    (hroot : root = .conc [] ∨ root = .iface []) (p : String) (v : GoValue) (t' : Node)
    (hset : setAt p v t root = .ok t') (out : Node) (hg : v.generic = some out)
    (hn : out ≠ .null) :
    ∃ pre last, keys p = pre ++ [last] ∧ t'.get (pre ++ [last]) = some out := by
  obtain ⟨out', pre, last, kvs1, hg', hk, hget⟩ := setAt_ok_spec t root hroot p v t' hset
  rw [hg] at hg'
  cases hg'
  refine ⟨pre, last, hk, ?_⟩
  rw [get_snoc_of_map t' pre last _ hget]
  cases out <;> simp [valueOfOut, updMap, mapIndex_setMapIndex_same] at hn ⊢

theorem splitSlash_cons_slash (cs : List Char) :
    splitSlash ('/' :: cs) = [] :: splitSlash cs := by
  simp [splitSlash]

theorem splitSlash_cons_ne (c : Char) (cs : List Char) (hc : c ≠ '/') :
    ∃ p ps, splitSlash cs = p :: ps ∧ splitSlash (c :: cs) = (c :: p) :: ps := by
  cases h : splitSlash cs with
  | nil => exact absurd h (splitSlash_ne_nil cs)
  | cons p ps => exact ⟨p, ps, rfl, by simp [splitSlash, hc, h]⟩

/-- The segments of a split are all non-empty exactly when no two slashes are adjacent in the
string put between two slashes. -/
theorem splitSlash_nonempty_iff (cs : List Char) :
    ((∀ s ∈ splitSlash cs, s ≠ []) ↔
        List.Chain (fun a b : Char => ¬ (a = '/' ∧ b = '/')) '/' (cs ++ ['/'])) ∧
    (∀ c : Char, c ≠ '/' →
      ((∀ s ∈ (splitSlash cs).tail, s ≠ []) ↔
        List.Chain (fun a b : Char => ¬ (a = '/' ∧ b = '/')) c (cs ++ ['/']))) := by
  induction cs with
  | nil =>
    refine ⟨?_, ?_⟩
    · simp [splitSlash]
    · intro c hc
      simp [splitSlash, hc]
  | cons d cs ih =>
    by_cases hd : d = '/'
    · subst hd
      refine ⟨?_, ?_⟩
      · simp [splitSlash_cons_slash]
      · intro c hc
        rw [splitSlash_cons_slash]
        simp only [List.tail_cons, List.cons_append, List.chain_cons]
        rw [ih.1]
        simp [hc]
    · obtain ⟨p, ps, hs, hs'⟩ := splitSlash_cons_ne d cs hd
      have ih2 := ih.2 d hd
      rw [hs] at ih2
      simp only [List.tail_cons] at ih2
      refine ⟨?_, ?_⟩
      · rw [hs']
        simp only [List.cons_append, List.chain_cons]
        rw [← ih2]
        simp [hd]
      · intro c hc
        rw [hs']
        simp only [List.tail_cons, List.cons_append, List.chain_cons]
        rw [← ih2]
        simp [hd]

theorem string_mk_ne_empty (cs : List Char) : String.mk cs ≠ "" ↔ cs ≠ [] := by
  constructor
  · intro h e
    subst e
    exact h rfl
  · intro h e
    exact h (congrArg String.data e)

theorem splitSlash_no_slash (cs : List Char) : ∀ s ∈ splitSlash cs, '/' ∉ s := by
  induction cs with
  | nil => simp [splitSlash]
  | cons d cs ih =>
    by_cases hd : d = '/'
    · subst hd
      rw [splitSlash_cons_slash]
      intro s hs
      simp only [List.mem_cons] at hs
      rcases hs with rfl | hs
      · simp
      · exact ih s hs
    · obtain ⟨p, ps, hs, hs'⟩ := splitSlash_cons_ne d cs hd
      rw [hs']
      rw [hs] at ih
      intro s hmem
      simp only [List.mem_cons] at hmem
      rcases hmem with rfl | hmem
      · have := ih p (by simp)
        simp only [List.mem_cons, not_or]
        exact ⟨fun e => hd e.symm, this⟩
      · exact ih s (by simp [hmem])

theorem splitSlash_join (cs : List Char) :
    ∀ p ps, splitSlash cs = p :: ps → p ++ (ps.map fun a => '/' :: a).flatten = cs := by
  induction cs with
  | nil =>
    intro p ps h
    simp [splitSlash] at h
    obtain ⟨rfl, rfl⟩ := h
    rfl
  | cons d cs ih =>
    intro p ps h
    by_cases hd : d = '/'
    · subst hd
      rw [splitSlash_cons_slash] at h
      cases h
      obtain ⟨q, qs, hq⟩ : ∃ q qs, splitSlash cs = q :: qs := by
        cases h : splitSlash cs with
        | nil => exact absurd h (splitSlash_ne_nil cs)
        | cons q qs => exact ⟨q, qs, rfl⟩
      rw [hq]
      simp [ih q qs hq]
    · obtain ⟨q, qs, hs, hs'⟩ := splitSlash_cons_ne d cs hd
      rw [hs'] at h
      cases h
      simpa using ih q _ hs

theorem intercalate_go_data (s : String) (l : List String) :
    ∀ acc : String, (String.intercalate.go acc s l).data
      = acc.data ++ (l.map fun a => s.data ++ a.data).flatten := by
  induction l with
  | nil => intro acc; simp [String.intercalate.go]
  | cons a l ih =>
    intro acc
    simp [String.intercalate.go, ih, String.data_append]

theorem intercalate_keys (p : String) :
    String.intercalate "/" (keys p) = String.mk (trimPrefixSlash p.toList) := by
  obtain ⟨q, qs, hq⟩ : ∃ q qs, splitSlash (trimPrefixSlash p.toList) = q :: qs := by
    cases h : splitSlash (trimPrefixSlash p.toList) with
    | nil => exact absurd h (splitSlash_ne_nil _)
    | cons q qs => exact ⟨q, qs, rfl⟩
  have hj := splitSlash_join _ q qs hq
  apply String.ext
  simp only [keys, hq, List.map_cons, String.intercalate, intercalate_go_data, List.map_map]
  rw [← hj]
  rfl

theorem trimPrefixSlash_of_head (cs : List Char) (h : cs.head? ≠ some '/') :
    trimPrefixSlash cs = cs := by
  unfold trimPrefixSlash
  split
  · simp at h
  · rfl

/-- A `setAt` of a map, a slice or a string that returns an error has not changed the tree. -/
theorem setAt_err_tree (p : String) (v : GoValue) (t : Node) (root : Value) (e : GoError)
    (t1 : Node) (hv : v.generic ≠ none) (h : setAt p v t root = .err e t1) : t1 = t := by
  unfold setAt at h
  cases hf : find t root .invalid (keys p) "" true with
  | panic => simp [hf] at h
  | ret val vp lk err t2 =>
    cases err with
    | some e2 =>
      simp [hf] at h
      rw [← h.2]
      exact find_create_error_tree _ _ _ _ _ _ _ _ _ _ hf
    | none =>
      cases hg : v.generic with
      | none => exact absurd hg hv
      | some out =>
        cases vp with
        | invalid => simp [hf, hg] at h
        | iface l => simp [hf, hg] at h
        | conc l =>
          cases hs : t2.setIn l lk (valueOfOut out) with
          | none => simp [hf, hg, hs] at h
          | some t3 => simp [hf, hg, hs] at h

theorem writeContainer_err (c : ClusterWorkloadResourceMappingContainer) (mc : MetaContainer)
    (r : Node) (e : GoError) (r' : Node) (h : writeContainer c mc r = .err e r') :
    RegionWriteFails c mc r e r' := by
  unfold writeContainer at h
  unfold RegionWriteFails
  generalize hN : (if c.Name ≠ "" then setAt c.Name (.str mc.Name) r (.iface [])
    else Exec.ok r) = nr at h
  cases nr with
  | panic => simp at h
  | err e1 r1 =>
    simp at h
    obtain ⟨rfl, rfl⟩ := h
    left
    by_cases hn : c.Name = ""
    · simp [hn] at hN
    · simp only [ne_eq, hn, not_false_eq_true, if_true] at hN
      have := setAt_err_tree _ _ _ _ _ _ (by simp [GoValue.generic]) hN
      subst this
      exact ⟨hn, hN, rfl⟩
  | ok r1 =>
    right
    refine ⟨r1, rfl, ?_⟩
    simp only at h
    cases he : setAt c.Env (.slice mc.Env) r1 (.iface []) with
    | panic => simp [he] at h
    | err e2 r2 =>
      simp [he] at h
      obtain ⟨rfl, rfl⟩ := h
      have := setAt_err_tree _ _ _ _ _ _ (by cases mc.Env <;> simp [GoValue.generic]) he
      subst this
      exact Or.inl ⟨rfl, rfl⟩
    | ok r2 =>
      simp only [he] at h
      have := setAt_err_tree _ _ _ _ _ _ (by cases mc.VolumeMounts <;> simp [GoValue.generic]) h
      subst this
      exact Or.inr ⟨_, rfl, h, rfl⟩

theorem writeMatches_err (c : ClusterWorkloadResourceMappingContainer)
    (records : List MetaContainer) (ms : List (List Step)) :
    ∀ (u : Node) (ci : Nat) (e : GoError) (u' : Node),
      writeMatches c records ms u ci = .err e u' →
      ∃ ms1 m ms2 um mc r', ms = ms1 ++ m :: ms2 ∧
        writeMatches c records ms1 u ci = .next um (ci + ms1.length) ∧
        records[ci + ms1.length]? = some mc ∧
        writeContainer c mc (region um m) = .err e r' ∧ u' = um.setPath m r' := by
  induction ms with
  | nil => intro u ci e u' h; simp [writeMatches] at h
  | cons m ms ih =>
    intro u ci e u' h
    unfold writeMatches at h
    cases hr : records[ci]? with
    | none => simp [hr] at h
    | some mc =>
      simp only [hr] at h
      cases hw : writeContainer c mc (region u m) with
      | panic => simp [hw] at h
      | err e1 r1 =>
        simp [hw] at h
        obtain ⟨rfl, rfl⟩ := h
        exact ⟨[], m, ms, u, mc, r1, rfl, by simp [writeMatches], by simpa using hr, hw, rfl⟩
      | ok r1 =>
        simp only [hw] at h
        obtain ⟨ms1, m', ms2, um, mc', r', hms, hnext, hrec, hfail, hu'⟩ := ih _ _ _ _ h
        refine ⟨m :: ms1, m', ms2, um, mc', r', by simp [hms], ?_, ?_, hfail, hu'⟩
        · unfold writeMatches
          simp only [hr, hw]
          rw [hnext]
          simp only [List.length_cons]
          congr 1
          omega
        · rw [← hrec]
          simp only [List.length_cons]
          congr 1
          omega

theorem writeContainers_err (lib : Library) (records : List MetaContainer)
    (cs : List ClusterWorkloadResourceMappingContainer) :
    ∀ (u : Node) (ci : Nat) (e : GoError) (u' : Node),
      writeContainers lib records cs u ci = .err e u' →
      ∃ cs1 c cs2 uk ck, cs = cs1 ++ c :: cs2 ∧
        writeContainers lib records cs1 u ci = .next uk ck ∧
        ((lib.parse c.Path = false ∧ e = .jsonpathParse ∧ u' = uk) ∨
          ∃ ms, lib.parse c.Path = true ∧ lib.findResults c.Path uk = some ms ∧
            writeMatches c records ms uk ck = .err e u') := by
  induction cs with
  | nil => intro u ci e u' h; simp [writeContainers] at h
  | cons c cs ih =>
    intro u ci e u' h
    unfold writeContainers at h
    by_cases hp : lib.parse c.Path = true
    · simp only [hp, Bool.not_true, Bool.false_eq_true, if_false] at h
      have hstep : ∀ u1 ci1, writeContainers lib records cs u1 ci1 = .err e u' →
          (∀ cs1 uk ck, writeContainers lib records cs1 u1 ci1 = .next uk ck →
            writeContainers lib records (c :: cs1) u ci = .next uk ck) →
          ∃ cs1 c' cs2 uk ck, c :: cs = cs1 ++ c' :: cs2 ∧
            writeContainers lib records cs1 u ci = .next uk ck ∧
            ((lib.parse c'.Path = false ∧ e = .jsonpathParse ∧ u' = uk) ∨
              ∃ ms, lib.parse c'.Path = true ∧ lib.findResults c'.Path uk = some ms ∧
                writeMatches c' records ms uk ck = .err e u') := by
        intro u1 ci1 h1 hpre
        obtain ⟨cs1, c', cs2, uk, ck, hcs, hnext, hrest⟩ := ih _ _ _ _ h1
        exact ⟨c :: cs1, c', cs2, uk, ck, by simp [hcs], hpre cs1 uk ck hnext, hrest⟩
      cases hf : lib.findResults c.Path u with
      | none =>
        simp only [hf] at h
        apply hstep u ci h
        intro cs1 uk ck hn
        unfold writeContainers
        simp only [hp, Bool.not_true, Bool.false_eq_true, if_false, hf]
        exact hn
      | some ms =>
        simp only [hf] at h
        cases hm : writeMatches c records ms u ci with
        | panic => simp [hm] at h
        | err e1 t1 =>
          simp [hm] at h
          obtain ⟨rfl, rfl⟩ := h
          exact ⟨[], c, cs, u, ci, rfl, by simp [writeContainers], Or.inr ⟨ms, hp, hf, hm⟩⟩
        | next u1 ci1 =>
          simp only [hm] at h
          apply hstep u1 ci1 h
          intro cs1 uk ck hn
          unfold writeContainers
          simp only [hp, Bool.not_true, Bool.false_eq_true, if_false, hf, hm]
          exact hn
    · simp only [hp, Bool.not_false, if_true] at h
      simp at h
      obtain ⟨rfl, rfl⟩ := h
      exact ⟨[], c, cs, u, ci, rfl, by simp [writeContainers],
        Or.inl ⟨by simpa using hp, rfl, rfl⟩⟩

theorem mapIndex_deleteMapIndex_ne (k k' : String) (kvs : List (String × Node))
    (h : k' ≠ k) : mapIndex k' (deleteMapIndex k kvs) = mapIndex k' kvs := by
  induction kvs with
  | nil => simp [deleteMapIndex]
  | cons p rest ih =>
    obtain ⟨j, w⟩ := p
    by_cases hj : j = k
    · subst hj
      simp [deleteMapIndex, mapIndex, h.symm, ih]
    · by_cases hj' : j = k'
      · subst hj'
        simp [deleteMapIndex, mapIndex, hj]
      · simp [deleteMapIndex, mapIndex, hj, hj', ih]

theorem mapIndex_updMap_ne (k k' : String) (o : Option Node) (kvs : List (String × Node))
    (h : k' ≠ k) : mapIndex k' (updMap k o kvs) = mapIndex k' kvs := by
  cases o with
  | none => exact mapIndex_deleteMapIndex_ne k k' kvs h
  | some n => exact mapIndex_setMapIndex_ne k k' n kvs h

theorem mapIndex_updMap_same (k : String) (o : Option Node) (kvs : List (String × Node)) :
    mapIndex k (updMap k o kvs) = o := by
  cases o with
  | none => exact mapIndex_deleteMapIndex_same k kvs
  | some n => exact mapIndex_setMapIndex_same k n kvs

/-- A write at the key `k` of the map at `l` leaves every location that leaves the path
`l ++ [k]` as it was. -/
theorem setIn_get_diverge (l : List String) :
    ∀ (t : Node) (k : String) (o : Option Node) (t' : Node) (c : List String) (b : String)
      (r' : List String) (a : String) (x : List String),
      t.setIn l k o = some t' → l ++ [k] = c ++ b :: r' → a ≠ b →
      t'.get (c ++ a :: x) = t.get (c ++ a :: x) := by
  induction l with
  | nil =>
    intro t k o t' c b r' a x h hsplit hab
    cases t with
    | map kvs =>
      rw [setIn_nil_map] at h
      cases h
      cases c with
      | nil =>
        simp only [List.nil_append, List.cons.injEq] at hsplit
        obtain ⟨rfl, -⟩ := hsplit
        simp only [List.nil_append, get_cons_map, mapIndex_updMap_ne k a o kvs hab]
      | cons c0 c' =>
        have := congrArg List.length hsplit
        simp at this
    | _ => simp [Node.setIn] at h
  | cons j js ih =>
    intro t k o t' c b r' a x h hsplit hab
    cases t with
    | map kvs =>
      rw [setIn_cons_map] at h
      cases hc : mapIndex j kvs with
      | none => simp [hc] at h
      | some ch =>
        cases hs : ch.setIn js k o with
        | none => simp [hc, hs] at h
        | some ch2 =>
          simp [hc, hs] at h
          subst h
          cases c with
          | nil =>
            simp only [List.nil_append, List.cons_append, List.cons.injEq] at hsplit
            obtain ⟨rfl, -⟩ := hsplit
            simp only [List.nil_append, get_cons_map,
              mapIndex_setMapIndex_ne j a ch2 kvs hab]
          | cons c0 c' =>
            simp only [List.cons_append, List.cons.injEq] at hsplit
            obtain ⟨rfl, hsplit⟩ := hsplit
            simp only [List.cons_append, get_cons_map, mapIndex_setMapIndex_same, hc,
              Option.some_bind]
            exact ih ch k o ch2 c' b r' a x hs hsplit hab
    | _ => simp [Node.setIn] at h

theorem get_prefix_map {t : Node} {c : List String} {y : List String} {kvs : List (String × Node)}
    (h : t.get (c ++ y) = some (.map kvs)) : ∃ kvs', t.get c = some (.map kvs') := by
  cases y with
  | nil => exact ⟨kvs, by simpa using h⟩
  | cons y0 ys =>
    obtain ⟨kvs', _, hc, -, -⟩ := get_append_cons_some h
    exact ⟨kvs', hc⟩

theorem snoc_eq_append_cons {α : Type} {l c r' : List α} {k b : α}
    (h : l ++ [k] = c ++ b :: r') : ∃ y, l = c ++ y := by
  rcases snoc_cases r' with rfl | ⟨r0, z, rfl⟩
  · have := List.append_inj' h (by simp)
    exact ⟨[], by simpa using this.1⟩
  · have h' : l ++ [k] = (c ++ b :: r0) ++ [z] := by simpa using h
    have := List.append_inj' h' (by simp)
    exact ⟨b :: r0, this.1⟩

/-- The maps on the path of a write are maps before and after it. -/
theorem setIn_prefix_maps {t : Node} {l : List String} {k : String} {o : Option Node}
    {t' : Node} {c : List String} {b : String} {r' : List String}
    (h : t.setIn l k o = some t') (hsplit : l ++ [k] = c ++ b :: r') :
    ∃ kvsA kvsB, t.get c = some (.map kvsA) ∧ t'.get c = some (.map kvsB) := by
  obtain ⟨kvs, hg⟩ := setIn_some_get l t k o t' h
  obtain ⟨t2, hs2, hg2⟩ := setIn_spec t l k o kvs hg
  have e : t2 = t' := setIn_some_inj hs2 h
  subst e
  obtain ⟨y, rfl⟩ := snoc_eq_append_cons hsplit
  obtain ⟨kvsA, hA⟩ := get_prefix_map hg
  obtain ⟨kvsB, hB⟩ := get_prefix_map hg2
  exact ⟨kvsA, kvsB, hA, hB⟩

/-- In the maps on the path of a write, the entries other than the next key of the path keep
their values. -/
theorem setIn_frame_entries {t : Node} {l : List String} {k : String} {o : Option Node}
    {t' : Node} {c : List String} {b : String} {r' : List String}
    (h : t.setIn l k o = some t') (hsplit : l ++ [k] = c ++ b :: r')
    (kvsA : List (String × Node)) (hA : t.get c = some (.map kvsA)) :
    ∃ kvsB, t'.get c = some (.map kvsB) ∧ ∀ j, j ≠ b → mapIndex j kvsB = mapIndex j kvsA := by
  obtain ⟨kvsA', kvsB, hA', hB⟩ := setIn_prefix_maps h hsplit
  refine ⟨kvsB, hB, ?_⟩
  intro j hj
  have := setIn_get_diverge l t k o t' c b r' j [] h hsplit hj
  rw [get_snoc_of_map t' c j kvsB hB, get_snoc_of_map t c j kvsA hA] at this
  exact this

theorem incomparable_split (kp : List String) :
    ∀ kq : List String, ¬ kp <+: kq → ¬ kq <+: kp →
      ∃ c a b r r', kq = c ++ a :: r ∧ kp = c ++ b :: r' ∧ a ≠ b := by
  induction kp with
  | nil => intro kq h _; exact absurd (List.nil_prefix) h
  | cons b kp ih =>
    intro kq hpq hqp
    cases kq with
    | nil => exact absurd (List.nil_prefix) hqp
    | cons a kq =>
      by_cases hab : a = b
      · subst hab
        obtain ⟨c, a', b', r, r', h1, h2, h3⟩ := ih kq
          (fun h => hpq ((List.prefix_cons_inj a).2 h))
          (fun h => hqp ((List.prefix_cons_inj a).2 h))
        exact ⟨a :: c, a', b', r, r', by simp [h1], by simp [h2], h3⟩
      · exact ⟨[], a, b, kq, kp, rfl, rfl, hab⟩

theorem unresolved_null (ks : List String) : unresolved .null ks = true := by
  cases ks <;> rfl

theorem unresolved_of_get_miss (pre : List String) :
    ∀ (t : Node) (kvs : List (String × Node)) (k : String) (s : List String),
      t.get pre = some (.map kvs) → (mapIndex k kvs = none ∨ mapIndex k kvs = some .null) →
      unresolved t (pre ++ k :: s) = true := by
  induction pre with
  | nil =>
    intro t kvs k s hg hm
    rw [get_nil] at hg
    cases hg
    rcases hm with hm | hm
    · simp [unresolved, hm]
    · simp [unresolved, hm, unresolved_null]
  | cons j js ih =>
    intro t kvs k s hg hm
    obtain ⟨kvs0, ch, rfl, hc, hget⟩ := get_eq_some_map_cons hg
    simp only [List.cons_append, unresolved, hc]
    exact ih ch kvs k s hget hm

theorem unresolved_of_get (pre : List String) :
    ∀ (t : Node) (kvs : List (String × Node)) (k : String) (F : Node) (s : List String),
      t.get pre = some (.map kvs) → mapIndex k kvs = some F → unresolved F s = true →
      unresolved t (pre ++ k :: s) = true := by
  induction pre with
  | nil =>
    intro t kvs k F s hg hm hu
    rw [get_nil] at hg
    cases hg
    simp [unresolved, hm, hu]
  | cons j js ih =>
    intro t kvs k F s hg hm hu
    obtain ⟨kvs0, ch, rfl, hc, hget⟩ := get_eq_some_map_cons hg
    simp only [List.cons_append, unresolved, hc]
    exact ih ch kvs k F s hget hm hu

theorem fill_cons_some (k : String) (ks : List String) (o : Option Node) :
    ∃ F, fill (k :: ks) o = some F := by
  simp [fill]

/-- A pointer that leaves the path of the created maps does not resolve in them. -/
theorem unresolved_fill (c2 : List String) :
    ∀ (b : String) (r' : List String) (a : String) (r : List String) (o : Option Node)
      (F : Node), a ≠ b → fill (c2 ++ b :: r') o = some F →
      unresolved F (c2 ++ a :: r) = true := by
  induction c2 with
  | nil =>
    intro b r' a r o F hab hF
    simp only [List.nil_append, fill, Option.some.injEq] at hF
    subst hF
    cases fill r' o with
    | none => simp [unresolved, mapIndex]
    | some n => simp [unresolved, mapIndex, Ne.symm hab]
  | cons j c2 ih =>
    intro b r' a r o F hab hF
    obtain ⟨G, hG⟩ : ∃ G, fill (c2 ++ b :: r') o = some G := by
      cases c2 <;> simp [fill]
    have hfill : fill (j :: (c2 ++ b :: r')) o = some (.map [(j, G)]) := by
      simp [fill, hG]
    rw [List.cons_append, hfill] at hF
    cases hF
    simp only [List.cons_append, unresolved, mapIndex, if_true]
    exact ih b r' a r o G hab hG

/-- Read mode below a map gives the same on two trees that agree below the next key. -/
theorem find_read_congr (ks : List String) :
    ∀ (t t' : Node) (l : List String) (k : String) (kvs kvs' : List (String × Node)),
      t.get l = some (.map kvs) → t'.get l = some (.map kvs') →
      (∀ x, t'.get (l ++ k :: x) = t.get (l ++ k :: x)) →
      (find t' (Value.mapIndex t' (.conc l) k) (.conc l) ks k false).observe
        = (find t (Value.mapIndex t (.conc l) k) (.conc l) ks k false).observe := by
  induction ks with
  | nil =>
    intro t t' l k kvs kvs' hl hl' hsame
    have h0 := hsame []
    rw [get_snoc_of_map t' l k kvs' hl', get_snoc_of_map t l k kvs hl] at h0
    cases hc : mapIndex k kvs with
    | none =>
      rw [hc] at h0
      rw [find_read_absent t _ _ _ _ (isAbsent_mapIndex_none t l k kvs hl hc),
        find_read_absent t' _ _ _ _ (isAbsent_mapIndex_none t' l k kvs' hl' h0)]
      rfl
    | some c =>
      rw [hc] at h0
      have hgc : t.get (l ++ [k]) = some c := by rw [get_snoc_of_map t l k kvs hl, hc]
      have hgc' : t'.get (l ++ [k]) = some c := by rw [get_snoc_of_map t' l k kvs' hl', h0]
      by_cases hn : c = .null
      · subst hn
        rw [find_read_absent t _ _ _ _ (isAbsent_mapIndex_null t l k kvs hl hc),
          find_read_absent t' _ _ _ _ (isAbsent_mapIndex_null t' l k kvs' hl' h0)]
        rfl
      · rw [value_mapIndex_of_some t l k kvs c hl hc,
          value_mapIndex_of_some t' l k kvs' c hl' h0,
          find_iface_nil_keys t (l ++ [k]) c hgc hn,
          find_iface_nil_keys t' (l ++ [k]) c hgc' hn]
        simp [FindOut.observe, Value.isAbsent, Value.node, hgc, hgc']
  | cons k' ks ih =>
    intro t t' l k kvs kvs' hl hl' hsame
    have h0 := hsame []
    rw [get_snoc_of_map t' l k kvs' hl', get_snoc_of_map t l k kvs hl] at h0
    cases hc : mapIndex k kvs with
    | none =>
      rw [hc] at h0
      rw [find_read_absent t _ _ _ _ (isAbsent_mapIndex_none t l k kvs hl hc),
        find_read_absent t' _ _ _ _ (isAbsent_mapIndex_none t' l k kvs' hl' h0)]
      rfl
    | some c =>
      rw [hc] at h0
      have hgc : t.get (l ++ [k]) = some c := by rw [get_snoc_of_map t l k kvs hl, hc]
      have hgc' : t'.get (l ++ [k]) = some c := by rw [get_snoc_of_map t' l k kvs' hl', h0]
      cases c with
      | null =>
        rw [find_read_absent t _ _ _ _ (isAbsent_mapIndex_null t l k kvs hl hc),
          find_read_absent t' _ _ _ _ (isAbsent_mapIndex_null t' l k kvs' hl' h0)]
        rfl
      | map m =>
        rw [value_mapIndex_of_some t l k kvs _ hl hc,
          value_mapIndex_of_some t' l k kvs' _ hl' h0,
          find_step_iface t (l ++ [k]) m hgc, find_step_iface t' (l ++ [k]) m hgc']
        apply ih t t' (l ++ [k]) k' m m hgc hgc'
        intro x
        have := hsame (k' :: x)
        simpa using this
      | seq xs =>
        rw [value_mapIndex_of_some t l k kvs _ hl hc,
          value_mapIndex_of_some t' l k kvs' _ hl' h0,
          find_iface_seq t (l ++ [k]) xs hgc, find_iface_seq t' (l ++ [k]) xs hgc']
        rfl
      | bool b =>
        rw [value_mapIndex_of_some t l k kvs _ hl hc,
          value_mapIndex_of_some t' l k kvs' _ hl' h0,
          find_iface_scalar t (l ++ [k]) _ hgc rfl, find_iface_scalar t' (l ++ [k]) _ hgc' rfl]
      | num b =>
        rw [value_mapIndex_of_some t l k kvs _ hl hc,
          value_mapIndex_of_some t' l k kvs' _ hl' h0,
          find_iface_scalar t (l ++ [k]) _ hgc rfl, find_iface_scalar t' (l ++ [k]) _ hgc' rfl]
      | str b =>
        rw [value_mapIndex_of_some t l k kvs _ hl hc,
          value_mapIndex_of_some t' l k kvs' _ hl' h0,
          find_iface_scalar t (l ++ [k]) _ hgc rfl, find_iface_scalar t' (l ++ [k]) _ hgc' rfl]

theorem find_root_walk (t : Node) (root : Value) (hroot : root = .conc [] ∨ root = .iface [])
    (c : List String) (a : String) (r : List String) (kvs : List (String × Node))
    (hget : t.get c = some (.map kvs)) (b : Bool) :
    find t root .invalid (c ++ a :: r) "" b
      = find t (Value.mapIndex t (.conc c) a) (.conc c) r a b := by
  have hq' : t.get ([] ++ c) = some (.map kvs) := by simpa using hget
  rcases hroot with rfl | rfl
  · simpa using find_walk_conc t b a r c [] kvs .invalid "" hq'
  · simpa using find_walk_iface t b a r c [] kvs .invalid "" hq'

/-- Read mode from the root gives the same on two trees that agree below the key at which
the pointer leaves a path of maps. -/
theorem find_root_read_congr (t t' : Node) (root : Value)
    (hroot : root = .conc [] ∨ root = .iface []) (c : List String) (a : String)
    (r : List String) (kvs kvs' : List (String × Node))
    (hl : t.get c = some (.map kvs)) (hl' : t'.get c = some (.map kvs'))
    (hsame : ∀ x, t'.get (c ++ a :: x) = t.get (c ++ a :: x)) :
    (find t' root .invalid (c ++ a :: r) "" false).observe
      = (find t root .invalid (c ++ a :: r) "" false).observe := by
  rw [find_root_walk t root hroot c a r kvs hl, find_root_walk t' root hroot c a r kvs' hl']
  exact find_read_congr r t t' c a kvs kvs' hl hl' hsame

/-- What `getAt` returns is determined by what it has in hand after `find`. -/
theorem getAt_congr {τ : Type} (unmarshal : Node → τ → Except GoError τ) (q : String)
    (t t' : Node) (root : Value) (target : τ)
    (h : (find t' root .invalid (keys q) "" false).observe
      = (find t root .invalid (keys q) "" false).observe) :
    getAt unmarshal q t' root target = getAt unmarshal q t root target := by
  unfold getAt
  cases h1 : find t' root .invalid (keys q) "" false with
  | panic =>
    cases h2 : find t root .invalid (keys q) "" false with
    | panic => rfl
    | ret v vp lk err tr => simp [h1, h2, FindOut.observe] at h
  | ret v' vp' lk' err' tr' =>
    cases h2 : find t root .invalid (keys q) "" false with
    | panic => simp [h1, h2, FindOut.observe] at h
    | ret v vp lk err tr =>
      simp only [h1, h2, FindOut.observe, Option.some.injEq, Prod.mk.injEq] at h
      obtain ⟨rfl, rfl, rfl, rfl, habs, hnode⟩ := h
      cases err' with
      | some e => rfl
      | none =>
        simp only [habs, hnode]

/-- The classification of a non-empty key list on a mapping: the walk through mappings
meets a missing key or nil, or reaches the last key with a value under it, or meets a
sequence or a scalar before the last key. -/
theorem walk_split (ks : List String) :
    ∀ (kvs0 : List (String × Node)) (k : String),
      (∃ pre j suf kvs, k :: ks = pre ++ j :: suf ∧ (Node.map kvs0).get pre = some (.map kvs) ∧
        (mapIndex j kvs = none ∨ mapIndex j kvs = some .null)) ∨
      (∃ pre last kvs c, k :: ks = pre ++ [last] ∧ (Node.map kvs0).get pre = some (.map kvs) ∧
        mapIndex last kvs = some c ∧ c ≠ .null) ∨
      (∃ pre j suf xs, k :: ks = pre ++ j :: suf ∧ (Node.map kvs0).get pre = some (.seq xs)) ∨
      (∃ pre j suf n, k :: ks = pre ++ j :: suf ∧ (Node.map kvs0).get pre = some n ∧
        n.isScalar = true) := by
  induction ks with
  | nil =>
    intro kvs0 k
    cases hc : mapIndex k kvs0 with
    | none => exact Or.inl ⟨[], k, [], kvs0, rfl, get_nil _, Or.inl hc⟩
    | some c =>
      by_cases hn : c = .null
      · subst hn
        exact Or.inl ⟨[], k, [], kvs0, rfl, get_nil _, Or.inr hc⟩
      · exact Or.inr (Or.inl ⟨[], k, kvs0, c, rfl, get_nil _, hc, hn⟩)
  | cons k' ks ih =>
    intro kvs0 k
    cases hc : mapIndex k kvs0 with
    | none => exact Or.inl ⟨[], k, k' :: ks, kvs0, rfl, get_nil _, Or.inl hc⟩
    | some c =>
      have hgc : (Node.map kvs0).get [k] = some c := by simp [get_cons_map, hc, get_nil]
      cases c with
      | null => exact Or.inl ⟨[], k, k' :: ks, kvs0, rfl, get_nil _, Or.inr hc⟩
      | map m =>
        have hpre : ∀ (pre : List String) (n : Node), (Node.map m).get pre = some n →
            (Node.map kvs0).get (k :: pre) = some n := by
          intro pre n h
          simp [get_cons_map, hc, h]
        rcases ih m k' with ⟨pre, j, suf, kvs, h1, h2, h3⟩ | ⟨pre, last, kvs, c, h1, h2, h3, h4⟩ |
          ⟨pre, j, suf, xs, h1, h2⟩ | ⟨pre, j, suf, n, h1, h2, h3⟩
        · exact Or.inl ⟨k :: pre, j, suf, kvs, by simp [h1], hpre _ _ h2, h3⟩
        · exact Or.inr (Or.inl ⟨k :: pre, last, kvs, c, by simp [h1], hpre _ _ h2, h3, h4⟩)
        · exact Or.inr (Or.inr (Or.inl ⟨k :: pre, j, suf, xs, by simp [h1], hpre _ _ h2⟩))
        · exact Or.inr (Or.inr (Or.inr ⟨k :: pre, j, suf, n, by simp [h1], hpre _ _ h2, h3⟩))
      | seq xs => exact Or.inr (Or.inr (Or.inl ⟨[k], k', ks, xs, rfl, hgc⟩))
      | bool b => exact Or.inr (Or.inr (Or.inr ⟨[k], k', ks, _, rfl, hgc, rfl⟩))
      | num b => exact Or.inr (Or.inr (Or.inr ⟨[k], k', ks, _, rfl, hgc, rfl⟩))
      | str b => exact Or.inr (Or.inr (Or.inr ⟨[k], k', ks, _, rfl, hgc, rfl⟩))

/-- Create mode below an absent value: every remaining key gets a fresh mapping. -/
theorem find_create_chain_absent (ks : List String) :
    ∀ (t : Node) (l : List String) (k : String) (kvs : List (String × Node))
      (q : List String) (last : String) (t1 : Node),
      t.get l = some (.map kvs) → (Value.mapIndex t (.conc l) k).isAbsent t = some true →
      k :: ks = q ++ [last] → t.setIn l k (some (chain ks)) = some t1 →
      find t (Value.mapIndex t (.conc l) k) (.conc l) ks k true
        = .ret (.conc (l ++ k :: ks)) (.conc (l ++ q)) last none t1 := by
  induction ks with
  | nil =>
    intro t l k kvs q last t1 hl habs hq hs
    have hq' : q = [] ∧ last = k := by
      rcases snoc_cases q with rfl | ⟨q', a, rfl⟩
      · simpa [eq_comm] using hq
      · have := congrArg List.length hq
        simp at this
    obtain ⟨rfl, rfl⟩ := hq'
    rw [find_create_absent_nil t _ l last t1 habs hs]
    simp
  | cons k' ks ih =>
    intro t l k kvs q last t1 hl habs hq hs
    obtain ⟨t2, hs2, -, hg2⟩ := create_spec t l k kvs hl
    obtain ⟨q', rfl, hq'⟩ : ∃ q', q = k :: q' ∧ k' :: ks = q' ++ [last] := by
      cases q with
      | nil =>
        have := congrArg List.length hq
        simp at this
      | cons a q' =>
        simp only [List.cons_append, List.cons.injEq] at hq
        exact ⟨q', by rw [hq.1], hq.2⟩
    have hbelow := setIn_setIn_below l t k (.map []) t2 [] k' (some (chain ks)) hs2
    simp only [setIn_nil_map, updMap, setMapIndex, Option.some_bind] at hbelow
    have hs' : t2.setIn (l ++ [k]) k' (some (chain ks)) = some t1 := by
      rw [hbelow]
      exact hs
    rw [find_create_absent_cons t _ l k k' ks t2 habs hs2 hg2,
      ih t2 (l ++ [k]) k' [] q' last t1 hg2
        (isAbsent_mapIndex_none t2 (l ++ [k]) k' [] hg2 rfl) hq' hs']
    simp

/-- A `setAt` whose pointer meets a missing key or nil after a path of maps links one value
under that key: the maps for the remaining keys, the last of which holds the value. -/
theorem setAt_create_general (t : Node) (root : Value)
    (hroot : root = .conc [] ∨ root = .iface []) (p : String)
    (pre : List String) (k : String) (suf : List String) (kvs : List (String × Node))
    (v : GoValue) (out : Node)
    (hkeys : keys p = pre ++ k :: suf)
    (hget : t.get pre = some (.map kvs))
    (hmiss : mapIndex k kvs = none ∨ mapIndex k kvs = some .null)
    (hv : v.generic = some out) :
    ∃ t', setAt p v t root = .ok t' ∧
      t.setIn pre k (fill suf (valueOfOut out)) = some t' := by
  obtain ⟨t1, hs1, -⟩ := setIn_spec t pre k (some (chain suf)) kvs hget
  obtain ⟨t', hs', -⟩ := setIn_spec t pre k (fill suf (valueOfOut out)) kvs hget
  obtain ⟨q, last, hq⟩ : ∃ q last, k :: suf = q ++ [last] := by
    rcases snoc_cases (k :: suf) with h | ⟨q, a, h⟩
    · cases h
    · exact ⟨q, a, h⟩
  have habs : (Value.mapIndex t (.conc pre) k).isAbsent t = some true := by
    rcases hmiss with h | h
    · exact isAbsent_mapIndex_none t pre k kvs hget h
    · exact isAbsent_mapIndex_null t pre k kvs hget h
  have hfind : find t root .invalid (keys p) "" true
      = .ret (.conc (pre ++ k :: suf)) (.conc (pre ++ q)) last none t1 := by
    rw [hkeys, find_root_walk t root hroot pre k suf kvs hget]
    exact find_create_chain_absent suf _ pre k kvs q last t1 hget habs hq hs1
  have hfinal : t1.setIn (pre ++ q) last (valueOfOut out) = some t' := by
    cases suf with
    | nil =>
      have hq' : q = [] ∧ last = k := by
        rcases snoc_cases q with rfl | ⟨q', a, rfl⟩
        · simpa [eq_comm] using hq
        · have := congrArg List.length hq
          simp at this
      obtain ⟨rfl, rfl⟩ := hq'
      rw [List.append_nil, setIn_setIn_same pre _ last _ t1 _ hs1]
      simpa [fill] using hs'
    | cons k' ks' =>
      obtain ⟨q', rfl, hq'⟩ : ∃ q', q = k :: q' ∧ k' :: ks' = q' ++ [last] := by
        cases q with
        | nil =>
          have := congrArg List.length hq
          simp at this
        | cons a q' =>
          simp only [List.cons_append, List.cons.injEq] at hq
          exact ⟨q', by rw [hq.1], hq.2⟩
      rw [setIn_setIn_below pre _ k _ t1 q' last _ hs1, chain_setIn q' _ last _ hq']
      cases hf : fill (k' :: ks') (valueOfOut out) with
      | none => simp [fill] at hf
      | some n =>
        rw [hf] at hs'
        simpa using hs'
  refine ⟨t', ?_, hs'⟩
  simp [setAt, hfind, hv, hfinal]

/-- Resolution of a pointer whose keys all resolve, in either mode. -/
theorem find_root_resolved (t : Node) (root : Value)
    (hroot : root = .conc [] ∨ root = .iface []) (pre : List String) (last : String)
    (kvs : List (String × Node)) (c : Node) (hget : t.get pre = some (.map kvs))
    (hc : mapIndex last kvs = some c) (hn : c ≠ .null) (b : Bool) :
    find t root .invalid (pre ++ [last]) "" b
      = .ret (.iface (pre ++ [last])) (.conc pre) last none t := by
  rw [find_root_walk t root hroot pre last [] kvs hget,
    value_mapIndex_of_some t pre last kvs c hget hc,
    find_iface_nil_keys t (pre ++ [last]) c (by rw [get_snoc_of_map t pre last kvs hget, hc]) hn]

/-- A successful `setAt` on a mapping is one write into the tree it was given: at the first
key of the pointer that is missing or holds nil, reached through maps, of the maps for the
remaining keys with the value in the last; or, when all keys resolve, of the value at the
last key. -/
theorem setAt_ok_shape (kvs0 : List (String × Node)) (root : Value)
    (hroot : root = .conc [] ∨ root = .iface []) (p : String) (v : GoValue) (t' : Node)
    (hset : setAt p v (.map kvs0) root = .ok t') :
    ∃ pre k suf kvs o, keys p = pre ++ k :: suf ∧
      (Node.map kvs0).get pre = some (.map kvs) ∧
      ((mapIndex k kvs = none ∨ mapIndex k kvs = some .null) ∨ suf = []) ∧
      (Node.map kvs0).setIn pre k (fill suf o) = some t' := by
  obtain ⟨out, -, -, -, hg, -, -⟩ := setAt_ok_spec _ root hroot p v t' hset
  obtain ⟨k0, ks0, hk⟩ := keys_eq_cons p
  rcases walk_split ks0 kvs0 k0 with ⟨pre, j, suf, kvs, h1, h2, h3⟩ |
    ⟨pre, last, kvs, c, h1, h2, h3, h4⟩ | ⟨pre, j, suf, xs, h1, h2⟩ | ⟨pre, j, suf, n, h1, h2, h3⟩
  · obtain ⟨t2, hs, hin⟩ := setAt_create_general _ root hroot p pre j suf kvs v out
      (by rw [hk, h1]) h2 h3 hg
    rw [hs] at hset
    cases hset
    exact ⟨pre, j, suf, kvs, _, by rw [hk, h1], h2, Or.inl h3, hin⟩
  · have hf := find_root_resolved _ root hroot pre last kvs c h2 h3 h4 true
    obtain ⟨t2, hs2, -⟩ := setIn_spec _ pre last (valueOfOut out) kvs h2
    have hset' := hset
    unfold setAt at hset'
    rw [hk, h1, hf] at hset'
    simp only [hg, hs2, Exec.ok.injEq] at hset'
    subst hset'
    exact ⟨pre, last, [], kvs, valueOfOut out, by rw [hk, h1], h2, Or.inr rfl, hs2⟩
  · obtain ⟨vp, lk, hf⟩ := find_root_seq _ root hroot pre j suf xs h2 true
    unfold setAt at hset
    rw [hk, h1, hf] at hset
    simp at hset
  · have hf := find_root_scalar _ root hroot pre j suf n h2 h3 true
    unfold setAt at hset
    rw [hk, h1, hf] at hset
    simp at hset

theorem split_position {pre c : List String} {k b : String} {suf r' : List String}
    (h : pre ++ k :: suf = c ++ b :: r') :
    (∃ r'', pre ++ [k] = c ++ b :: r'') ∨ (∃ c2, c = pre ++ k :: c2 ∧ suf = c2 ++ b :: r') := by
  rcases List.append_eq_append_iff.1 h with ⟨a', hc, hs⟩ | ⟨c', hp, hs⟩
  · cases a' with
    | nil =>
      simp only [List.nil_append, List.cons.injEq] at hs
      left
      exact ⟨[], by simp [hc, hs.1]⟩
    | cons x a'' =>
      simp only [List.cons_append, List.cons.injEq] at hs
      right
      exact ⟨a'', by rw [hc, hs.1], hs.2⟩
  · cases c' with
    | nil =>
      simp only [List.nil_append, List.cons.injEq] at hs
      left
      exact ⟨[], by simp [hp, hs.1]⟩
    | cons y c'' =>
      simp only [List.cons_append, List.cons.injEq] at hs
      left
      exact ⟨c'' ++ [k], by simp [hp, hs.1]⟩

theorem get_below_miss (t : Node) (pre : List String) (k : String) (c2 : List String)
    (kvs : List (String × Node)) (hget : t.get pre = some (.map kvs))
    (hmiss : mapIndex k kvs = none ∨ mapIndex k kvs = some .null) :
    t.get (pre ++ k :: c2) = none ∨ t.get (pre ++ k :: c2) = some .null := by
  rw [get_append, hget]
  simp only [Option.some_bind, get_cons_map]
  rcases hmiss with h | h
  · simp [h]
  · rw [h]
    cases c2 with
    | nil => right; rfl
    | cons x xs => left; rfl

theorem getElem?_append_of_some {α : Type} (xs ys : List α) :
    ∀ (i : Nat) (x : α), xs[i]? = some x → (xs ++ ys)[i]? = some x := by
  induction xs with
  | nil => intro i x h; simp at h
  | cons a xs ih =>
    intro i x h
    cases i with
    | zero => simpa using h
    | succ i =>
      simp only [List.getElem?_cons_succ] at h
      simpa using ih i x h

theorem getElem?_some_of_lt {α : Type} (xs : List α) (i : Nat) (h : i < xs.length) :
    ∃ x, xs[i]? = some x :=
  ⟨xs[i], by simp [h]⟩

/-- Region records after those the inner loop looks up have no effect on it. -/
theorem writeMatches_surplus (c : ClusterWorkloadResourceMappingContainer)
    (records extra : List MetaContainer) (ms : List (List Step)) :
    ∀ (u : Node) (ci : Nat), writeMatches c records ms u ci ≠ .panic →
      writeMatches c (records ++ extra) ms u ci = writeMatches c records ms u ci := by
  induction ms with
  | nil => intro u ci _; rfl
  | cons m ms ih =>
    intro u ci h
    unfold writeMatches at h ⊢
    cases hr : records[ci]? with
    | none => simp [hr] at h
    | some mc =>
      rw [getElem?_append_of_some records extra ci mc hr]
      simp only [hr] at h ⊢
      cases hw : writeContainer c mc (region u m) with
      | panic => rfl
      | err e r' => rfl
      | ok r' =>
        simp only [hw] at h ⊢
        exact ih _ _ h

/-- With a region record for every match, the inner loop finds each record it looks up. -/
theorem writeMatches_enough (c : ClusterWorkloadResourceMappingContainer)
    (records extra : List MetaContainer) (ms : List (List Step)) :
    ∀ (u : Node) (ci : Nat), ci + ms.length ≤ records.length →
      writeMatches c (records ++ extra) ms u ci = writeMatches c records ms u ci := by
  induction ms with
  | nil => intro u ci _; rfl
  | cons m ms ih =>
    intro u ci h
    simp only [List.length_cons] at h
    obtain ⟨mc, hr⟩ := getElem?_some_of_lt records ci (by omega)
    unfold writeMatches
    rw [getElem?_append_of_some records extra ci mc hr, hr]
    simp only
    cases hw : writeContainer c mc (region u m) with
    | panic => rfl
    | err e r' => rfl
    | ok r' =>
      simp only
      exact ih _ _ (by omega)

theorem writeContainers_surplus (lib : Library) (records extra : List MetaContainer)
    (cs : List ClusterWorkloadResourceMappingContainer) :
    ∀ (u : Node) (ci : Nat), writeContainers lib records cs u ci ≠ .panic →
      writeContainers lib (records ++ extra) cs u ci = writeContainers lib records cs u ci := by
  induction cs with
  | nil => intro u ci _; rfl
  | cons c cs ih =>
    intro u ci h
    unfold writeContainers at h ⊢
    by_cases hp : lib.parse c.Path = true
    · simp only [hp, Bool.not_true, Bool.false_eq_true, if_false] at h ⊢
      cases hf : lib.findResults c.Path u with
      | none =>
        simp only [hf] at h ⊢
        exact ih _ _ h
      | some ms =>
        simp only [hf] at h ⊢
        have hm : writeMatches c records ms u ci ≠ .panic := by
          intro hm
          rw [hm] at h
          exact h rfl
        rw [writeMatches_surplus c records extra ms u ci hm]
        cases hw : writeMatches c records ms u ci with
        | panic => exact absurd hw hm
        | err e t => rfl
        | next u1 ci1 =>
          simp only [hw] at h ⊢
          exact ih _ _ h
    · simp [hp]

/-- The inner loop over a list of matches followed by another continues, after the first,
with the tree and the counter the first left. -/
theorem writeMatches_append (c : ClusterWorkloadResourceMappingContainer)
    (records : List MetaContainer) (ms1 ms2 : List (List Step)) :
    ∀ (u : Node) (ci : Nat),
      writeMatches c records (ms1 ++ ms2) u ci =
        match writeMatches c records ms1 u ci with
        | .next um ck => writeMatches c records ms2 um ck
        | o => o := by
  induction ms1 with
  | nil => intro u ci; rfl
  | cons m ms1 ih =>
    intro u ci
    simp only [List.cons_append, writeMatches]
    cases hr : records[ci]? with
    | none => rfl
    | some mc =>
      simp only
      cases hw : writeContainer c mc (region u m) with
      | panic => rfl
      | err e r' => rfl
      | ok r' =>
        simp only
        exact ih _ _

theorem forall₂_of_mem {α β : Type} {R : α → β → Prop} {xs : List α} {ys : List β}
    (h : List.Forall₂ R xs ys) (x : α) (hx : x ∈ xs) : ∃ y, R x y := by
  induction h with
  | nil => simp at hx
  | cons hab _ ih =>
    simp only [List.mem_cons] at hx
    rcases hx with rfl | hx
    · exact ⟨_, hab⟩
    · exact ih hx

/-- A projection is returned only when every read returned without error. -/
theorem NewMetaPodTemplate_ok_reads_ok (lib : Library) (u : Node)
    (mapping : ClusterWorkloadResourceMappingTemplate) (mpt : MetaPodTemplate)
    (h : NewMetaPodTemplate lib u mapping = .ok mpt) :
    getAt unmarshalStringMap mapping.Annotations u (.conc []) (some []) = .ok mpt.Annotations ∧
    getAt (unmarshalSlice lib.volume) mapping.Volumes u (.conc []) (some []) = .ok mpt.Volumes ∧
    List.Forall₂ (ReadsFrom lib u) (allMatches lib u mapping.Containers) mpt.Containers := by
  unfold NewMetaPodTemplate at h
  cases h1 : getAt unmarshalStringMap mapping.Annotations u (.conc []) (some []) with
  | panic => simp [h1] at h
  | err e => simp [h1] at h
  | ok ann =>
    cases h2 : readContainers lib u mapping.Containers [] with
    | panic => simp [h1, h2] at h
    | err e => simp [h1, h2] at h
    | ok recs =>
      cases h3 : getAt (unmarshalSlice lib.volume) mapping.Volumes u (.conc []) (some []) with
      | panic => simp [h1, h2, h3] at h
      | err e => simp [h1, h2, h3] at h
      | ok vols =>
        simp [h1, h2, h3] at h
        subst h
        obtain ⟨recs', hacc, hall⟩ := readContainers_ok lib u mapping.Containers [] recs h2
        simp only [List.nil_append] at hacc
        subst hacc
        exact ⟨rfl, rfl, hall⟩

/-- When a read of the annotations, of the volumes, or of the name, the env list or the
volume-mount list of a match returns an error, no projection is returned. -/
theorem NewMetaPodTemplate_read_error_no_projection (lib : Library) (u : Node)
    (mapping : ClusterWorkloadResourceMappingTemplate) (e : GoError)
    (h : getAt unmarshalStringMap mapping.Annotations u (.conc []) (some []) = .err e ∨
      getAt (unmarshalSlice lib.volume) mapping.Volumes u (.conc []) (some []) = .err e ∨
      ∃ cm ∈ allMatches lib u mapping.Containers,
        (cm.1.Name ≠ "" ∧
          getAt unmarshalString cm.1.Name (region u cm.2) (.iface []) "" = .err e) ∨
        getAt (unmarshalSlice lib.envVar) cm.1.Env (region u cm.2) (.iface []) (some [])
          = .err e ∨
        getAt (unmarshalSlice lib.volumeMount) cm.1.VolumeMounts (region u cm.2) (.iface [])
          (some []) = .err e)
    (mpt : MetaPodTemplate) : NewMetaPodTemplate lib u mapping ≠ .ok mpt := by
  intro hok
  obtain ⟨ha, hv, hall⟩ := NewMetaPodTemplate_ok_reads_ok lib u mapping mpt hok
  rcases h with h | h | ⟨cm, hcm, h⟩
  · rw [ha] at h
    cases h
  · rw [hv] at h
    cases h
  · obtain ⟨mc, hn, he, hm⟩ := forall₂_of_mem hall cm hcm
    rcases h with ⟨hne, h⟩ | h | h
    · simp only [hne, ne_eq, not_false_eq_true, if_true] at hn
      rw [hn] at h
      cases h
    · rw [he] at h
      cases h
    · rw [hm] at h
      cases h

/-- An error of the read of the annotations is what `NewMetaPodTemplate` returns. -/
theorem NewMetaPodTemplate_annotations_error (lib : Library) (u : Node)
    (mapping : ClusterWorkloadResourceMappingTemplate) (e : GoError)
    (h : getAt unmarshalStringMap mapping.Annotations u (.conc []) (some []) = .err e) :
    NewMetaPodTemplate lib u mapping = .err e := by
  simp [NewMetaPodTemplate, h]

/-- A `getAt` that returns without error either found nothing and left its target, or
decoded the node found under the keys of the pointer. -/
theorem getAt_ok_cases {τ : Type} (unmarshal : Node → τ → Except GoError τ) (p : String)
    (r : Node) (root : Value) (hroot : root = .conc [] ∨ root = .iface []) (target v : τ)
    (h : getAt unmarshal p r root target = .ok v) :
    (unresolved r (keys p) = true ∧ v = target) ∨
    ∃ n, r.get (keys p) = some n ∧ n ≠ .null ∧ unmarshal n target = .ok v := by
  obtain ⟨k0, ks0, hk⟩ := keys_eq_cons p
  cases r with
  | null =>
    left
    have hu : unresolved .null (keys p) = true := unresolved_null _
    rw [getAt_unresolved unmarshal p .null root hroot target hu] at h
    cases h
    exact ⟨hu, rfl⟩
  | map kvs0 =>
    rcases walk_split ks0 kvs0 k0 with ⟨pre, j, suf, kvs, h1, h2, h3⟩ |
      ⟨pre, last, kvs, c, h1, h2, h3, h4⟩ | ⟨pre, j, suf, xs, h1, h2⟩ |
      ⟨pre, j, suf, n, h1, h2, h3⟩
    · left
      have hu : unresolved (.map kvs0) (keys p) = true := by
        rw [hk, h1]
        exact unresolved_of_get_miss pre _ kvs j suf h2 h3
      rw [getAt_unresolved unmarshal p _ root hroot target hu] at h
      cases h
      exact ⟨hu, rfl⟩
    · right
      have hf := find_root_resolved _ root hroot pre last kvs c h2 h3 h4 false
      have hgc : (Node.map kvs0).get (pre ++ [last]) = some c := by
        rw [get_snoc_of_map _ pre last kvs h2, h3]
      have habs : (Value.iface (pre ++ [last])).isAbsent (.map kvs0) = some false := by
        cases c <;> simp [Value.isAbsent, hgc] at h4 ⊢
      unfold getAt at h
      rw [hk, h1, hf] at h
      simp only [habs, Value.node, hgc, Option.getD_some] at h
      refine ⟨c, by rw [hk, h1]; exact hgc, h4, ?_⟩
      cases hu : unmarshal c target with
      | ok x =>
        rw [hu] at h
        simp only [Result.ok.injEq] at h
        rw [h]
      | error e =>
        rw [hu] at h
        cases h
    · obtain ⟨vp, lk, hf⟩ := find_root_seq _ root hroot pre j suf xs h2 false
      unfold getAt at h
      rw [hk, h1, hf] at h
      cases h
    · have hf := find_root_scalar _ root hroot pre j suf n h2 h3 false
      unfold getAt at h
      rw [hk, h1, hf] at h
      cases h
  | seq xs =>
    obtain ⟨vp, lk, hf⟩ := find_root_seq (.seq xs) root hroot [] k0 ks0 xs (get_nil _) false
    unfold getAt at h
    rw [hk] at h
    simp only [List.nil_append] at hf
    rw [hf] at h
    cases h
  | bool b =>
    have hf := find_root_scalar (.bool b) root hroot [] k0 ks0 _ (get_nil _) rfl false
    unfold getAt at h
    rw [hk] at h
    simp only [List.nil_append] at hf
    rw [hf] at h
    cases h
  | num b =>
    have hf := find_root_scalar (.num b) root hroot [] k0 ks0 _ (get_nil _) rfl false
    unfold getAt at h
    rw [hk] at h
    simp only [List.nil_append] at hf
    rw [hf] at h
    cases h
  | str b =>
    have hf := find_root_scalar (.str b) root hroot [] k0 ks0 _ (get_nil _) rfl false
    unfold getAt at h
    rw [hk] at h
    simp only [List.nil_append] at hf
    rw [hf] at h
    cases h

theorem listAt_of_getAt (dec : Node → Option Node) (r : Node) (p : String)
    (v : Option (List Node))
    (h : getAt (unmarshalSlice dec) p r (.iface []) (some []) = .ok v) : ListAt dec r p v := by
  rcases getAt_ok_cases _ p r _ (Or.inr rfl) _ v h with ⟨hu, hv⟩ | ⟨n, hg, hn, hdec⟩
  · exact Or.inl ⟨hu, hv⟩
  · right
    cases n with
    | seq xs =>
      cases hd : decodeAll dec xs with
      | none => simp [unmarshalSlice, hd] at hdec
      | some ys =>
        simp only [unmarshalSlice, hd, Except.ok.injEq] at hdec
        exact ⟨xs, ys, hg, hd, hdec.symm⟩
    | null => exact absurd rfl hn
    | map m => simp [unmarshalSlice] at hdec
    | bool b => simp [unmarshalSlice] at hdec
    | num b => simp [unmarshalSlice] at hdec
    | str b => simp [unmarshalSlice] at hdec

theorem nameAt_of_getAt (r : Node) (p : String) (s : String) (hp : p ≠ "")
    (h : getAt unmarshalString p r (.iface []) "" = .ok s) : NameAt r p s := by
  right
  refine ⟨hp, ?_⟩
  rcases getAt_ok_cases _ p r _ (Or.inr rfl) _ s h with ⟨hu, hv⟩ | ⟨n, hg, hn, hdec⟩
  · exact Or.inl ⟨hu, hv⟩
  · right
    cases n with
    | str x =>
      simp only [unmarshalString, Except.ok.injEq] at hdec
      rw [← hdec]
      exact hg
    | null => exact absurd rfl hn
    | map m => simp [unmarshalString] at hdec
    | bool b => simp [unmarshalString] at hdec
    | num b => simp [unmarshalString] at hdec
    | seq b => simp [unmarshalString] at hdec

theorem holdsRegion_of_readsFrom (lib : Library) (u : Node)
    (cm : ClusterWorkloadResourceMappingContainer × List Step) (mc : MetaContainer)
    (h : ReadsFrom lib u cm mc) : HoldsRegion lib u cm mc := by
  obtain ⟨hn, he, hv⟩ := h
  refine ⟨?_, listAt_of_getAt _ _ _ _ he, listAt_of_getAt _ _ _ _ hv⟩
  by_cases hp : cm.1.Name = ""
  · simp only [hp, ne_eq, not_true_eq_false, if_false] at hn
    exact Or.inl ⟨hp, hn⟩
  · simp only [ne_eq, hp, not_false_eq_true, if_true] at hn
    exact nameAt_of_getAt _ _ _ hp hn

theorem forall₂_imp_of {α β : Type} {R S : α → β → Prop} (hRS : ∀ a b, R a b → S a b)
    {xs : List α} {ys : List β} (h : List.Forall₂ R xs ys) : List.Forall₂ S xs ys := by
  induction h with
  | nil => exact List.Forall₂.nil
  | cons hab _ ih => exact List.Forall₂.cons (hRS _ _ hab) ih

theorem getPath_nil (u : Node) : u.getPath [] = some u := by
  cases u <;> rfl

theorem setPath_nil (u r : Node) : u.setPath [] r = r := by
  cases u <;> rfl

/-- A sub-tree written at a location that exists is the sub-tree found there afterwards. -/
theorem getPath_setPath_same (m : List Step) :
    ∀ (u r' : Node), u.getPath m ≠ none → (u.setPath m r').getPath m = some r' := by
  induction m with
  | nil => intro u r' _; rw [setPath_nil, getPath_nil]
  | cons s m ih =>
    intro u r' h
    cases u with
    | map kvs =>
      cases s with
      | key k =>
        cases hc : mapIndex k kvs with
        | none => simp [Node.getPath, hc] at h
        | some c =>
          have hc' : c.getPath m ≠ none := by simpa [Node.getPath, hc] using h
          simp [Node.setPath, Node.getPath, hc, mapIndex_setMapIndex_same, ih c r' hc']
      | index i => simp [Node.getPath] at h
    | seq xs =>
      cases s with
      | key k => simp [Node.getPath] at h
      | index i =>
        cases hc : xs[i]? with
        | none => simp [Node.getPath, hc] at h
        | some c =>
          have hc' : c.getPath m ≠ none := by simpa [Node.getPath, hc] using h
          have hi : i < xs.length := by
            rcases Nat.lt_or_ge i xs.length with hlt | hge
            · exact hlt
            · rw [List.getElem?_eq_none hge] at hc
              cases hc
          simp [Node.setPath, Node.getPath, hc, hi, ih c r' hc']
    | null => simp [Node.getPath] at h
    | bool b => simp [Node.getPath] at h
    | num b => simp [Node.getPath] at h
    | str b => simp [Node.getPath] at h

/-- A sub-tree written at a location leaves every location that parts from it as it was. -/
theorem getPath_setPath_diverge (c : List Step) :
    ∀ (u r' : Node) (a b : Step) (x y : List Step), a ≠ b →
      (u.setPath (c ++ a :: x) r').getPath (c ++ b :: y) = u.getPath (c ++ b :: y) := by
  induction c with
  | nil =>
    intro u r' a b x y hab
    simp only [List.nil_append]
    cases u with
    | map kvs =>
      cases a with
      | key k =>
        cases hc : mapIndex k kvs with
        | none => simp [Node.setPath, hc]
        | some ch =>
          cases b with
          | key k2 =>
            have hk : k2 ≠ k := fun e => hab (by rw [e])
            simp [Node.setPath, Node.getPath, hc, mapIndex_setMapIndex_ne k k2 _ kvs hk]
          | index i => simp [Node.setPath, Node.getPath, hc]
      | index i => simp [Node.setPath]
    | seq xs =>
      cases a with
      | key k => simp [Node.setPath]
      | index i =>
        cases hc : xs[i]? with
        | none => simp [Node.setPath, hc]
        | some ch =>
          cases b with
          | key k2 => simp [Node.setPath, Node.getPath, hc]
          | index j =>
            have hij : i ≠ j := fun e => hab (by rw [e])
            simp [Node.setPath, Node.getPath, hc, List.getElem?_set_ne hij]
    | null => simp [Node.setPath]
    | bool b => simp [Node.setPath]
    | num b => simp [Node.setPath]
    | str b => simp [Node.setPath]
  | cons s c ih =>
    intro u r' a b x y hab
    simp only [List.cons_append]
    cases u with
    | map kvs =>
      cases s with
      | key k =>
        cases hc : mapIndex k kvs with
        | none => simp [Node.setPath, hc]
        | some ch =>
          simp [Node.setPath, Node.getPath, hc, mapIndex_setMapIndex_same, ih ch r' a b x y hab]
      | index i => simp [Node.setPath]
    | seq xs =>
      cases s with
      | key k => simp [Node.setPath]
      | index i =>
        cases hc : xs[i]? with
        | none => simp [Node.setPath, hc]
        | some ch =>
          have hi : i < xs.length := by
            rcases Nat.lt_or_ge i xs.length with hlt | hge
            · exact hlt
            · rw [List.getElem?_eq_none hge] at hc
              cases hc
          simp [Node.setPath, Node.getPath, hc, hi, ih ch r' a b x y hab]
    | null => simp [Node.setPath]
    | bool b => simp [Node.setPath]
    | num b => simp [Node.setPath]
    | str b => simp [Node.setPath]

theorem apart_split (m : List Step) :
    ∀ m2 : List Step, Apart m m2 →
      ∃ c a b x y, m = c ++ a :: x ∧ m2 = c ++ b :: y ∧ a ≠ b := by
  induction m with
  | nil => intro m2 h; exact absurd (List.nil_prefix) h.1
  | cons a m ih =>
    intro m2 h
    cases m2 with
    | nil => exact absurd (List.nil_prefix) h.2
    | cons b m2 =>
      by_cases hab : a = b
      · subst hab
        obtain ⟨c, a', b', x, y, h1, h2, h3⟩ := ih m2
          ⟨fun hp => h.1 ((List.prefix_cons_inj a).2 hp),
            fun hp => h.2 ((List.prefix_cons_inj a).2 hp)⟩
        exact ⟨a :: c, a', b', x, y, by simp [h1], by simp [h2], h3⟩
      · exact ⟨[], a, b, m, m2, rfl, rfl, hab⟩

theorem getPath_setPath_apart (u r' : Node) (m m2 : List Step) (h : Apart m m2) :
    (u.setPath m r').getPath m2 = u.getPath m2 := by
  obtain ⟨c, a, b, x, y, rfl, rfl, hab⟩ := apart_split m m2 h
  exact getPath_setPath_diverge c u r' a b x y hab

theorem apart_symm {m m2 : List Step} (h : Apart m m2) : Apart m2 m :=
  ⟨h.2, h.1⟩

/-- The inner loop over matches that lie apart and exist in the tree: when it runs to its
end, every location apart from all the matches is as it was, and every match holds the
region that the writes of its record produced from the region it held. -/
theorem writeMatches_reads (c : ClusterWorkloadResourceMappingContainer)
    (records : List MetaContainer) (ms : List (List Step)) :
    ∀ (u : Node) (ci : Nat) (um : Node) (ck : Nat), ms.Pairwise Apart →
      (∀ m ∈ ms, u.getPath m ≠ none) →
      writeMatches c records ms u ci = .next um ck →
      (∀ m2, (∀ m ∈ ms, Apart m m2) → um.getPath m2 = u.getPath m2) ∧
      ∀ j mj, ms[j]? = some mj → ∃ mc r', records[ci + j]? = some mc ∧
        writeContainer c mc (region u mj) = .ok r' ∧ um.getPath mj = some r' := by
  induction ms with
  | nil =>
    intro u ci um ck _ _ h
    simp [writeMatches] at h
    obtain ⟨rfl, rfl⟩ := h
    exact ⟨fun _ _ => rfl, fun j mj hj => by simp at hj⟩
  | cons m ms ih =>
    intro u ci um ck hpw hex h
    rw [List.pairwise_cons] at hpw
    obtain ⟨hm, hpw'⟩ := hpw
    unfold writeMatches at h
    cases hr : records[ci]? with
    | none => simp [hr] at h
    | some mc =>
      simp only [hr] at h
      cases hw : writeContainer c mc (region u m) with
      | panic => simp [hw] at h
      | err e r' => simp [hw] at h
      | ok r' =>
        simp only [hw] at h
        have hex' : ∀ m' ∈ ms, (u.setPath m r').getPath m' ≠ none := by
          intro m' hm'
          rw [getPath_setPath_apart u r' m m' (hm m' hm')]
          exact hex m' (by simp [hm'])
        obtain ⟨hframe, hreads⟩ := ih _ _ _ _ hpw' hex' h
        refine ⟨?_, ?_⟩
        · intro m2 hm2
          rw [hframe m2 (fun m' hm' => hm2 m' (by simp [hm'])),
            getPath_setPath_apart u r' m m2 (hm2 m (by simp))]
        · intro j mj hj
          cases j with
          | zero =>
            simp only [List.getElem?_cons_zero, Option.some.injEq] at hj
            subst hj
            refine ⟨mc, r', by simpa using hr, hw, ?_⟩
            rw [hframe m (fun m' hm' => apart_symm (hm m' hm'))]
            exact getPath_setPath_same m u r' (hex m (by simp))
          | succ j =>
            simp only [List.getElem?_cons_succ] at hj
            obtain ⟨mcj, rj, hrec, hwj, hget⟩ := hreads j mj hj
            have hmem : mj ∈ ms := List.mem_iff_getElem?.2 ⟨j, hj⟩
            have hreg : region (u.setPath m r') mj = region u mj := by
              simp only [region, getPath_setPath_apart u r' m mj (hm mj hmem)]
            rw [hreg] at hwj
            refine ⟨mcj, rj, ?_, hwj, hget⟩
            rw [← hrec]
            congr 1
            omega

/-- Read after write. For a tree, a pointer `p` and a value `v`, after a `setAt` that returns
without error, `find` in read mode resolves `p` on the resulting tree without error to a
value whose node is the generic form `out` that `setAt` computed for `v` (the nil `Value` when `out` is
nil, which is the case for a nil map or slice); `getAt` then decodes that node into its
target, and leaves the target as it is when the node is nil. A string is read back as the
same string, a map (with pairwise distinct keys) as the same map, a list whose elements are
decoded to themselves as the same list. The target of `setAt` and the source of `getAt` is
either the root map (`uv`) or a selector match (`cv`). -/
theorem setAt_then_read_roundtrip (t : Node) (root : Value)
    (hroot : root = .conc [] ∨ root = .iface []) (p : String) (v : GoValue) (t' : Node)
    (hset : setAt p v t root = .ok t') :
    ∃ out val vp lk, v.generic = some out ∧
      find t' root .invalid (keys p) "" false = .ret val vp lk none t' ∧
      val.node t' = out ∧
      (∀ (τ : Type) (unmarshal : Node → τ → Except GoError τ) (x : τ),
        getAt unmarshal p t' root x =
          match valueOfOut out with
          | none => .ok x
          | some n =>
            match unmarshal n x with
            | .ok y => .ok y
            | .error e => .err e) ∧
      (∀ s x, v = .str s → getAt unmarshalString p t' root x = .ok s) ∧
      (∀ kvs, v = .mapSS (some kvs) → (kvs.map Prod.fst).Nodup →
        getAt unmarshalStringMap p t' root (some []) = .ok (some kvs)) ∧
      (∀ dec xs x, v = .slice (some xs) → (∀ y ∈ xs, dec y = some y) →
        getAt (unmarshalSlice dec) p t' root x = .ok (some xs)) := by
  obtain ⟨out, pre, last, kvs1, hg, hk, hget⟩ := setAt_ok_spec t root hroot p v t' hset
  have hfind0 := find_root_read_last t' root hroot pre last _ hget
  have hget_last : t'.get (pre ++ [last]) = mapIndex last (updMap last (valueOfOut out) kvs1) :=
    get_snoc_of_map t' pre last _ hget
  cases ho : valueOfOut out with
  | none =>
    have hnull := valueOfOut_eq_none ho
    have hmi : mapIndex last (updMap last (valueOfOut out) kvs1) = none := by
      simp [ho, updMap, mapIndex_deleteMapIndex_same]
    rw [hmi] at hfind0
    have hfind : find t' root .invalid (keys p) "" false
        = .ret .invalid .invalid "" none t' := by
      rw [hk]
      exact hfind0
    have hgetAt : ∀ (τ : Type) (unmarshal : Node → τ → Except GoError τ) (x : τ),
        getAt unmarshal p t' root x = .ok x := by
      intro τ unmarshal x
      simp [getAt, hfind, Value.isAbsent]
    refine ⟨out, _, _, _, hg, hfind, by simp [Value.node, hnull], ?_, ?_, ?_, ?_⟩
    · intro τ unmarshal x
      rw [ho]
      exact hgetAt τ unmarshal x
    · intro s x hv
      subst hv
      simp [GoValue.generic] at hg
      subst hg
      simp [valueOfOut] at ho
    · intro kvs hv _
      subst hv
      simp [GoValue.generic] at hg
      subst hg
      simp [valueOfOut] at ho
    · intro dec xs x hv _
      subst hv
      simp [GoValue.generic] at hg
      subst hg
      simp [valueOfOut] at ho
  | some n =>
    obtain ⟨hn, hne⟩ := valueOfOut_eq_some ho
    subst hn
    have hmi : mapIndex last (updMap last (valueOfOut n) kvs1) = some n := by
      simp [ho, updMap, mapIndex_setMapIndex_same]
    rw [hmi] at hfind0 hget_last
    have hfind' : find t' root .invalid (keys p) "" false
        = .ret (.iface (pre ++ [last])) (.conc pre) last none t' := by
      rw [hk, hfind0]
      cases n <;> simp at hne ⊢
    have hgetAt : ∀ (τ : Type) (unmarshal : Node → τ → Except GoError τ) (x : τ),
        getAt unmarshal p t' root x =
          match unmarshal n x with
          | .ok y => .ok y
          | .error e => .err e := by
      intro τ unmarshal x
      have habs : (Value.iface (pre ++ [last])).isAbsent t' = some false := by
        simp only [Value.isAbsent, hget_last]
      simp only [getAt, hfind', habs, Value.node, hget_last, Option.getD_some]
    refine ⟨n, _, _, _, hg, hfind', by simp [Value.node, hget_last], ?_, ?_, ?_, ?_⟩
    · intro τ unmarshal x
      rw [ho]
      exact hgetAt τ unmarshal x
    · intro s x hv
      subst hv
      simp [GoValue.generic] at hg
      subst hg
      rw [hgetAt]
      simp [unmarshalString]
    · intro kvs hv hnd
      subst hv
      simp [GoValue.generic] at hg
      subst hg
      rw [hgetAt]
      simp [unmarshalStringMap, unmarshalEntries_strings kvs [] hnd (by simp)]
    · intro dec xs x hv hdec
      subst hv
      simp [GoValue.generic] at hg
      subst hg
      rw [hgetAt]
      simp [unmarshalSlice, decodeAll_fixed dec xs hdec]

/-- Read after write, an instance: the name c written at `/name` into the region that holds
the name b is the node read-mode resolution then yields, and `getAt` reads it back. -/
theorem setAt_then_read_roundtrip_witness :
    setAt "/name" (.str "c") (.map [("name", .str "b")]) (.iface [])
      = .ok (.map [("name", .str "c")]) ∧
    ∃ out val vp lk, (GoValue.str "c").generic = some out ∧
      find (.map [("name", .str "c")]) (.iface []) .invalid (keys "/name") "" false
        = .ret val vp lk none (.map [("name", .str "c")]) ∧
      val.node (.map [("name", .str "c")]) = out ∧
      (∀ (τ : Type) (unmarshal : Node → τ → Except GoError τ) (x : τ),
        getAt unmarshal "/name" (.map [("name", .str "c")]) (.iface []) x =
          match valueOfOut out with
          | none => .ok x
          | some n =>
            match unmarshal n x with
            | .ok y => .ok y
            | .error e => .err e) ∧
      (∀ s x, GoValue.str "c" = .str s →
        getAt unmarshalString "/name" (.map [("name", .str "c")]) (.iface []) x = .ok s) ∧
      (∀ kvs, GoValue.str "c" = .mapSS (some kvs) → (kvs.map Prod.fst).Nodup →
        getAt unmarshalStringMap "/name" (.map [("name", .str "c")]) (.iface []) (some [])
          = .ok (some kvs)) ∧
      (∀ dec xs x, GoValue.str "c" = .slice (some xs) → (∀ y ∈ xs, dec y = some y) →
        getAt (unmarshalSlice dec) "/name" (.map [("name", .str "c")]) (.iface []) x
          = .ok (some xs)) :=
  ⟨rfl, setAt_then_read_roundtrip (.map [("name", .str "b")]) (.iface []) (Or.inr rfl) "/name"
    (.str "c") (.map [("name", .str "c")]) rfl⟩

/-- Creation of a missing path. For a mapping tree and a pointer whose keys are
`pre ++ k :: suf`, where `pre` leads through mappings to a mapping in which the key `k` is
missing, `setAt` returns without
error and the resulting tree is the given tree with, under the key `k` of that mapping, the
value `fill suf out`: one mapping for each key of `suf`, each created empty and linked into
its parent under its key, the last one holding the value under the last key (for a nil map
or slice the last key gets no entry). -/
theorem setAt_creates_missing_path (kvs0 : List (String × Node)) (p : String)
    (pre : List String) (k : String) (suf : List String) (kvs : List (String × Node))
    (v : GoValue) (out : Node)
    (hkeys : keys p = pre ++ k :: suf)
    (hget : (Node.map kvs0).get pre = some (.map kvs))
    (hmiss : mapIndex k kvs = none) (hv : v.generic = some out) :
    ∃ t', setAt p v (.map kvs0) (.conc []) = .ok t' ∧
      (Node.map kvs0).setIn pre k (fill suf (valueOfOut out)) = some t' := by
  obtain ⟨t1, hs1, -⟩ := setIn_spec (.map kvs0) pre k (some (chain suf)) kvs hget
  obtain ⟨t', hs', -⟩ := setIn_spec (.map kvs0) pre k (fill suf (valueOfOut out)) kvs hget
  obtain ⟨q, last, hq⟩ : ∃ q last, k :: suf = q ++ [last] := by
    rcases snoc_cases (k :: suf) with h | ⟨q, a, h⟩
    · cases h
    · exact ⟨q, a, h⟩
  have hq0 : (Node.map kvs0).get ([] ++ pre) = some (.map kvs) := by simpa using hget
  have hfind : find (.map kvs0) (.conc []) .invalid (keys p) "" true
      = .ret (.conc (pre ++ k :: suf)) (.conc (pre ++ q)) last none t1 := by
    rw [hkeys, find_walk_conc _ true k suf pre [] kvs .invalid "" hq0]
    simp only [List.nil_append]
    exact find_create_chain suf _ pre k kvs q last t1 hget hmiss hq hs1
  have hfinal : t1.setIn (pre ++ q) last (valueOfOut out) = some t' := by
    cases suf with
    | nil =>
      have hq' : q = [] ∧ last = k := by
        rcases snoc_cases q with rfl | ⟨q', a, rfl⟩
        · simpa [eq_comm] using hq
        · have := congrArg List.length hq
          simp at this
      obtain ⟨rfl, rfl⟩ := hq'
      rw [List.append_nil, setIn_setIn_same pre _ last _ t1 _ hs1]
      simpa [fill] using hs'
    | cons k' ks' =>
      obtain ⟨q', rfl, hq'⟩ : ∃ q', q = k :: q' ∧ k' :: ks' = q' ++ [last] := by
        cases q with
        | nil =>
          have := congrArg List.length hq
          simp at this
        | cons a q' =>
          simp only [List.cons_append, List.cons.injEq] at hq
          exact ⟨q', by rw [hq.1], hq.2⟩
      rw [setIn_setIn_below pre _ k _ t1 q' last _ hs1, chain_setIn q' _ last _ hq']
      cases hf : fill (k' :: ks') (valueOfOut out) with
      | none => simp [fill] at hf
      | some n =>
        rw [hf] at hs'
        simpa using hs'
  refine ⟨t', ?_, hs'⟩
  simp [setAt, hfind, hv, hfinal]

/-- Creation of a missing path, an instance: writing the map with the entry k = v at
`/metadata/annotations` into the empty tree gives the tree with `metadata`, below it
`annotations`, below it the entry. -/
theorem setAt_creates_missing_path_witness :
    setAt "/metadata/annotations" (.mapSS (some [("k", "v")])) (.map []) (.conc [])
      = .ok (.map [("metadata", .map [("annotations", .map [("k", .str "v")])])]) ∧
    ∃ t', setAt "/metadata/annotations" (.mapSS (some [("k", "v")])) (.map []) (.conc [])
        = .ok t' ∧
      (Node.map []).setIn [] "metadata"
        (fill ["annotations"] (valueOfOut (.map [("k", .str "v")]))) = some t' :=
  ⟨rfl, setAt_creates_missing_path [] "/metadata/annotations" [] "metadata" ["annotations"] []
    (.mapSS (some [("k", "v")])) (.map [("k", .str "v")]) rfl rfl rfl rfl⟩

/-! ## The claims -/

/-- Claim C1, counterexample. The configuration has one descriptor whose selector matches the
container list itself, the projection has one region record, so the number of region records
equals the number of live matches; `WriteToWorkload` returns the error of `find` (a sequence
on the path of the name pointer) and record 0 is not written into match 0: in the tree at
that moment only the annotations have been written, the matched region is as it was. -/
theorem WriteToWorkload_positional_counterexample :
    (scenarioProjection ".spec.template.spec.containers"
        [.map [("name", .str "a")], .map [("name", .str "b")]]
        [scenarioRecord "c"]).Containers.length
      = (allMatches scenarioLibrary
          (scenarioTree [.map [("name", .str "a")], .map [("name", .str "b")]])
          (scenarioMapping ".spec.template.spec.containers").Containers).length ∧
    WriteToWorkload scenarioLibrary
        (scenarioProjection ".spec.template.spec.containers"
          [.map [("name", .str "a")], .map [("name", .str "b")]]
          [scenarioRecord "c"])
      = .err (.unhandledKind .Slice)
          (.map [("spec", .map [("template", .map [
            ("spec", .map [("containers", .seq [
              .map [("name", .str "a")], .map [("name", .str "b")]])]),
            ("metadata", .map [("annotations", .map [])])])])]) :=
  ⟨rfl, rfl⟩

/-- Claim C1 (amended). For every tree, configuration and projection on which
`WriteToWorkload` returns without error, the tree it produced is the one produced by the
write-back of the specification, which walks the descriptors in order and the matches of each
selector in match order while consuming the region records in the same order: the i-th match
over all descriptors receives, through `setAt`, the name (when the descriptor declares a name
pointer), the env list and the volume-mount list of region record i. -/
theorem WriteToWorkload_pairs_by_position (lib : Library) (mpt : MetaPodTemplate) (u' : Node)
    (h : WriteToWorkload lib mpt = .ok u') : WriteBack lib mpt = .ok u' := by
  unfold WriteToWorkload at h
  unfold WriteBack
  cases h1 : setAt mpt.mapping.Annotations (.mapSS mpt.Annotations) mpt.workload (.conc []) with
  | panic => simp [h1] at h
  | err e t => simp [h1] at h
  | ok u1 =>
    simp only [h1] at h ⊢
    cases h2 : writeContainers lib mpt.Containers mpt.mapping.Containers u1 0 with
    | panic => simp [h2] at h
    | err e t => simp [h2] at h
    | next u2 ci =>
      simp only [h2] at h
      have hw := writeContainers_next lib mpt.Containers _ u1 0 u2 ci h2
      simp only [List.drop_zero] at hw
      simp only [hw]
      exact h

/-- Witness of claim C1 (amended): the containers named a and b, written back with the
records named a and c, end up named a and c (each also receives the empty env list and
volume-mount list of its record). -/
theorem WriteToWorkload_pairs_by_position_witness :
    WriteToWorkload scenarioLibrary
        (scenarioProjection ".spec.template.spec.containers[*]"
          [.map [("name", .str "a")], .map [("name", .str "b")]]
          [scenarioRecord "a", scenarioRecord "c"])
      = .ok (.map [("spec", .map [("template", .map [
          ("spec", .map [("containers", .seq [
              .map [("name", .str "a"), ("env", .seq []), ("volumeMounts", .seq [])],
              .map [("name", .str "c"), ("env", .seq []), ("volumeMounts", .seq [])]]),
            ("volumes", .seq [])]),
          ("metadata", .map [("annotations", .map [])])])])]) ∧
    WriteBack scenarioLibrary
        (scenarioProjection ".spec.template.spec.containers[*]"
          [.map [("name", .str "a")], .map [("name", .str "b")]]
          [scenarioRecord "a", scenarioRecord "c"])
      = .ok (.map [("spec", .map [("template", .map [
          ("spec", .map [("containers", .seq [
              .map [("name", .str "a"), ("env", .seq []), ("volumeMounts", .seq [])],
              .map [("name", .str "c"), ("env", .seq []), ("volumeMounts", .seq [])]]),
            ("volumes", .seq [])]),
          ("metadata", .map [("annotations", .map [])])])])]) :=
  ⟨rfl, WriteToWorkload_pairs_by_position _ _ _ rfl⟩

/-- Claim C2, the code at the failing input. Two containers are matched and the projection
holds one region record: `WriteToWorkload` does not complete the write, it panics when it
indexes `mpt.Containers[1]` for the second match. -/
theorem WriteToWorkload_short_projection_panics :
    (scenarioProjection ".spec.template.spec.containers[*]"
        [.map [("name", .str "a")], .map [("name", .str "b")]]
        [scenarioRecord "a"]).Containers.length
      < (allMatches scenarioLibrary
          (scenarioTree [.map [("name", .str "a")], .map [("name", .str "b")]])
          (scenarioMapping ".spec.template.spec.containers[*]").Containers).length ∧
    WriteToWorkload scenarioLibrary
        (scenarioProjection ".spec.template.spec.containers[*]"
          [.map [("name", .str "a")], .map [("name", .str "b")]]
          [scenarioRecord "a"])
      = .panic :=
  ⟨by decide, rfl⟩

/-- Claim C5. When `NewMetaPodTemplate` returns a projection, its `Containers` list has as
many region records as there are selector matches over all descriptors, and the records
correspond one to one, in order, to the matches taken in descriptor order and, within a
descriptor, in match order. Record i holds what `getAt` reads relative to the i-th match
(`ReadsFrom`), and that is what the tree holds in the sub-tree of that match, not at the
root (`HoldsRegion`): the name is the string found under the keys of the name pointer in the
match (the empty string when the descriptor has no name pointer or the pointer does not
resolve there), and the env list and the volume-mount list are the decoded elements of the
sequences found under the keys of their pointers in the match (the empty list when the
pointer does not resolve there). -/
theorem NewMetaPodTemplate_records_follow_matches (lib : Library) (u : Node)
    (mapping : ClusterWorkloadResourceMappingTemplate) (mpt : MetaPodTemplate)
    (h : NewMetaPodTemplate lib u mapping = .ok mpt) :
    mpt.Containers.length = (allMatches lib u mapping.Containers).length ∧
    List.Forall₂ (ReadsFrom lib u) (allMatches lib u mapping.Containers) mpt.Containers ∧
    List.Forall₂ (HoldsRegion lib u) (allMatches lib u mapping.Containers)
      mpt.Containers := by
  unfold NewMetaPodTemplate at h
  cases h1 : getAt unmarshalStringMap mapping.Annotations u (.conc []) (some []) with
  | panic => simp [h1] at h
  | err e => simp [h1] at h
  | ok ann =>
    cases h2 : readContainers lib u mapping.Containers [] with
    | panic => simp [h1, h2] at h
    | err e => simp [h1, h2] at h
    | ok recs =>
      cases h3 : getAt (unmarshalSlice lib.volume) mapping.Volumes u (.conc []) (some []) with
      | panic => simp [h1, h2, h3] at h
      | err e => simp [h1, h2, h3] at h
      | ok vols =>
        simp [h1, h2, h3] at h
        subst h
        obtain ⟨recs', hacc, hall⟩ := readContainers_ok lib u mapping.Containers [] recs h2
        simp only [List.nil_append] at hacc
        subst hacc
        exact ⟨hall.length_eq.symm, hall,
          forall₂_imp_of (holdsRegion_of_readsFrom lib u) hall⟩

/-- Witness of claim C5: the first container has the name a, one env entry and one volume
mount, the second has the name b and an env entry of its own; the projection holds the two
records in that order, each with the lists of its own container. -/
theorem NewMetaPodTemplate_records_follow_matches_witness :
    NewMetaPodTemplate scenarioLibrary
        (scenarioTree [
          .map [("name", .str "a"), ("env", .seq [.map [("name", .str "E1")]]),
                ("volumeMounts", .seq [.map [("name", .str "V1")]])],
          .map [("name", .str "b"), ("env", .seq [.map [("name", .str "E2")]])]])
        (scenarioMapping ".spec.template.spec.containers[*]")
      = .ok { workload := scenarioTree [
                .map [("name", .str "a"), ("env", .seq [.map [("name", .str "E1")]]),
                      ("volumeMounts", .seq [.map [("name", .str "V1")]])],
                .map [("name", .str "b"), ("env", .seq [.map [("name", .str "E2")]])]],
              mapping := scenarioMapping ".spec.template.spec.containers[*]",
              Annotations := some [],
              Containers := [
                { Name := "a", Env := some [.map [("name", .str "E1")]],
                  VolumeMounts := some [.map [("name", .str "V1")]] },
                { Name := "b", Env := some [.map [("name", .str "E2")]],
                  VolumeMounts := some [] }],
              Volumes := some [] } ∧
    allMatches scenarioLibrary
        (scenarioTree [
          .map [("name", .str "a"), ("env", .seq [.map [("name", .str "E1")]]),
                ("volumeMounts", .seq [.map [("name", .str "V1")]])],
          .map [("name", .str "b"), ("env", .seq [.map [("name", .str "E2")]])]])
        (scenarioMapping ".spec.template.spec.containers[*]").Containers
      = [(⟨".spec.template.spec.containers[*]", "/name", "/env", "/volumeMounts"⟩,
          [.key "spec", .key "template", .key "spec", .key "containers", .index 0]),
         (⟨".spec.template.spec.containers[*]", "/name", "/env", "/volumeMounts"⟩,
          [.key "spec", .key "template", .key "spec", .key "containers", .index 1])] ∧
    ([{ Name := "a", Env := some [.map [("name", .str "E1")]],
        VolumeMounts := some [.map [("name", .str "V1")]] },
      { Name := "b", Env := some [.map [("name", .str "E2")]],
        VolumeMounts := some [] }] : List MetaContainer).length
      = (allMatches scenarioLibrary
          (scenarioTree [
            .map [("name", .str "a"), ("env", .seq [.map [("name", .str "E1")]]),
                  ("volumeMounts", .seq [.map [("name", .str "V1")]])],
            .map [("name", .str "b"), ("env", .seq [.map [("name", .str "E2")]])]])
          (scenarioMapping ".spec.template.spec.containers[*]").Containers).length ∧
    List.Forall₂
      (ReadsFrom scenarioLibrary
        (scenarioTree [
          .map [("name", .str "a"), ("env", .seq [.map [("name", .str "E1")]]),
                ("volumeMounts", .seq [.map [("name", .str "V1")]])],
          .map [("name", .str "b"), ("env", .seq [.map [("name", .str "E2")]])]]))
      (allMatches scenarioLibrary
        (scenarioTree [
          .map [("name", .str "a"), ("env", .seq [.map [("name", .str "E1")]]),
                ("volumeMounts", .seq [.map [("name", .str "V1")]])],
          .map [("name", .str "b"), ("env", .seq [.map [("name", .str "E2")]])]])
        (scenarioMapping ".spec.template.spec.containers[*]").Containers)
      [{ Name := "a", Env := some [.map [("name", .str "E1")]],
         VolumeMounts := some [.map [("name", .str "V1")]] },
       { Name := "b", Env := some [.map [("name", .str "E2")]],
         VolumeMounts := some [] }] ∧
    List.Forall₂
      (HoldsRegion scenarioLibrary
        (scenarioTree [
          .map [("name", .str "a"), ("env", .seq [.map [("name", .str "E1")]]),
                ("volumeMounts", .seq [.map [("name", .str "V1")]])],
          .map [("name", .str "b"), ("env", .seq [.map [("name", .str "E2")]])]]))
      (allMatches scenarioLibrary
        (scenarioTree [
          .map [("name", .str "a"), ("env", .seq [.map [("name", .str "E1")]]),
                ("volumeMounts", .seq [.map [("name", .str "V1")]])],
          .map [("name", .str "b"), ("env", .seq [.map [("name", .str "E2")]])]])
        (scenarioMapping ".spec.template.spec.containers[*]").Containers)
      [{ Name := "a", Env := some [.map [("name", .str "E1")]],
         VolumeMounts := some [.map [("name", .str "V1")]] },
       { Name := "b", Env := some [.map [("name", .str "E2")]],
         VolumeMounts := some [] }] :=
  ⟨rfl, rfl, NewMetaPodTemplate_records_follow_matches scenarioLibrary
    (scenarioTree [
      .map [("name", .str "a"), ("env", .seq [.map [("name", .str "E1")]]),
            ("volumeMounts", .seq [.map [("name", .str "V1")]])],
      .map [("name", .str "b"), ("env", .seq [.map [("name", .str "E2")]])]])
    (scenarioMapping ".spec.template.spec.containers[*]")
    { workload := scenarioTree [
        .map [("name", .str "a"), ("env", .seq [.map [("name", .str "E1")]]),
              ("volumeMounts", .seq [.map [("name", .str "V1")]])],
        .map [("name", .str "b"), ("env", .seq [.map [("name", .str "E2")]])]],
      mapping := scenarioMapping ".spec.template.spec.containers[*]",
      Annotations := some [],
      Containers := [
        { Name := "a", Env := some [.map [("name", .str "E1")]],
          VolumeMounts := some [.map [("name", .str "V1")]] },
        { Name := "b", Env := some [.map [("name", .str "E2")]],
          VolumeMounts := some [] }],
      Volumes := some [] } rfl⟩

/-- Claim C6, counterexample. On the empty tree none of the configured pointers resolves and
the descriptor has no match, but its selector expression does not parse: `NewMetaPodTemplate`
returns the error of `jsonpath.Parse`, not a projection. -/
theorem NewMetaPodTemplate_nothing_resolves_counterexample :
    unresolved (.map []) (keys (scenarioMapping "[").Annotations) = true ∧
    unresolved (.map []) (keys (scenarioMapping "[").Volumes) = true ∧
    allMatches scenarioLibrary (.map []) (scenarioMapping "[").Containers = [] ∧
    NewMetaPodTemplate scenarioLibrary (.map []) (scenarioMapping "[") = .err .jsonpathParse :=
  ⟨rfl, rfl, rfl, rfl⟩

/-- Claim C6 (amended). For every tree and configuration in which every selector expression
parses and none of the configured pointers resolves (the annotations pointer and the volumes
pointer on the tree, the name, env and volume-mount pointers on every match),
`NewMetaPodTemplate` returns without error the projection whose `Annotations` is the empty
non-nil map, whose `Volumes` is the empty non-nil list, and whose `Containers` holds, for
each match of each descriptor, the record with the empty name, the empty env list and the
empty volume-mount list; a descriptor whose selector matches nothing has no record. -/
theorem NewMetaPodTemplate_nothing_resolves (lib : Library) (u : Node)
    (mapping : ClusterWorkloadResourceMappingTemplate)
    (hparse : ∀ c ∈ mapping.Containers, lib.parse c.Path = true)
    (hann : unresolved u (keys mapping.Annotations) = true)
    (hvol : unresolved u (keys mapping.Volumes) = true)
    (hreg : ∀ cm ∈ allMatches lib u mapping.Containers,
      regionUnresolved cm.1 (region u cm.2) = true) :
    NewMetaPodTemplate lib u mapping =
      .ok { workload := u, mapping := mapping, Annotations := some [],
            Containers := (allMatches lib u mapping.Containers).map fun _ => emptyContainer,
            Volumes := some [] } := by
  unfold NewMetaPodTemplate
  rw [getAt_unresolved _ _ u _ (Or.inl rfl) _ hann, getAt_unresolved _ _ u _ (Or.inl rfl) _ hvol,
    readContainers_unresolved lib u _ [] hparse hreg]
  rfl

/-- Witness of claim C6 (amended): the pointers `/foo/nar` and `/foo/bar` of the test with
misaligned pointers, on a workload with one container. -/
theorem NewMetaPodTemplate_nothing_resolves_witness :
    NewMetaPodTemplate scenarioLibrary (scenarioTree [.map [("name", .str "hello")]])
        misalignedMapping
      = .ok { workload := scenarioTree [.map [("name", .str "hello")]],
              mapping := misalignedMapping, Annotations := some [],
              Containers := (allMatches scenarioLibrary
                (scenarioTree [.map [("name", .str "hello")]])
                misalignedMapping.Containers).map fun _ => emptyContainer,
              Volumes := some [] } :=
  NewMetaPodTemplate_nothing_resolves scenarioLibrary
    (scenarioTree [.map [("name", .str "hello")]]) misalignedMapping
    (by intro c hc; simp [misalignedMapping] at hc; subst hc; rfl) rfl rfl
    (by
      intro cm hcm
      have hall : allMatches scenarioLibrary (scenarioTree [.map [("name", .str "hello")]])
          misalignedMapping.Containers
          = [(⟨".spec.template.spec.containers[*]", "/foo/bar", "/foo/bar", "/foo/bar"⟩,
              [.key "spec", .key "template", .key "spec", .key "containers", .index 0])] := rfl
      rw [hall] at hcm
      simp only [List.mem_singleton] at hcm
      subst hcm
      rfl)

/-- Claim C7, the code at the failing input. In the region that holds the name hello, the
proper prefix `/name` of the pointer `/name/first` resolves to a string; `find` does not
return an error, it panics (`IsNil` on a value of kind string), in read mode and in create
mode. The same holds when the prefix resolves to a number or to a boolean. -/
theorem find_through_scalar_panics :
    (Node.map [("name", .str "hello")]).get ["name"] = some (.str "hello") ∧
    find (.map [("name", .str "hello")]) (.iface []) .invalid (keys "/name/first") "" false
      = .panic ∧
    find (.map [("name", .str "hello")]) (.iface []) .invalid (keys "/name/first") "" true
      = .panic ∧
    find (.map [("replicas", .num 3)]) (.conc []) .invalid (keys "/replicas/x") "" false
      = .panic ∧
    find (.map [("replicas", .num 3)]) (.conc []) .invalid (keys "/replicas/x") "" true
      = .panic ∧
    find (.map [("paused", .bool true)]) (.conc []) .invalid (keys "/paused/x") "" false
      = .panic ∧
    find (.map [("paused", .bool true)]) (.conc []) .invalid (keys "/paused/x") "" true
      = .panic :=
  ⟨rfl, rfl, rfl, rfl, rfl, rfl, rfl⟩

/-- Claim C8. For a tree and a pointer a proper prefix `pre` of which resolves to a sequence,
`find` returns the error for the unhandled kind `slice`, in read mode and in create mode, and
leaves the tree as it is; `getAt` returns that error (nothing is decoded into the target) and
`setAt` returns that error with the tree unchanged. -/
theorem find_through_sequence_is_error (t : Node) (root : Value)
    (hroot : root = .conc [] ∨ root = .iface []) (p : String) (pre suf : List String)
    (xs : List Node) (hkeys : keys p = pre ++ suf) (hsuf : suf ≠ [])
    (hget : t.get pre = some (.seq xs)) :
    (∀ c : Bool, ∃ vp lk, find t root .invalid (keys p) "" c
        = .ret .invalid vp lk (some (.unhandledKind .Slice)) t) ∧
    (∀ (τ : Type) (unmarshal : Node → τ → Except GoError τ) (target : τ),
        getAt unmarshal p t root target = .err (.unhandledKind .Slice)) ∧
    (∀ v : GoValue, setAt p v t root = .err (.unhandledKind .Slice) t) := by
  obtain ⟨k, ks, rfl⟩ : ∃ k ks, suf = k :: ks := by
    cases suf with
    | nil => exact absurd rfl hsuf
    | cons k ks => exact ⟨k, ks, rfl⟩
  refine ⟨?_, ?_, ?_⟩
  · intro c
    rw [hkeys]
    exact find_root_seq t root hroot pre k ks xs hget c
  · intro τ unmarshal target
    obtain ⟨vp, lk, h⟩ := find_root_seq t root hroot pre k ks xs hget false
    simp [getAt, hkeys, h]
  · intro v
    obtain ⟨vp, lk, h⟩ := find_root_seq t root hroot pre k ks xs hget true
    simp [setAt, hkeys, h]

/-- Witness of claim C8: the pointer `/spec/template/spec/containers/name` passes through the
container list. -/
theorem find_through_sequence_is_error_witness :
    (scenarioTree [.map [("name", .str "a")]]).get ["spec", "template", "spec", "containers"]
      = some (.seq [.map [("name", .str "a")]]) ∧
    (∀ c : Bool, ∃ vp lk,
      find (scenarioTree [.map [("name", .str "a")]]) (.conc []) .invalid
          (keys "/spec/template/spec/containers/name") "" c
        = .ret .invalid vp lk (some (.unhandledKind .Slice))
            (scenarioTree [.map [("name", .str "a")]])) ∧
    (∀ (τ : Type) (unmarshal : Node → τ → Except GoError τ) (target : τ),
      getAt unmarshal "/spec/template/spec/containers/name"
          (scenarioTree [.map [("name", .str "a")]]) (.conc []) target
        = .err (.unhandledKind .Slice)) ∧
    (∀ v : GoValue,
      setAt "/spec/template/spec/containers/name" v
          (scenarioTree [.map [("name", .str "a")]]) (.conc [])
        = .err (.unhandledKind .Slice) (scenarioTree [.map [("name", .str "a")]])) :=
  ⟨rfl, find_through_sequence_is_error (scenarioTree [.map [("name", .str "a")]]) (.conc [])
    (Or.inl rfl) "/spec/template/spec/containers/name"
    ["spec", "template", "spec", "containers"] ["name"] [.map [("name", .str "a")]]
    rfl (by simp) rfl⟩

/-- Claim C9. For a mapping tree and a pointer whose keys are `pre ++ k :: suf`, where `pre`
leads through mappings to a mapping in which the key `k` is missing or holds nil, `find` with
`createIfNil = false` returns the nil `Value` with no error and leaves the tree as it is, and
`getAt` returns no error and leaves its target at its prior value. The source is the root map
(`uv`) or a selector match (`cv`). -/
theorem find_missing_is_absent (kvs0 : List (String × Node)) (root : Value)
    (hroot : root = .conc [] ∨ root = .iface []) (p : String)
    (pre : List String) (k : String) (suf : List String) (kvs : List (String × Node))
    (hkeys : keys p = pre ++ k :: suf)
    (hget : (Node.map kvs0).get pre = some (.map kvs))
    (hmiss : mapIndex k kvs = none ∨ mapIndex k kvs = some .null) :
    find (.map kvs0) root .invalid (keys p) "" false
        = .ret .invalid .invalid "" none (.map kvs0) ∧
    (∀ (τ : Type) (unmarshal : Node → τ → Except GoError τ) (target : τ),
        getAt unmarshal p (.map kvs0) root target = .ok target) := by
  have h := find_root_missing (.map kvs0) root hroot pre k suf kvs hget hmiss
  refine ⟨by rw [hkeys]; exact h, ?_⟩
  intro τ unmarshal target
  simp [getAt, hkeys, h, Value.isAbsent]

/-- Witness of claim C9: the pointer `/spec/template/metadata/annotations` on a workload
whose template has no metadata. -/
theorem find_missing_is_absent_witness :
    find (.map [("spec", .map [("template", .map [("spec", .map [])])])]) (.conc []) .invalid
        (keys "/spec/template/metadata/annotations") "" false
      = .ret .invalid .invalid "" none
          (.map [("spec", .map [("template", .map [("spec", .map [])])])]) ∧
    (∀ (τ : Type) (unmarshal : Node → τ → Except GoError τ) (target : τ),
      getAt unmarshal "/spec/template/metadata/annotations"
          (.map [("spec", .map [("template", .map [("spec", .map [])])])]) (.conc []) target
        = .ok target) :=
  find_missing_is_absent [("spec", .map [("template", .map [("spec", .map [])])])] (.conc [])
    (Or.inl rfl) "/spec/template/metadata/annotations" ["spec", "template"] "metadata"
    ["annotations"] [("spec", .map [])] rfl rfl (Or.inl rfl)

/-- Claim C10, the code at the failing input. The selector expression of the descriptor does
not parse, and the annotations pointer `/kind/name` passes through the string held under
`kind`: `NewMetaPodTemplate` does not return an error, it panics in the read of the
annotations, before any selector is parsed. -/
theorem NewMetaPodTemplate_invalid_selector_panics :
    scenarioLibrary.parse "[" = false ∧
    NewMetaPodTemplate scenarioLibrary (.map [("kind", .str "Deployment")])
        { Annotations := "/kind/name",
          Containers := [{ Path := "[", Name := "/name", Env := "/env",
                           VolumeMounts := "/volumeMounts" }],
          Volumes := "/spec/template/spec/volumes" }
      = .panic :=
  ⟨rfl, rfl⟩

/-- Claim C19. Every call of `find` with `createIfNil = false`, whatever the value, the
parent, the keys and the last key, either panics or returns with the tree it was given,
whether it returns a node, the nil `Value` or an error. `getAt` reaches the tree through that
call only: what it decodes is computed on the tree it was given. -/
theorem find_read_leaves_tree (t : Node) (value parent : Value) (ks : List String)
    (lk : String) :
    (find t value parent ks lk false = .panic ∨
      ∃ val vp lk' err, find t value parent ks lk false = .ret val vp lk' err t) ∧
    (∀ (τ : Type) (unmarshal : Node → τ → Except GoError τ) (p : String) (target : τ),
      getAt unmarshal p t value target =
        match find t value .invalid (keys p) "" false with
        | .panic => .panic
        | .ret _ _ _ (some e) _ => .err e
        | .ret v _ _ none _ =>
          match v.isAbsent t with
          | none => .panic
          | some true => .ok target
          | some false =>
            match unmarshal (v.node t) target with
            | .ok x => .ok x
            | .error e => .err e) := by
  refine ⟨?_, ?_⟩
  · cases hf : find t value parent ks lk false with
    | panic => exact Or.inl rfl
    | ret val vp lk' err t1 =>
      have := find_read_tree ks t value parent lk val vp lk' err t1 hf
      subst this
      exact Or.inr ⟨val, vp, lk', err, rfl⟩
  · intro τ unmarshal p target
    unfold getAt
    cases hf : find t value .invalid (keys p) "" false with
    | panic => rfl
    | ret val vp lk' err t1 =>
      have := find_read_tree (keys p) t value .invalid "" val vp lk' err t1 hf
      subst this
      cases err <;> rfl

/-- Claim C16. Whenever a call of `find` with `createIfNil = true` returns an error, whatever
the value, the parent, the keys and the last key, the tree after the call is the tree before
the call: no mapping has been created and no entry has been added or replaced. -/
theorem find_create_error_leaves_tree (t : Node) (value parent : Value) (ks : List String)
    (lk : String) (val vp : Value) (lk' : String) (e : GoError) (t1 : Node)
    (h : find t value parent ks lk true = .ret val vp lk' (some e) t1) : t1 = t :=
  find_create_error_tree ks t value parent lk val vp lk' e t1 h

/-- Witness of claim C16: the pointer `/spec/template/spec/containers/name/first` in create
mode passes through the container list; `find` returns the error and the tree is the one it
was given. -/
theorem find_create_error_leaves_tree_witness :
    find (scenarioTree [.map [("name", .str "a")]]) (.conc []) .invalid
        (keys "/spec/template/spec/containers/name/first") "" true
      = .ret .invalid (.iface ["spec", "template", "spec", "containers"]) "containers"
          (some (.unhandledKind .Slice)) (scenarioTree [.map [("name", .str "a")]]) ∧
    scenarioTree [.map [("name", .str "a")]] = scenarioTree [.map [("name", .str "a")]] :=
  ⟨rfl, find_create_error_leaves_tree (scenarioTree [.map [("name", .str "a")]]) (.conc [])
    .invalid (keys "/spec/template/spec/containers/name/first") "" .invalid
    (.iface ["spec", "template", "spec", "containers"]) "containers" (.unhandledKind .Slice)
    (scenarioTree [.map [("name", .str "a")]]) rfl⟩

/-- Claim C17. For a mapping root (the root map `uv` or a selector match `cv`) and a
non-empty key list, if `find` with `createIfNil = true` returns no error, then the returned
last key is the final key of the list, the returned parent is the map found, in the tree
after the call, under the keys before it, that map holds under the last key a value that is
not nil, the returned value is that value (it is not absent), and `SetMapIndex` of the last
key on the returned parent, which is what `setAt` does next, does not panic: it updates that
map. -/
theorem find_create_returns_slot (kvs0 : List (String × Node)) (root : Value)
    (hroot : root = .conc [] ∨ root = .iface []) (k : String) (ks : List String)
    (val vp : Value) (lk : String) (t1 : Node)
    (h : find (.map kvs0) root .invalid (k :: ks) "" true = .ret val vp lk none t1) :
    ∃ pre kvs' n, k :: ks = pre ++ [lk] ∧ vp = .conc pre ∧
      t1.get pre = some (.map kvs') ∧ mapIndex lk kvs' = some n ∧ n ≠ .null ∧
      val.isAbsent t1 = some false ∧ val.node t1 = n ∧
      ∀ o : Option Node, ∃ t2, t1.setIn pre lk o = some t2 ∧
        t2.get pre = some (.map (updMap lk o kvs')) := by
  have hl : (Node.map kvs0).get [] = some (.map kvs0) := get_nil _
  have hf : find (.map kvs0) (Value.mapIndex (.map kvs0) (.conc []) k) (.conc []) ks k true
      = .ret val vp lk none t1 := by
    rcases hroot with rfl | rfl
    · rwa [find_step_conc _ [] kvs0 hl] at h
    · rwa [find_step_iface _ [] kvs0 hl] at h
  obtain ⟨q, kvs', n, hq, hvp, hget, hmi, hn, ha, hnode⟩ :=
    find_create_ok_node ks _ [] k kvs0 val vp lk t1 hl hf
  simp only [List.nil_append] at hvp hget
  exact ⟨q, kvs', n, hq, hvp, hget, hmi, hn, ha, hnode,
    fun o => setIn_spec t1 q lk o kvs' hget⟩

/-- Witness of claim C17: the pointer `/metadata/annotations` on the empty tree; both maps
are created and the returned parent is the map created under `metadata`. -/
theorem find_create_returns_slot_witness :
    find (.map []) (.conc []) .invalid ["metadata", "annotations"] "" true
      = .ret (.conc ["metadata", "annotations"]) (.conc ["metadata"]) "annotations" none
          (.map [("metadata", .map [("annotations", .map [])])]) ∧
    ∃ pre kvs' n, ["metadata", "annotations"] = pre ++ ["annotations"] ∧
      Value.conc ["metadata"] = .conc pre ∧
      (Node.map [("metadata", .map [("annotations", .map [])])]).get pre = some (.map kvs') ∧
      mapIndex "annotations" kvs' = some n ∧ n ≠ .null ∧
      (Value.conc ["metadata", "annotations"]).isAbsent
        (.map [("metadata", .map [("annotations", .map [])])]) = some false ∧
      (Value.conc ["metadata", "annotations"]).node
        (.map [("metadata", .map [("annotations", .map [])])]) = n ∧
      ∀ o : Option Node, ∃ t2,
        (Node.map [("metadata", .map [("annotations", .map [])])]).setIn pre "annotations" o
          = some t2 ∧
        t2.get pre = some (.map (updMap "annotations" o kvs')) :=
  ⟨rfl, find_create_returns_slot [] (.conc []) (Or.inl rfl) "metadata" ["annotations"]
    (.conc ["metadata", "annotations"]) (.conc ["metadata"]) "annotations"
    (.map [("metadata", .map [("annotations", .map [])])]) rfl⟩

/-- Claim C11. For every tree and configuration, a region descriptor whose selector
expression parses and whose evaluation reports an error (the path is not found), or yields no
match, causes no error and adds no region record: `NewMetaPodTemplate` ends the same way
(result, error or panic) as for the configuration without that descriptor, and when it
returns a projection the annotations, the region records and the volumes are the same. -/
theorem NewMetaPodTemplate_selector_without_match (lib : Library) (u : Node)
    (annotations volumes : String) (cs1 cs2 : List ClusterWorkloadResourceMappingContainer)
    (c : ClusterWorkloadResourceMappingContainer) (hparse : lib.parse c.Path = true)
    (hnone : lib.findResults c.Path u = none ∨ lib.findResults c.Path u = some []) :
    (NewMetaPodTemplate lib u
        { Annotations := annotations, Containers := cs1 ++ c :: cs2, Volumes := volumes }).map
        MetaPodTemplate.fields
      = (NewMetaPodTemplate lib u
          { Annotations := annotations, Containers := cs1 ++ cs2, Volumes := volumes }).map
          MetaPodTemplate.fields := by
  unfold NewMetaPodTemplate
  simp only [readContainers_skip lib u c hparse hnone cs2 cs1 []]
  cases getAt unmarshalStringMap annotations u (.conc []) (some []) with
  | panic => rfl
  | err e => rfl
  | ok ann =>
    simp only
    cases readContainers lib u (cs1 ++ cs2) [] with
    | panic => rfl
    | err e => rfl
    | ok recs =>
      simp only
      cases getAt (unmarshalSlice lib.volume) volumes u (.conc []) (some []) with
      | panic => rfl
      | err e => rfl
      | ok vols => rfl

/-- Witness of claim C11: the selector `.spec.template.spec.containers[*]` finds nothing in a
tree that has only `metadata`; the projection is the one obtained from the descriptor for
`.metadata` alone, with its single region record. -/
theorem NewMetaPodTemplate_selector_without_match_witness :
    scenarioLibrary.findResults ".spec.template.spec.containers[*]"
        (.map [("metadata", .map [("name", .str "x")])]) = none ∧
    (NewMetaPodTemplate scenarioLibrary (.map [("metadata", .map [("name", .str "x")])])
        { Annotations := "/metadata/annotations",
          Containers := [] ++
            { Path := ".spec.template.spec.containers[*]", Name := "/name", Env := "/env",
              VolumeMounts := "/volumeMounts" } ::
            [{ Path := ".metadata", Name := "/name", Env := "/env",
               VolumeMounts := "/volumeMounts" }],
          Volumes := "/volumes" }).map MetaPodTemplate.fields
      = .ok (some [], [{ Name := "x", Env := some [], VolumeMounts := some [] }], some []) ∧
    (NewMetaPodTemplate scenarioLibrary (.map [("metadata", .map [("name", .str "x")])])
        { Annotations := "/metadata/annotations",
          Containers := [] ++
            { Path := ".spec.template.spec.containers[*]", Name := "/name", Env := "/env",
              VolumeMounts := "/volumeMounts" } ::
            [{ Path := ".metadata", Name := "/name", Env := "/env",
               VolumeMounts := "/volumeMounts" }],
          Volumes := "/volumes" }).map MetaPodTemplate.fields
      = (NewMetaPodTemplate scenarioLibrary (.map [("metadata", .map [("name", .str "x")])])
          { Annotations := "/metadata/annotations",
            Containers := [] ++
              [{ Path := ".metadata", Name := "/name", Env := "/env",
                 VolumeMounts := "/volumeMounts" }],
            Volumes := "/volumes" }).map MetaPodTemplate.fields :=
  ⟨rfl, rfl, NewMetaPodTemplate_selector_without_match scenarioLibrary
    (.map [("metadata", .map [("name", .str "x")])]) "/metadata/annotations" "/volumes" []
    [{ Path := ".metadata", Name := "/name", Env := "/env", VolumeMounts := "/volumeMounts" }]
    { Path := ".spec.template.spec.containers[*]", Name := "/name", Env := "/env",
      VolumeMounts := "/volumeMounts" } rfl (Or.inl rfl)⟩

/-- Claim C13. For a region descriptor that declares no name pointer (`Name` is empty):
every region record the loop body of `NewMetaPodTemplate` builds for it has the empty name,
whatever the matched region holds; in a projection returned by `NewMetaPodTemplate` the
record at the position of each match of that descriptor has the empty name; the loop body of
`WriteToWorkload` for it consists of the writes of the env list and of the volume-mount list
only; and the loop of `WriteToWorkload` over the matches of that descriptor does the same
whatever names the region records carry. -/
theorem nameless_descriptor_reads_and_writes_no_name
    (c : ClusterWorkloadResourceMappingContainer) (hname : c.Name = "") :
    (∀ (lib : Library) (r : Node) (mc : MetaContainer),
      readContainer lib c r = .ok mc → mc.Name = "") ∧
    (∀ (lib : Library) (u : Node) (mapping : ClusterWorkloadResourceMappingTemplate)
      (mpt : MetaPodTemplate) (i : Nat) (m : List Step),
      NewMetaPodTemplate lib u mapping = .ok mpt →
      (allMatches lib u mapping.Containers)[i]? = some (c, m) →
      ∃ mc, mpt.Containers[i]? = some mc ∧ mc.Name = "") ∧
    (∀ (mc : MetaContainer) (r : Node),
      writeContainer c mc r =
        match setAt c.Env (.slice mc.Env) r (.iface []) with
        | .panic => .panic
        | .err e r' => .err e r'
        | .ok r2 => setAt c.VolumeMounts (.slice mc.VolumeMounts) r2 (.iface [])) ∧
    (∀ (records : List MetaContainer) (f : MetaContainer → String) (ms : List (List Step))
      (u : Node) (ci : Nat),
      writeMatches c (records.map fun mc => { mc with Name := f mc }) ms u ci
        = writeMatches c records ms u ci) := by
  refine ⟨?_, ?_, writeContainer_nameless c hname, ?_⟩
  · intro lib r mc h
    unfold readContainer at h
    simp only [hname, ne_eq, not_true_eq_false, if_false] at h
    cases h2 : getAt (unmarshalSlice lib.envVar) c.Env r (.iface []) (some []) with
    | panic => simp [h2] at h
    | err e => simp [h2] at h
    | ok env =>
      cases h3 : getAt (unmarshalSlice lib.volumeMount) c.VolumeMounts r (.iface [])
          (some []) with
      | panic => simp [h2, h3] at h
      | err e => simp [h2, h3] at h
      | ok vms =>
        simp [h2, h3] at h
        subst h
        rfl
  · intro lib u mapping mpt i m h hm
    unfold NewMetaPodTemplate at h
    cases h1 : getAt unmarshalStringMap mapping.Annotations u (.conc []) (some []) with
    | panic => simp [h1] at h
    | err e => simp [h1] at h
    | ok ann =>
      cases h2 : readContainers lib u mapping.Containers [] with
      | panic => simp [h1, h2] at h
      | err e => simp [h1, h2] at h
      | ok recs =>
        cases h3 : getAt (unmarshalSlice lib.volume) mapping.Volumes u (.conc []) (some []) with
        | panic => simp [h1, h2, h3] at h
        | err e => simp [h1, h2, h3] at h
        | ok vols =>
          simp [h1, h2, h3] at h
          subst h
          obtain ⟨recs', hacc, hall⟩ := readContainers_ok lib u mapping.Containers [] recs h2
          simp only [List.nil_append] at hacc
          subst hacc
          obtain ⟨mc, hmc, hr⟩ := forall₂_getElem? hall i (c, m) hm
          refine ⟨mc, hmc, ?_⟩
          have := hr.1
          simpa [hname] using this
  · intro records f ms u ci
    exact writeMatches_nameless c hname records f ms u ci

/-- Witness of claim C13: the descriptor for the containers without a name pointer; the
record read from the container named a has the empty name, and writing back the record named
z leaves the name a in place. -/
theorem nameless_descriptor_reads_and_writes_no_name_witness :
    readContainer scenarioLibrary
        { Path := ".spec.template.spec.containers[*]", Name := "", Env := "/env",
          VolumeMounts := "/volumeMounts" } (.map [("name", .str "a")])
      = .ok { Name := "", Env := some [], VolumeMounts := some [] } ∧
    writeContainer
        { Path := ".spec.template.spec.containers[*]", Name := "", Env := "/env",
          VolumeMounts := "/volumeMounts" } (scenarioRecord "z") (.map [("name", .str "a")])
      = .ok (.map [("name", .str "a"), ("env", .seq []), ("volumeMounts", .seq [])]) ∧
    ((∀ (lib : Library) (r : Node) (mc : MetaContainer),
      readContainer lib
          { Path := ".spec.template.spec.containers[*]", Name := "", Env := "/env",
            VolumeMounts := "/volumeMounts" } r = .ok mc → mc.Name = "") ∧
    (∀ (lib : Library) (u : Node) (mapping : ClusterWorkloadResourceMappingTemplate)
      (mpt : MetaPodTemplate) (i : Nat) (m : List Step),
      NewMetaPodTemplate lib u mapping = .ok mpt →
      (allMatches lib u mapping.Containers)[i]?
        = some ({ Path := ".spec.template.spec.containers[*]", Name := "", Env := "/env",
                  VolumeMounts := "/volumeMounts" }, m) →
      ∃ mc, mpt.Containers[i]? = some mc ∧ mc.Name = "") ∧
    (∀ (mc : MetaContainer) (r : Node),
      writeContainer
          { Path := ".spec.template.spec.containers[*]", Name := "", Env := "/env",
            VolumeMounts := "/volumeMounts" } mc r =
        match setAt "/env" (.slice mc.Env) r (.iface []) with
        | .panic => .panic
        | .err e r' => .err e r'
        | .ok r2 => setAt "/volumeMounts" (.slice mc.VolumeMounts) r2 (.iface [])) ∧
    (∀ (records : List MetaContainer) (f : MetaContainer → String) (ms : List (List Step))
      (u : Node) (ci : Nat),
      writeMatches
          { Path := ".spec.template.spec.containers[*]", Name := "", Env := "/env",
            VolumeMounts := "/volumeMounts" }
          (records.map fun mc => { mc with Name := f mc }) ms u ci
        = writeMatches
            { Path := ".spec.template.spec.containers[*]", Name := "", Env := "/env",
              VolumeMounts := "/volumeMounts" } records ms u ci)) :=
  ⟨rfl, rfl, nameless_descriptor_reads_and_writes_no_name
    { Path := ".spec.template.spec.containers[*]", Name := "", Env := "/env",
      VolumeMounts := "/volumeMounts" } rfl⟩

/-- Claim C12, the code at the failing input. Written through the pointer `/env` into a
region that holds an env list, the nil list stores no sequence: `setAt` returns without error
and the region has no entry `env` any more. Written through the annotations pointer into the
empty tree, the nil map stores no mapping: the maps on the path are created and the last key
gets no entry. The empty list and the empty map, as the string, are stored as a sequence, a
mapping and a string. -/
theorem setAt_nil_value_stores_nothing :
    setAt "/env" (.slice none)
        (.map [("name", .str "a"), ("env", .seq [.map [("name", .str "E")]])]) (.iface [])
      = .ok (.map [("name", .str "a")]) ∧
    setAt "/spec/template/metadata/annotations" (.mapSS none) (.map []) (.conc [])
      = .ok (.map [("spec", .map [("template", .map [("metadata", .map [])])])]) ∧
    setAt "/env" (.slice (some []))
        (.map [("name", .str "a"), ("env", .seq [.map [("name", .str "E")]])]) (.iface [])
      = .ok (.map [("name", .str "a"), ("env", .seq [])]) ∧
    setAt "/spec/template/metadata/annotations" (.mapSS (some [])) (.map []) (.conc [])
      = .ok (.map [("spec", .map [("template", .map [("metadata",
          .map [("annotations", .map [])])])])]) ∧
    setAt "/name" (.str "") (.map [("name", .str "a")]) (.iface [])
      = .ok (.map [("name", .str "")]) :=
  ⟨rfl, rfl, rfl, rfl, rfl⟩

/-- Claim C14, counterexample. The empty pointer and the pointer `/` have the single segment
that is the empty string; a doubled slash and a trailing slash give an empty segment. -/
theorem keys_empty_segment_counterexample :
    keys "" = [""] ∧ keys "/" = [""] ∧ keys "/a//b" = ["a", "", "b"] ∧
    keys "/a/" = ["a", ""] ∧ keys "//a" = ["", "a"] := by
  decide

/-- Claim C14 (amended). For every pointer string, `keys` returns a list of one or more
segments, and the segments are all non-empty exactly when the pointer, after the removal of
one leading slash, is not empty, neither starts nor ends with a slash, and has no two
adjacent slashes: put between two slashes it has no two adjacent slashes. -/
theorem keys_segments_nonempty_iff (p : String) :
    keys p ≠ [] ∧
    ((∀ s ∈ keys p, s ≠ "") ↔
      List.Chain' (fun a b : Char => ¬ (a = '/' ∧ b = '/'))
        ('/' :: (trimPrefixSlash p.toList ++ ['/']))) := by
  refine ⟨keys_ne_nil p, ?_⟩
  have h := (splitSlash_nonempty_iff (trimPrefixSlash p.toList)).1
  show _ ↔ List.Chain _ '/' (trimPrefixSlash p.toList ++ ['/'])
  rw [← h]
  simp only [keys, List.mem_map]
  constructor
  · intro hk cs hcs
    exact (string_mk_ne_empty cs).1 (hk _ ⟨cs, hcs, rfl⟩)
  · rintro hk s ⟨cs, hcs, rfl⟩
    exact (string_mk_ne_empty cs).2 (hk cs hcs)

/-- Claim C15. For every pointer string `p`, no segment of `keys p` contains a slash and the
segments joined with slashes give back `p` without its leading slash, if it has one; so
`keys p` is the split of that string at its slashes. A pointer `q` that does not start with a
slash has the same keys with a slash put in front of it. Escape sequences are not decoded:
the segments of `/a~1b/c~0d` are `a~1b` and `c~0d`. -/
theorem keys_is_split_of_stripped (p q : String) (hq : q.toList.head? ≠ some '/') :
    (∀ s ∈ keys p, '/' ∉ s.toList) ∧
    String.intercalate "/" (keys p) = String.mk (trimPrefixSlash p.toList) ∧
    keys ("/" ++ q) = keys q ∧
    keys "/a~1b/c~0d" = ["a~1b", "c~0d"] := by
  refine ⟨?_, intercalate_keys p, ?_, by decide⟩
  · intro s hs
    simp only [keys, List.mem_map] at hs
    obtain ⟨cs, hcs, rfl⟩ := hs
    exact splitSlash_no_slash _ cs hcs
  · have h1 : ("/" ++ q).toList = '/' :: q.toList := by
      simp [String.toList, String.data_append]
    simp only [keys, h1, trimPrefixSlash_of_head q.toList hq]
    rfl

/-- Witness of claim C15: the pointers `/spec/template` and `name`. -/
theorem keys_is_split_of_stripped_witness :
    keys "/spec/template" = ["spec", "template"] ∧
    ((∀ s ∈ keys "/spec/template", '/' ∉ s.toList) ∧
    String.intercalate "/" (keys "/spec/template")
      = String.mk (trimPrefixSlash "/spec/template".toList) ∧
    keys ("/" ++ "name") = keys "name" ∧
    keys "/a~1b/c~0d" = ["a~1b", "c~0d"]) :=
  ⟨by decide, keys_is_split_of_stripped "/spec/template" "name" (by decide)⟩

/-- Claim C20. Whenever `WriteToWorkload` returns an error, the generic tree at that moment
is the tree as left by every write that preceded the failing step, in the order annotations,
then for each match its name, env list and volume-mount list, then volumes: the writes before
the failing one have been applied, the failing write has changed nothing, and nothing is
undone (`KeepsPrecedingWrites`). In particular, when the failure is in a region, the sub-tree
found in the returned tree at the failing match is the region with the field writes before
the failing one, and, the matches lying apart, the sub-tree found at each earlier match of
the descriptor is the region produced by the writes of its record. -/
theorem WriteToWorkload_error_keeps_preceding_writes (lib : Library) (mpt : MetaPodTemplate)
    (e : GoError) (u' : Node) (h : WriteToWorkload lib mpt = .err e u') :
    KeepsPrecedingWrites lib mpt e u' := by
  unfold WriteToWorkload at h
  unfold KeepsPrecedingWrites
  cases h1 : setAt mpt.mapping.Annotations (.mapSS mpt.Annotations) mpt.workload (.conc []) with
  | panic => simp [h1] at h
  | err e1 t1 =>
    simp [h1] at h
    obtain ⟨rfl, rfl⟩ := h
    have := setAt_err_tree _ _ _ _ _ _ (by cases mpt.Annotations <;> simp [GoValue.generic]) h1
    subst this
    exact Or.inl ⟨rfl, rfl⟩
  | ok u1 =>
    right
    refine ⟨u1, rfl, ?_⟩
    simp only [h1] at h
    cases h2 : writeContainers lib mpt.Containers mpt.mapping.Containers u1 0 with
    | panic => simp [h2] at h
    | err e2 t2 =>
      simp [h2] at h
      obtain ⟨rfl, rfl⟩ := h
      left
      obtain ⟨cs1, c, cs2, uk, ck, hcs, hnext, hrest⟩ := writeContainers_err lib _ _ _ _ _ _ h2
      refine ⟨cs1, c, cs2, uk, ck, hcs, hnext, ?_⟩
      rcases hrest with hparse | ⟨ms, hparse, hfr, hm⟩
      · exact Or.inl hparse
      · right
        obtain ⟨ms1, m, ms2, um, mc, r', hms, hmn, hrec, hfail, hu'⟩ :=
          writeMatches_err c _ ms _ _ _ _ hm
        refine ⟨ms1, m, ms2, um, mc, r', hparse, by rw [hfr, hms], hmn, hrec,
          writeContainer_err c mc _ e2 r' hfail, hu', ?_, ?_⟩
        · intro hex
          rw [hu']
          exact getPath_setPath_same m um r' hex
        · intro hpw hex
          rw [List.pairwise_append] at hpw
          obtain ⟨hpw1, -, hcross⟩ := hpw
          have hapart : ∀ a ∈ ms1, Apart a m := fun a ha => hcross a ha m (by simp)
          obtain ⟨hframe, hreads⟩ := writeMatches_reads c _ ms1 uk ck um _ hpw1
            (fun m' hm' => hex m' (by simp [hm'])) hmn
          have hgm : um.getPath m = uk.getPath m := hframe m hapart
          refine ⟨by simp only [region, hgm], ?_, ?_⟩
          · rw [hu']
            exact getPath_setPath_same m um r' (by rw [hgm]; exact hex m (by simp))
          · intro j mj hj
            obtain ⟨mcj, rj, hrj, hwj, hgj⟩ := hreads j mj hj
            refine ⟨mcj, rj, hrj, hwj, ?_⟩
            rw [hu', getPath_setPath_apart um r' m mj
              (apart_symm (hapart mj (List.mem_iff_getElem?.2 ⟨j, hj⟩)))]
            exact hgj
    | next u2 ci =>
      right
      refine ⟨u2, ci, rfl, ?_⟩
      simp only [h2] at h
      cases h3 : setAt mpt.mapping.Volumes (.slice mpt.Volumes) u2 (.conc []) with
      | panic => simp [h3] at h
      | err e3 t3 =>
        simp [h3] at h
        obtain ⟨rfl, rfl⟩ := h
        have := setAt_err_tree _ _ _ _ _ _ (by cases mpt.Volumes <;> simp [GoValue.generic]) h3
        subst this
        exact Or.inl ⟨rfl, rfl⟩
      | ok u3 =>
        simp only [h3] at h
        by_cases hfu : lib.fromUnstructured u3 = true
        · simp [hfu] at h
        · simp [hfu] at h
          obtain ⟨rfl, rfl⟩ := h
          exact Or.inr ⟨_, rfl, by simpa using hfu, rfl, rfl⟩

/-- Witness of claim C20: in `rollbackScenario` the write of the volume mounts into the
second container fails. The error is returned with the tree in which the annotations, the
three fields of the first container and the name and the env list of the second container,
all written before, are present. -/
theorem WriteToWorkload_error_keeps_preceding_writes_witness :
    WriteToWorkload scenarioLibrary rollbackScenario
      = .err (.unhandledKind .Slice) rollbackScenarioTree ∧
    rollbackScenario.workload.get ["spec", "template", "metadata", "annotations"] = none ∧
    rollbackScenarioTree.get ["spec", "template", "metadata", "annotations"]
      = some (.map []) ∧
    rollbackScenarioTree.getPath
        [.key "spec", .key "template", .key "spec", .key "containers", .index 0]
      = some (.map [("name", .str "c"), ("env", .seq []),
          ("volumeMounts", .map [("x", .seq [])])]) ∧
    rollbackScenarioTree.getPath
        [.key "spec", .key "template", .key "spec", .key "containers", .index 1]
      = some (.map [("name", .str "d"), ("volumeMounts", .seq []), ("env", .seq [])]) ∧
    KeepsPrecedingWrites scenarioLibrary rollbackScenario (.unhandledKind .Slice)
      rollbackScenarioTree :=
  ⟨rfl, rfl, rfl, rfl, rfl, WriteToWorkload_error_keeps_preceding_writes scenarioLibrary
    rollbackScenario (.unhandledKind .Slice) rollbackScenarioTree rfl⟩

/-- Claim C18. For a mapping tree (the root map `uv` or a selector match `cv`), a pointer `p`
and a value, after a `setAt` at `p` that returns without error: every map of the given tree
that lies on the path of `p` is still a map at its place and holds, under every key other
than the next key of the path, the value it held; and for every pointer `q` such that neither
of the key lists of `p` and `q` is a prefix of the other, `find` in read mode gives the caller
the same on the tree after the write as on the tree before it (the same value, parent, last
key and error, the same node, or a panic in both), so `getAt` returns the same. -/
theorem setAt_changes_only_its_path (kvs0 : List (String × Node)) (root : Value)
    (hroot : root = .conc [] ∨ root = .iface []) (p q : String) (v : GoValue) (t' : Node)
    (hset : setAt p v (.map kvs0) root = .ok t')
    (hpq : ¬ keys p <+: keys q) (hqp : ¬ keys q <+: keys p) :
    (∀ pre k suf kvs, keys p = pre ++ k :: suf →
      (Node.map kvs0).get pre = some (.map kvs) →
      ∃ kvs', t'.get pre = some (.map kvs') ∧
        ∀ j, j ≠ k → mapIndex j kvs' = mapIndex j kvs) ∧
    (find t' root .invalid (keys q) "" false).observe
      = (find (.map kvs0) root .invalid (keys q) "" false).observe ∧
    (∀ (τ : Type) (unmarshal : Node → τ → Except GoError τ) (target : τ),
      getAt unmarshal q t' root target = getAt unmarshal q (.map kvs0) root target) := by
  obtain ⟨pre, k, suf, kvs, o, hkeys, hget, hcase, hin⟩ :=
    setAt_ok_shape kvs0 root hroot p v t' hset
  have hmiss_of : suf ≠ [] → (mapIndex k kvs = none ∨ mapIndex k kvs = some .null) := by
    intro hs
    rcases hcase with h | h
    · exact h
    · exact absurd h hs
  have hobs : (find t' root .invalid (keys q) "" false).observe
      = (find (.map kvs0) root .invalid (keys q) "" false).observe := by
    obtain ⟨c, a, b, r, r', hkq, hkp, hab⟩ := incomparable_split (keys p) (keys q) hpq hqp
    rw [hkeys] at hkp
    rcases split_position hkp with ⟨r'', hsplit⟩ | ⟨c2, rfl, rfl⟩
    · obtain ⟨kvsA, kvsB, hA, hB⟩ := setIn_prefix_maps hin hsplit
      rw [hkq]
      exact find_root_read_congr _ t' root hroot c a r kvsA kvsB hA hB
        (fun x => setIn_get_diverge pre _ k _ t' c b r'' a x hin hsplit hab)
    · have hmiss := hmiss_of (by simp)
      have hu : unresolved (.map kvs0) (keys q) = true := by
        rw [hkq, List.append_assoc, List.cons_append]
        exact unresolved_of_get_miss pre _ kvs k _ hget hmiss
      obtain ⟨t2, hs2, hg2⟩ := setIn_spec _ pre k (fill (c2 ++ b :: r') o) kvs hget
      have e : t2 = t' := setIn_some_inj hs2 hin
      subst e
      obtain ⟨F, hF⟩ : ∃ F, fill (c2 ++ b :: r') o = some F := by
        cases c2 <;> simp [fill]
      have hu' : unresolved t2 (keys q) = true := by
        rw [hkq, List.append_assoc, List.cons_append]
        refine unresolved_of_get pre t2 _ k F _ hg2 ?_ (unresolved_fill c2 b r' a r o F hab hF)
        rw [hF]
        exact mapIndex_updMap_same k (some F) kvs
      rw [find_unresolved _ root hroot _ hu, find_unresolved _ root hroot _ hu']
      rfl
  refine ⟨?_, hobs, fun τ unmarshal target => getAt_congr unmarshal q _ t' root target hobs⟩
  intro pre0 k0 suf0 kvsA hk0 hA
  rw [hkeys] at hk0
  rcases split_position hk0 with ⟨r'', hsplit⟩ | ⟨c2, rfl, rfl⟩
  · exact setIn_frame_entries hin hsplit kvsA hA
  · have hmiss := hmiss_of (by simp)
    rcases get_below_miss _ pre k c2 kvs hget hmiss with h | h
    · rw [h] at hA
      cases hA
    · rw [h] at hA
      cases hA

/-- Witness of claim C18: the annotations written at `/metadata/annotations` into a tree
whose `metadata` holds a name; the pointer `/metadata/name` reads the same before and after. -/
theorem setAt_changes_only_its_path_witness :
    setAt "/metadata/annotations" (.mapSS (some [("k", "v")]))
        (.map [("metadata", .map [("name", .str "x")])]) (.conc [])
      = .ok (.map [("metadata", .map [("name", .str "x"),
          ("annotations", .map [("k", .str "v")])])]) ∧
    ((∀ pre k suf kvs, keys "/metadata/annotations" = pre ++ k :: suf →
      (Node.map [("metadata", .map [("name", .str "x")])]).get pre = some (.map kvs) →
      ∃ kvs', (Node.map [("metadata", .map [("name", .str "x"),
          ("annotations", .map [("k", .str "v")])])]).get pre = some (.map kvs') ∧
        ∀ j, j ≠ k → mapIndex j kvs' = mapIndex j kvs) ∧
    (find (.map [("metadata", .map [("name", .str "x"),
          ("annotations", .map [("k", .str "v")])])]) (.conc []) .invalid
        (keys "/metadata/name") "" false).observe
      = (find (.map [("metadata", .map [("name", .str "x")])]) (.conc []) .invalid
          (keys "/metadata/name") "" false).observe ∧
    (∀ (τ : Type) (unmarshal : Node → τ → Except GoError τ) (target : τ),
      getAt unmarshal "/metadata/name" (.map [("metadata", .map [("name", .str "x"),
          ("annotations", .map [("k", .str "v")])])]) (.conc []) target
        = getAt unmarshal "/metadata/name" (.map [("metadata", .map [("name", .str "x")])])
            (.conc []) target)) :=
  ⟨rfl, setAt_changes_only_its_path [("metadata", .map [("name", .str "x")])] (.conc [])
    (Or.inl rfl) "/metadata/annotations" "/metadata/name" (.mapSS (some [("k", "v")])) _ rfl
    (by decide) (by decide)⟩

/-- Claim C21. A projection that holds more region records than the loops of
`WriteToWorkload` look up gets no error for it. Whenever the write for the region records
`mpt.Containers` does not panic (in particular a record exists for every match), the write
for those records followed by any further records `extra` ends the same way, with the same
tree and the same error if any: the further records are ignored. The inner loop over the
matches `ms` of a descriptor, entered with the counter `ci`, does not depend on further
records as soon as `ci + ms.length` records exist. And the pairing is by position: once the
loop has run over the matches `ms1`, the counter is `ci + ms1.length` and the next match
receives the record at that index. -/
theorem WriteToWorkload_ignores_surplus_records (lib : Library) (mpt : MetaPodTemplate)
    (extra : List MetaContainer) (hrun : WriteToWorkload lib mpt ≠ .panic) :
    WriteToWorkload lib { mpt with Containers := mpt.Containers ++ extra }
      = WriteToWorkload lib mpt ∧
    (∀ (c : ClusterWorkloadResourceMappingContainer) (ms : List (List Step)) (u : Node)
      (ci : Nat), ci + ms.length ≤ mpt.Containers.length →
      writeMatches c (mpt.Containers ++ extra) ms u ci
        = writeMatches c mpt.Containers ms u ci) ∧
    (∀ (c : ClusterWorkloadResourceMappingContainer) (ms1 : List (List Step)) (m : List Step)
      (ms2 : List (List Step)) (u : Node) (ci : Nat) (um : Node) (ck : Nat),
      writeMatches c (mpt.Containers ++ extra) ms1 u ci = .next um ck →
      ck = ci + ms1.length ∧
      writeMatches c (mpt.Containers ++ extra) (ms1 ++ m :: ms2) u ci =
        match (mpt.Containers ++ extra)[ci + ms1.length]? with
        | none => .panic
        | some mc =>
          match writeContainer c mc (region um m) with
          | .panic => .panic
          | .err e r' => .err e (um.setPath m r')
          | .ok r' =>
            writeMatches c (mpt.Containers ++ extra) ms2 (um.setPath m r')
              (ci + ms1.length + 1)) := by
  refine ⟨?_, ?_, ?_⟩
  · unfold WriteToWorkload at hrun ⊢
    simp only
    cases h1 : setAt mpt.mapping.Annotations (.mapSS mpt.Annotations) mpt.workload
        (.conc []) with
    | panic => rfl
    | err e t => rfl
    | ok u1 =>
      simp only [h1] at hrun ⊢
      have hc : writeContainers lib mpt.Containers mpt.mapping.Containers u1 0 ≠ .panic := by
        intro hc
        rw [hc] at hrun
        exact hrun rfl
      rw [writeContainers_surplus lib mpt.Containers extra _ u1 0 hc]
  · intro c ms u ci h
    exact writeMatches_enough c mpt.Containers extra ms u ci h
  · intro c ms1 m ms2 u ci um ck h
    have hck := (writeMatches_next c _ ms1 u ci um ck h).1
    subst hck
    refine ⟨rfl, ?_⟩
    rw [writeMatches_append, h]
    simp only [writeMatches]

/-- Witness of claim C21: one container is matched and the projection holds two region
records; the write returns without error, the container receives the first record and the
second record is ignored. -/
theorem WriteToWorkload_ignores_surplus_records_witness :
    WriteToWorkload scenarioLibrary
        (scenarioProjection ".spec.template.spec.containers[*]"
          [.map [("name", .str "a")]] ([scenarioRecord "c"] ++ [scenarioRecord "d"]))
      = .ok (.map [("spec", .map [("template", .map [
          ("spec", .map [("containers", .seq [
              .map [("name", .str "c"), ("env", .seq []), ("volumeMounts", .seq [])]]),
            ("volumes", .seq [])]),
          ("metadata", .map [("annotations", .map [])])])])]) ∧
    WriteToWorkload scenarioLibrary
        { scenarioProjection ".spec.template.spec.containers[*]"
            [.map [("name", .str "a")]] [scenarioRecord "c"] with
          Containers := (scenarioProjection ".spec.template.spec.containers[*]"
            [.map [("name", .str "a")]] [scenarioRecord "c"]).Containers
              ++ [scenarioRecord "d"] }
      = WriteToWorkload scenarioLibrary
          (scenarioProjection ".spec.template.spec.containers[*]"
            [.map [("name", .str "a")]] [scenarioRecord "c"]) :=
  ⟨rfl, (WriteToWorkload_ignores_surplus_records scenarioLibrary
    (scenarioProjection ".spec.template.spec.containers[*]"
      [.map [("name", .str "a")]] [scenarioRecord "c"]) [scenarioRecord "d"]
    (by
      have h : WriteToWorkload scenarioLibrary
          (scenarioProjection ".spec.template.spec.containers[*]"
            [.map [("name", .str "a")]] [scenarioRecord "c"])
          = .ok (.map [("spec", .map [("template", .map [
              ("spec", .map [("containers", .seq [
                  .map [("name", .str "c"), ("env", .seq []), ("volumeMounts", .seq [])]]),
                ("volumes", .seq [])]),
              ("metadata", .map [("annotations", .map [])])])])]) := rfl
      rw [h]
      exact fun e => Exec.noConfusion e)).1⟩

/-- Claim C22, the code at the failing input. The name pointer `/name/first` passes through
the string held under `name` of the matched container, a kind mismatch: `NewMetaPodTemplate`
does not return an error, it panics. It also panics when the volumes pointer, read after the
regions, is one whose read returns the error for a sequence on its path. The errors that the
reads return are returned: a sequence on the path of the volumes pointer, and an env entry
that holds a string where a list is decoded. -/
theorem NewMetaPodTemplate_scalar_on_path_panics :
    NewMetaPodTemplate scenarioLibrary (scenarioTree [.map [("name", .str "hello")]])
        { Annotations := "/spec/template/metadata/annotations",
          Containers := [{ Path := ".spec.template.spec.containers[*]", Name := "/name/first",
                           Env := "/env", VolumeMounts := "/volumeMounts" }],
          Volumes := "/spec/template/spec/volumes" }
      = .panic ∧
    getAt (unmarshalSlice scenarioLibrary.volume) "/spec/template/spec/containers/volumes"
        (scenarioTree [.map [("name", .str "hello")]]) (.conc []) (some [])
      = .err (.unhandledKind .Slice) ∧
    NewMetaPodTemplate scenarioLibrary (scenarioTree [.map [("name", .str "hello")]])
        { Annotations := "/spec/template/metadata/annotations",
          Containers := [{ Path := ".spec.template.spec.containers[*]", Name := "/name/first",
                           Env := "/env", VolumeMounts := "/volumeMounts" }],
          Volumes := "/spec/template/spec/containers/volumes" }
      = .panic ∧
    NewMetaPodTemplate scenarioLibrary (scenarioTree [.map [("name", .str "hello")]])
        { Annotations := "/spec/template/metadata/annotations",
          Containers := [{ Path := ".spec.template.spec.containers[*]", Name := "/name",
                           Env := "/env", VolumeMounts := "/volumeMounts" }],
          Volumes := "/spec/template/spec/containers/volumes" }
      = .err (.unhandledKind .Slice) ∧
    NewMetaPodTemplate scenarioLibrary
        (scenarioTree [.map [("name", .str "hello"), ("env", .str "oops")]])
        (scenarioMapping ".spec.template.spec.containers[*]")
      = .err .unmarshal :=
  ⟨rfl, rfl, rfl, rfl, rfl⟩

/-- Claim C23. For every root that is valid and not nil (the root map, a sequence, or a
selector match that holds any value other than nil) and in either mode, `find` called with
an empty key list, a nil parent and an empty last key returns the root itself as the node,
the nil parent and the empty last key, with no error, and leaves the tree as it is. -/
theorem find_empty_keys_returns_root (t : Node) (root : Value) (c : Bool)
    (hroot : root.isAbsent t = some false) :
    find t root .invalid [] "" c = .ret root .invalid "" none t := by
  rw [find]
  simp [ensure, hroot]

/-- Witness of claim C23: the root map in create mode and a selector match that holds a
string in read mode. -/
theorem find_empty_keys_returns_root_witness :
    find (.map [("name", .str "a")]) (.conc []) .invalid [] "" true
      = .ret (.conc []) .invalid "" none (.map [("name", .str "a")]) ∧
    find (.str "a") (.iface []) .invalid [] "" false
      = .ret (.iface []) .invalid "" none (.str "a") :=
  ⟨find_empty_keys_returns_root (.map [("name", .str "a")]) (.conc []) true rfl,
    find_empty_keys_returns_root (.str "a") (.iface []) false rfl⟩

/-- Claim C3, the code at the failing input. The nil env list is written through `/env` into
a region that holds an env list: `setAt` returns without error and removes the entry;
read-mode resolution of `/env` on the resulting region yields the zero `Value`, not the
generic shape of the list, and `getAt` decodes nothing: it leaves its target as it was, the
empty list that `NewMetaPodTemplate` passes or any other list, instead of reading back the
nil list. Likewise for the nil map written at `/metadata/annotations`. Written in the same
place, the empty list is read back. -/
theorem setAt_nil_then_getAt_keeps_target :
    setAt "/env" (.slice none)
        (.map [("name", .str "a"), ("env", .seq [.map [("name", .str "E")]])]) (.iface [])
      = .ok (.map [("name", .str "a")]) ∧
    find (.map [("name", .str "a")]) (.iface []) .invalid (keys "/env") "" false
      = .ret .invalid .invalid "" none (.map [("name", .str "a")]) ∧
    getAt (unmarshalSlice scenarioLibrary.envVar) "/env" (.map [("name", .str "a")])
        (.iface []) (some [])
      = .ok (some []) ∧
    getAt (unmarshalSlice scenarioLibrary.envVar) "/env" (.map [("name", .str "a")])
        (.iface []) (some [.map [("name", .str "OLD")]])
      = .ok (some [.map [("name", .str "OLD")]]) ∧
    setAt "/metadata/annotations" (.mapSS none)
        (.map [("metadata", .map [("annotations", .map [("k", .str "v")])])]) (.conc [])
      = .ok (.map [("metadata", .map [])]) ∧
    find (.map [("metadata", .map [])]) (.conc []) .invalid (keys "/metadata/annotations")
        "" false
      = .ret .invalid .invalid "" none (.map [("metadata", .map [])]) ∧
    getAt unmarshalStringMap "/metadata/annotations" (.map [("metadata", .map [])])
        (.conc []) (some [])
      = .ok (some []) ∧
    setAt "/env" (.slice (some []))
        (.map [("name", .str "a"), ("env", .seq [.map [("name", .str "E")]])]) (.iface [])
      = .ok (.map [("name", .str "a"), ("env", .seq [])]) ∧
    getAt (unmarshalSlice scenarioLibrary.envVar) "/env"
        (.map [("name", .str "a"), ("env", .seq [])]) (.iface [])
        (some [.map [("name", .str "OLD")]])
      = .ok (some []) :=
  ⟨rfl, rfl, rfl, rfl, rfl, rfl, rfl, rfl, rfl⟩

/-- Claim C4, the code at the failing input. The nil map written at `/metadata/annotations`
into the empty tree: the map for `metadata` is created and linked, and nothing is stored
under the last segment `annotations`. Likewise for the nil list written at `/spec/volumes`.
The map with the entry k = v written in the same place is stored under `annotations`. -/
theorem setAt_nil_value_leaves_last_segment_without_entry :
    setAt "/metadata/annotations" (.mapSS none) (.map []) (.conc [])
      = .ok (.map [("metadata", .map [])]) ∧
    (Node.map [("metadata", .map [])]).get ["metadata", "annotations"] = none ∧
    setAt "/spec/volumes" (.slice none) (.map []) (.conc [])
      = .ok (.map [("spec", .map [])]) ∧
    setAt "/metadata/annotations" (.mapSS (some [("k", "v")])) (.map []) (.conc [])
      = .ok (.map [("metadata", .map [("annotations", .map [("k", .str "v")])])]) :=
  ⟨rfl, rfl, rfl, rfl⟩

end Injector
